import Mathlib

/-!
Automated wheel truing stand: verification development.

A shallow embedding of the control and convergence code of the truing stand
(`mastermind.cpp`, `pos_controller.cpp`, `task_mastermind.cpp`, `shares.h`), of
its position tracker (`wheel_encoder.cpp`, `spoke_counter.cpp`) and of its motor
driver (`motordriver.cpp`).

Machine integers.  The firmware targets an 8-bit AVR (the sources include `<avr/io.h>` and program
ATmega registers), compiled with avr-gcc, where `int` is 16 bits wide and `long`
(`int32_t`) is 32 bits wide.  Values of the fixed-width C types are embedded as
mathematical integers; every narrowing conversion and every arithmetic operation
that C performs in a fixed width is followed by the two's-complement reduction of
that width (what avr-gcc emits; for signed overflow the C standard itself leaves
the result undefined).
-/

set_option autoImplicit false

/-! ## Fixed-width integers -/

/-- Reduction of an integer to the signed 8-bit range (conversion to `int8_t`). -/
def int8 (x : Int) : Int := (x + 128) % 256 - 128

/-- Reduction of an integer to the signed 16-bit range (conversion to `int16_t`). -/
def int16 (x : Int) : Int := (x + 32768) % 65536 - 32768

/-- Reduction of an integer to the signed 32-bit range (conversion to `int32_t`). -/
def int32 (x : Int) : Int := (x + 2147483648) % 4294967296 - 2147483648

/-- Result of an arithmetic operation carried out in the C type `int`, which is
16 bits wide on the AVR target. -/
def avr_int (x : Int) : Int := int16 x

/-- Result of an arithmetic operation carried out in the C type `long`
(`int32_t`), 32 bits wide on the AVR target. -/
def avr_long (x : Int) : Int := int32 x

/-- The value is representable as an `int8_t`. -/
def IsInt8 (x : Int) : Prop := -128 ≤ x ∧ x ≤ 127

/-- The value is representable as a `uint8_t`. -/
def IsUInt8 (x : Int) : Prop := 0 ≤ x ∧ x ≤ 255

/-- The value is representable as an `int16_t`. -/
def IsInt16 (x : Int) : Prop := -32768 ≤ x ∧ x ≤ 32767

instance (x : Int) : Decidable (IsInt8 x) := by unfold IsInt8; infer_instance
instance (x : Int) : Decidable (IsUInt8 x) := by unfold IsUInt8; infer_instance
instance (x : Int) : Decidable (IsInt16 x) := by unfold IsInt16; infer_instance

/-- The macro `ABS(x) ((x) < 0 ? (-(x)) : (x))` of `shares.h`, applied to an
operand of type `int8_t` or `int16_t`: the operand is promoted to `int` and the
negation is an `int` operation. -/
def ABS (x : Int) : Int := if x < 0 then avr_int (-x) else x

/-! ## mastermind.cpp -/

namespace mastermind

/-- Memory reached through an `int16_t meas[]` parameter: the value stored in
each slot, by index. -/
abbrev Meas := Nat → Int

/-- The first `n` slots hold `int16_t` values. -/
def Int16Array (meas : Meas) (n : Nat) : Prop := ∀ i, i < n → IsInt16 (meas i)

/-- Loop of `mastermind::con_to_offs` after `k` iterations (`ndx = 0 .. k-1`):
`meas[ndx] = (int16_t)(meas[ndx] - avg)`. -/
def con_to_offs_loop (meas : Meas) (avg : Int) : Nat → Meas
  | 0 => meas
  | k + 1 =>
    let m := con_to_offs_loop meas avg k
    Function.update m k (int16 (avr_int (m k - avg)))

/-- Function `mastermind::con_to_offs(meas, avg)` with `max_spokes = n`: the
array is converted in place and the same array is returned. -/
def con_to_offs (meas : Meas) (avg : Int) (n : Nat) : Meas :=
  con_to_offs_loop meas avg n

/-- Loop of `mastermind::find_worst` after `k` iterations: the pair
`(worst_spoke, worst_val)`, initialised to `(0, ABS(offs[0]))`. -/
def find_worst_loop (offs : Meas) : Nat → Nat × Int
  | 0 => (0, int16 (ABS (offs 0)))
  | k + 1 =>
    let st := find_worst_loop offs k
    if ABS (offs k) > st.2 then (k, int16 (ABS (offs k))) else st

/-- Function `mastermind::find_worst(offs)` with `max_spokes = n`. -/
def find_worst (offs : Meas) (n : Nat) : Nat := (find_worst_loop offs n).1

/-- Loop of `mastermind::find_avg` after `k` iterations: the `int32_t`
accumulator `sum`. -/
def find_avg_loop (meas : Meas) : Nat → Int
  | 0 => 0
  | k + 1 => avr_long (find_avg_loop meas k + meas k)

/-- Function `mastermind::find_avg(meas)` with `max_spokes = n`:
`(int16_t)(sum / max_spokes)`, a `long` division (truncating) narrowed to
`int16_t`. -/
def find_avg (meas : Meas) (n : Nat) : Int :=
  int16 (avr_long (Int.tdiv (find_avg_loop meas n) (n : Int)))

/-- Array whose first slots hold the given values (all other slots 0). -/
def ofList (l : List Int) : Meas := fun i => l.getD i 0

/-- Exact sum of the first `n` slots. -/
def total (meas : Meas) : Nat → Int
  | 0 => 0
  | k + 1 => total meas k + meas k

end mastermind

/-! ## motordriver interface and pos_controller.cpp -/

/-- Calls that can be made on the `motordriver` object (`motordriver.h`). -/
inductive motor_call
  | set_power (power : Int)
  | on
  | off
  | brake
  deriving DecidableEq, Repr

/-- Member data of class `pos_controller` (`pos_controller.h`): `esum` and
`limit` are `int8_t`, the gains `KP`, `KI`, `FF_gain` are `uint8_t`. -/
structure pos_controller where
  esum : Int
  KP : Int
  KI : Int
  FF_gain : Int
  limit : Int
  deriving DecidableEq, Repr

namespace pos_controller

/-- Every member holds a value of its declared C type. -/
def WellTyped (pc : pos_controller) : Prop :=
  IsInt8 pc.esum ∧ IsUInt8 pc.KP ∧ IsUInt8 pc.KI ∧ IsUInt8 pc.FF_gain ∧ IsInt8 pc.limit

instance (pc : pos_controller) : Decidable (WellTyped pc) := by
  unfold WellTyped; infer_instance

/-- Constructor `pos_controller::pos_controller(.., KP_input, KI_input,
FF_gain_input, int_limit)`: all four arguments are `uint8_t`; the motor is
switched on, the members are stored (`limit` is an `int8_t`) and `esum` is
cleared. -/
def construct (KP_input KI_input FF_gain_input int_limit : Int) :
    pos_controller × List motor_call :=
  ({ esum := 0, KP := KP_input, KI := KI_input, FF_gain := FF_gain_input,
     limit := int8 int_limit }, [motor_call.on])

/-- The local `int8_t e = pos_des - pos_act` of `pos_controller::update`: the
subtraction is an `int` operation whose result is narrowed to `int8_t`. -/
def error (spoke_count desired_spoke : Int) : Int :=
  int8 (avr_int (desired_spoke - spoke_count))

/-- Integrator branch of `pos_controller::update` (lines 88 to 102): the new
value of `esum`. -/
def integrate (pc : pos_controller) (e : Int) : Int :=
  if ABS e ≤ pc.limit then
    if avr_int (pc.esum + e) > 127 then 127
    else if avr_int (pc.esum + e) < -128 then -128
    else int8 (avr_int (pc.esum + e))
  else 0

/-- Function `pos_controller::update()`, given the values read from the shared
variables `spoke_count` and `desired_spoke`: the new controller state and the
calls made on the motor, in order. -/
def update (pc : pos_controller) (spoke_count desired_spoke : Int) :
    pos_controller × List motor_call :=
  let pos_act := spoke_count
  let pos_des := desired_spoke
  let e := error pos_act pos_des
  if e = 0 then
    (pc, [motor_call.set_power 0])
  else
    let esum1 := integrate pc e
    let KI_control :=
      if ABS e ≤ pc.limit then
        avr_long (avr_int (avr_int (esum1 * pc.FF_gain) * pc.KI))
      else 0
    let KP_control := avr_long (avr_int (avr_int (e * pc.FF_gain) * pc.KP))
    let control :=
      if avr_long (KP_control + KI_control) > 32000 then 32000
      else if avr_long (KP_control + KI_control) < -32000 then -32000
      else int16 (avr_long (KP_control + KI_control))
    ({ pc with esum := esum1 }, [motor_call.set_power control])

/-- The proportional term of `pos_controller::update` (line 105),
`KP_control = e * FF_gain * KP`, as the code computes it: the product is an
`int` expression, widened to `int32_t` afterwards. -/
def proportional (pc : pos_controller) (e : Int) : Int :=
  avr_long (avr_int (avr_int (e * pc.FF_gain) * pc.KP))

/-- The saturation of the specification: clamp to the range from -32000 to
32000. -/
def saturate (x : Int) : Int := max (-32000) (min 32000 x)

/-- The anti-windup clamp of the specification: clamp to the range from -128 to
127. -/
def clamp8 (x : Int) : Int := max (-128) (min 127 x)

/-- Controller state after a run of consecutive ticks, one pair
`(spoke_count, desired_spoke)` per tick. -/
def ticks (pc : pos_controller) : List (Int × Int) → pos_controller
  | [] => pc
  | (sc, ds) :: rest => ticks (update pc sc ds).1 rest

end pos_controller

/-! ## shares.h: protocol messages and shared variables -/

/-- Messages from the truing algorithm task to the user interface task. -/
inductive ui_messages
  | HELLO | GOODBYE | TIGHTEN | LOOSEN | TRY_AGAIN | MEASURING | DONE
  | PRINT_SPOKE | GO_BACK | DONE_MEASURING | WAIT | STOP_WAITING
  | ENTER_SPOKES | FIRST_SPOKE | ECHO
  deriving DecidableEq, Repr

/-- Messages from the user interface task back to the truing algorithm task. -/
inductive messages_from_ui
  | DID_THAT | ACK
  deriving DecidableEq, Repr

/-- What the mastermind task shares with the rest of the system.

* `desired_spoke`: the shared `volatile int8_t desired_spoke`.
* `to_ui`: every message put on the queue `to_ui` so far, oldest first.
* `positions`: the values of the shared `volatile int8_t spoke_count` that the
  coming polling iterations will observe, one value per iteration of a polling
  loop (the value is taken not to change within one iteration).
* `pot`, `pot_reads`: `pot k` is what the `k`-th call of `pot->get_value(0)`
  returns; `pot_reads` counts the calls made so far.
* `from_ui`: what the coming polls of the queue `from_ui` find: `none` when
  `is_empty()` holds, `some m` when `get()` returns `m`. -/
structure World where
  desired_spoke : Int
  to_ui : List ui_messages
  positions : List Int
  pot : Nat → Int
  pot_reads : Nat
  from_ui : List (Option messages_from_ui)

/-- Outcome of code that contains polling loops, run against a finite supply of
observations: `exited a` when the code ran to its end in state `a`, `waiting a`
when the supply ran out while the code, in state `a`, was still polling (or had
passes of an outer loop left to do). -/
inductive Outcome (α : Type)
  | exited (a : α)
  | waiting (a : α)

/-- The state carried by an outcome, whether the code ran to its end or not. -/
def Outcome.state {α : Type} : Outcome α → α
  | Outcome.exited a => a
  | Outcome.waiting a => a

/-- Whether the code ran to its end. -/
def Outcome.isExited {α : Type} : Outcome α → Bool
  | Outcome.exited _ => true
  | Outcome.waiting _ => false

/-- The messages that the engine is said to send: HELLO, MEASURING, GO_BACK,
PRINT_SPOKE, TIGHTEN and GOODBYE. -/
def EngineMessage (m : ui_messages) : Prop :=
  m = ui_messages.HELLO ∨ m = ui_messages.MEASURING ∨ m = ui_messages.GO_BACK ∨
  m = ui_messages.PRINT_SPOKE ∨ m = ui_messages.TIGHTEN ∨ m = ui_messages.GOODBYE

instance (m : ui_messages) : Decidable (EngineMessage m) := by
  unfold EngineMessage; infer_instance

namespace mastermind

/-- Put a message on the queue `to_ui`. -/
def put (w : World) (m : ui_messages) : World := { w with to_ui := w.to_ui ++ [m] }

/-- First polling loop of `mastermind::measure_all` (lines 61 to 66), started
with local `prev_spoke` and the log of `to_ui`: the log and the observations
left. -/
def approach_loop (desired : Int) :
    Int → List ui_messages → List Int → Outcome (List ui_messages × List Int)
  | _, out, [] => Outcome.waiting (out, [])
  | prev_spoke, out, spoke_count :: rest =>
    if spoke_count = desired then Outcome.exited (out, rest)
    else if prev_spoke ≠ spoke_count then
      approach_loop desired spoke_count (out ++ [ui_messages.GO_BACK]) rest
    else approach_loop desired prev_spoke out rest

/-- State of the second polling loop of `mastermind::measure_all`. -/
structure Sweep where
  meas : Meas
  out : List ui_messages
  pot_reads : Nat
  rest : List Int

/-- Second polling loop of `mastermind::measure_all` (lines 71 to 81) with
`max_spokes = n`, for a shared `spoke_count` that keeps one value during each
polling iteration: the list holds that value, iteration by iteration.  The loop
with every read of the variable on its own is `overrun_loop_reads`; the two
agree when no value changes within an iteration. -/
def overrun_loop (n : Nat) (desired : Int) (pot : Nat → Int) :
    Int → Meas → List ui_messages → Nat → List Int → Outcome Sweep
  | _, meas, out, reads, [] =>
    Outcome.waiting { meas := meas, out := out, pot_reads := reads, rest := [] }
  | prev_spoke, meas, out, reads, spoke_count :: rest =>
    if spoke_count = desired then
      Outcome.exited { meas := meas, out := out, pot_reads := reads, rest := rest }
    else if prev_spoke ≠ spoke_count then
      if 0 ≤ spoke_count ∧ spoke_count ≤ (n : Int) then
        overrun_loop n desired pot spoke_count
          (Function.update meas spoke_count.toNat (int16 (pot reads)))
          (out ++ [ui_messages.PRINT_SPOKE]) (reads + 1) rest
      else
        overrun_loop n desired pot spoke_count meas
          (out ++ [ui_messages.PRINT_SPOKE]) reads rest
    else overrun_loop n desired pot prev_spoke meas out reads rest

/-- Trace of the notices of the second polling loop: for every execution of
`to_ui->put(PRINT_SPOKE)` (line 73), the number of the polling iteration
(counted from the first argument) and the index observed in it, in order. -/
def overrun_prints (desired : Int) : Nat → Int → List Int → List (Nat × Int)
  | _, _, [] => []
  | step, prev_spoke, spoke_count :: rest =>
    if spoke_count = desired then []
    else if prev_spoke ≠ spoke_count then
      (step, spoke_count) :: overrun_prints desired (step + 1) spoke_count rest
    else overrun_prints desired (step + 1) prev_spoke rest

/-- Trace of the samples of the second polling loop with `max_spokes = n`: for
every execution of `meas[spoke_count] = (int16_t)(pot->get_value(0))` (line 77),
the number of the polling iteration (counted from the first argument) and the
index observed in it, in order. -/
def overrun_samples (n : Nat) (desired : Int) : Nat → Int → List Int → List (Nat × Int)
  | _, _, [] => []
  | step, prev_spoke, spoke_count :: rest =>
    if spoke_count = desired then []
    else if prev_spoke ≠ spoke_count then
      if 0 ≤ spoke_count ∧ spoke_count ≤ (n : Int) then
        (step, spoke_count) :: overrun_samples n desired (step + 1) spoke_count rest
      else overrun_samples n desired (step + 1) spoke_count rest
    else overrun_samples n desired (step + 1) prev_spoke rest

/-- The array after the samples of a trace have been stored, the first of them
being call number `reads` of `pot->get_value(0)`. -/
def store_samples (pot : Nat → Int) : Nat → Meas → List (Nat × Int) → Meas
  | _, meas, [] => meas
  | reads, meas, e :: more =>
    store_samples pot (reads + 1) (Function.update meas e.2.toNat (int16 (pot reads))) more

/-- Observations of a wheel that turns forward one index at a time: the index
`lo` is observed `c + 1` times in a row for the first count `c`, then `lo + 1`
for the next count, and so on. -/
def staircase (lo : Int) : List Nat → List Int
  | [] => []
  | c :: cs => List.replicate (c + 1) lo ++ staircase (lo + 1) cs

/-- For the observations `staircase lo cs`, numbered from `step`: the number of
the first observation of each index, with that index. -/
def stair_events (lo : Int) (step : Nat) : List Nat → List (Nat × Int)
  | [] => []
  | c :: cs => (step, lo) :: stair_events (lo + 1) (step + c + 1) cs

/-! ### The second polling loop, read by read

One iteration of the loop of lines 71 to 81 evaluates the shared
`volatile int8_t spoke_count` up to six times, and the interrupt-driven tracker
may change it between any two of these evaluations. -/

/-- The values that the six evaluations of `spoke_count` in one iteration of the
second polling loop return (an evaluation that the iteration does not reach
leaves its value unused):

* `loop_test`: in `while(spoke_count != desired_spoke)` (line 71);
* `change_test`: in `if(prev_spoke != spoke_count)` (line 72);
* `guard_low`: in `spoke_count >= 0` (line 76);
* `guard_high`: in `spoke_count <= max_spokes` (line 76), evaluated only when
  the first operand of `&&` holds;
* `index`: in `meas[spoke_count] = ..` (line 77);
* `prev_store`: in `prev_spoke = spoke_count` (line 79). -/
structure Reads where
  loop_test : Int
  change_test : Int
  guard_low : Int
  guard_high : Int
  index : Int
  prev_store : Int
  deriving DecidableEq, Repr

/-- An iteration during which `spoke_count` keeps the value `v`. -/
def Reads.const (v : Int) : Reads :=
  { loop_test := v, change_test := v, guard_low := v, guard_high := v, index := v,
    prev_store := v }

/-- All evaluations of the iteration return the same value. -/
def Reads.Stable (r : Reads) : Prop := r = Reads.const r.loop_test

instance (r : Reads) : Decidable r.Stable := by
  unfold Reads.Stable; infer_instance

/-- State of the second polling loop, read by read. -/
structure SweepReads where
  meas : Meas
  out : List ui_messages
  pot_reads : Nat
  rest : List Reads

/-- Second polling loop of `mastermind::measure_all` (lines 71 to 81) with
`max_spokes = n`, every evaluation of `spoke_count` taking its own value.  The
store `meas[spoke_count] = ..` uses the value of its own evaluation as the
index; with a negative index it falls before the array and changes none of the
slots kept here. -/
def overrun_loop_reads (n : Nat) (desired : Int) (pot : Nat → Int) :
    Int → Meas → List ui_messages → Nat → List Reads → Outcome SweepReads
  | _, meas, out, reads, [] =>
    Outcome.waiting { meas := meas, out := out, pot_reads := reads, rest := [] }
  | prev_spoke, meas, out, reads, r :: rest =>
    if r.loop_test = desired then
      Outcome.exited { meas := meas, out := out, pot_reads := reads, rest := rest }
    else if prev_spoke ≠ r.change_test then
      if 0 ≤ r.guard_low ∧ r.guard_high ≤ (n : Int) then
        overrun_loop_reads n desired pot r.prev_store
          (if 0 ≤ r.index then Function.update meas r.index.toNat (int16 (pot reads))
            else meas)
          (out ++ [ui_messages.PRINT_SPOKE]) (reads + 1) rest
      else
        overrun_loop_reads n desired pot r.prev_store meas
          (out ++ [ui_messages.PRINT_SPOKE]) reads rest
    else overrun_loop_reads n desired pot prev_spoke meas out reads rest

/-- Trace of the samples of the loop read by read: for every execution of
`meas[spoke_count] = (int16_t)(pot->get_value(0))` (line 77), the number of the
polling iteration (counted from the first argument) and the index that the
store uses, in order. -/
def overrun_reads_samples (n : Nat) (desired : Int) : Nat → Int → List Reads → List (Nat × Int)
  | _, _, [] => []
  | step, prev_spoke, r :: rest =>
    if r.loop_test = desired then []
    else if prev_spoke ≠ r.change_test then
      if 0 ≤ r.guard_low ∧ r.guard_high ≤ (n : Int) then
        (step, r.index) :: overrun_reads_samples n desired (step + 1) r.prev_store rest
      else overrun_reads_samples n desired (step + 1) r.prev_store rest
    else overrun_reads_samples n desired (step + 1) prev_spoke rest

/-- The values that the loop read by read obtains from `spoke_count`, in the
order of the evaluations that it performs. -/
def overrun_reads_values (n : Nat) (desired : Int) : Int → List Reads → List Int
  | _, [] => []
  | prev_spoke, r :: rest =>
    if r.loop_test = desired then [r.loop_test]
    else if prev_spoke ≠ r.change_test then
      if 0 ≤ r.guard_low then
        if r.guard_high ≤ (n : Int) then
          r.loop_test :: r.change_test :: r.guard_low :: r.guard_high :: r.index ::
            r.prev_store :: overrun_reads_values n desired r.prev_store rest
        else
          r.loop_test :: r.change_test :: r.guard_low :: r.guard_high ::
            r.prev_store :: overrun_reads_values n desired r.prev_store rest
      else
        r.loop_test :: r.change_test :: r.guard_low ::
          r.prev_store :: overrun_reads_values n desired r.prev_store rest
    else r.loop_test :: r.change_test :: overrun_reads_values n desired prev_spoke rest

/-- A sweep of a wheel of 4 spokes that turns forward one index at a time
while the loop polls: every iteration sees one value, except the one that
first sees index 0, during which the wheel reaches index 1 between the test
`spoke_count <= max_spokes` and the store. -/
def racing_sweep : List Reads :=
  [-10, -9, -8, -7, -6, -5, -4, -3, -2, -1].map Reads.const ++
  { loop_test := 0, change_test := 0, guard_low := 0, guard_high := 0, index := 1,
    prev_store := 1 } ::
  [1, 1, 2, 3, 4, 5, 6, 7, 8, 9, 10, 11, 12, 13, 14].map Reads.const

/-- Function `mastermind::measure_all(meas)` with `max_spokes = n`: the array
and the shared data afterwards. -/
def measure_all (n : Nat) (meas : Meas) (w : World) : Outcome (Meas × World) :=
  match approach_loop (-10) (-127) w.to_ui w.positions with
  | Outcome.waiting (out1, rest1) =>
    Outcome.waiting (meas, { w with desired_spoke := -10, to_ui := out1, positions := rest1 })
  | Outcome.exited (out1, rest1) =>
    match overrun_loop n (int8 (avr_int ((n : Int) + 10))) w.pot (-127) meas out1
        w.pot_reads rest1 with
    | Outcome.waiting s =>
      Outcome.waiting (s.meas,
        { w with desired_spoke := int8 (avr_int ((n : Int) + 10)), to_ui := s.out,
                 positions := s.rest, pot_reads := s.pot_reads })
    | Outcome.exited s =>
      Outcome.exited (s.meas,
        { w with desired_spoke := int8 (n : Int), to_ui := s.out,
                 positions := s.rest, pot_reads := s.pot_reads })

end mastermind

/-! ## task_mastermind.cpp -/

namespace task_mastermind

open mastermind

/-- Local variables of `task_mastermind::run` that the algorithm uses (the
debugging text written to the serial port, and `prev_spoke` which only paces
that text, are left out). -/
structure Locals where
  spokes : Meas
  avg : Int
  finished : Bool
  worst_spoke : Nat
  worst_spoke_val : Int
  worst_spoke_prev : Int

/-- Loop `while(spoke_count != worst_spoke)` of `run` (lines 111 to 116): the
observations left. -/
def goto_loop (worst_spoke : Int) : List Int → Outcome (List Int)
  | [] => Outcome.waiting []
  | spoke_count :: rest =>
    if spoke_count ≠ worst_spoke then goto_loop worst_spoke rest else Outcome.exited rest

/-- Loop `while(from_ui->is_empty() || from_ui->get() != DID_THAT)` of `run`
(lines 120 to 121): the polls left. -/
def await_loop : List (Option messages_from_ui) → Outcome (List (Option messages_from_ui))
  | [] => Outcome.waiting []
  | none :: rest => await_loop rest
  | some m :: rest =>
    if m ≠ messages_from_ui.DID_THAT then await_loop rest else Outcome.exited rest

/-- First half of the body of the loop `while(!finished)` (lines 105 to 121):
go to the worst spoke, send the directive and wait for the acknowledgment. -/
def correction (worst_spoke : Nat) (w : World) : Outcome World :=
  let w1 := { w with desired_spoke := int8 (worst_spoke : Int) }
  match goto_loop (worst_spoke : Int) w1.positions with
  | Outcome.waiting rest => Outcome.waiting { w1 with positions := rest }
  | Outcome.exited rest =>
    let w2 := put { w1 with positions := rest } ui_messages.TIGHTEN
    match await_loop w2.from_ui with
    | Outcome.waiting polls => Outcome.waiting { w2 with from_ui := polls }
    | Outcome.exited polls => Outcome.exited { w2 with from_ui := polls }

/-- Analysis of a fresh sweep (lines 126 and 138 to 155): average, offsets,
worst spoke and the tolerance test `ABS(worst_spoke_val) < 10`. -/
def analyse (n : Nat) (l : Locals) (swept : Meas) : Locals :=
  let avg := find_avg swept n
  let spokes := con_to_offs swept avg n
  let worst_spoke := find_worst spokes n
  let worst_spoke_val := spokes worst_spoke
  { spokes := spokes,
    avg := avg,
    finished := if ABS worst_spoke_val < 10 then true else l.finished,
    worst_spoke := worst_spoke,
    worst_spoke_val := worst_spoke_val,
    worst_spoke_prev := (l.worst_spoke : Int) }

/-- Second half of the body of the loop `while(!finished)` (lines 123 to 155):
announce the measurement, sweep again and analyse the sweep. -/
def resweep (n : Nat) (l : Locals) (w : World) : Outcome (Locals × World) :=
  match measure_all n l.spokes (put w ui_messages.MEASURING) with
  | Outcome.waiting (meas, w1) => Outcome.waiting ({ l with spokes := meas }, w1)
  | Outcome.exited (swept, w1) => Outcome.exited (analyse n l swept, w1)

/-- One pass through the body of the loop `while(!finished)`. -/
def loop_body (n : Nat) (l : Locals) (w : World) : Outcome (Locals × World) :=
  match correction l.worst_spoke w with
  | Outcome.waiting w1 => Outcome.waiting (l, w1)
  | Outcome.exited w1 => resweep n l w1

/-- The loop `while(!finished)` followed by `to_ui->put(GOODBYE)` (lines 103 to
159), started with the given locals; `fuel` bounds the number of passes through
the loop body. -/
def run_loop (n : Nat) : Nat → Locals → World → Outcome (Locals × World)
  | fuel, l, w =>
    if l.finished then Outcome.exited (l, put w ui_messages.GOODBYE)
    else
      match fuel with
      | 0 => Outcome.waiting (l, w)
      | fuel1 + 1 =>
        match loop_body n l w with
        | Outcome.waiting s => Outcome.waiting s
        | Outcome.exited (l1, w1) => run_loop n fuel1 l1 w1

/-- The locals of `run` when the loop `while(!finished)` is first reached
(lines 81 to 101), from the array filled by the first sweep. -/
def first_analysis (n : Nat) (swept : Meas) : Locals :=
  let avg := find_avg swept n
  let spokes := con_to_offs swept avg n
  let worst_spoke := find_worst spokes n
  { spokes := spokes, avg := avg, finished := false, worst_spoke := worst_spoke,
    worst_spoke_val := spokes worst_spoke, worst_spoke_prev := 128 }

/-- Function `task_mastermind::run` with `max_spokes = n`; `stack` is the
content of the local array `spokes` before the first sweep. -/
def run (n : Nat) (fuel : Nat) (stack : Meas) (w : World) : Outcome (Locals × World) :=
  match measure_all n stack (put (put w ui_messages.HELLO) ui_messages.MEASURING) with
  | Outcome.waiting (meas, w1) =>
    Outcome.waiting
      ({ spokes := meas, avg := 0, finished := false, worst_spoke := 0,
         worst_spoke_val := 0, worst_spoke_prev := 0 }, w1)
  | Outcome.exited (swept, w1) => run_loop n fuel (first_analysis n swept) w1

/-! ### A worked correction cycle on a wheel of 4 spokes -/

/-- Locals after a first sweep that read 12, 8, 10, 10. -/
def demo_locals : Locals := first_analysis 4 (ofList [12, 8, 10, 10])

/-- Shared data at the top of the loop body: the wheel passes index 1 on its
way to index 0, the operator sends an ACK and then DID_THAT, and the wheel then
goes back to -10 and forward to 14; the potentiometer returns `readings`. -/
def demo_world (readings : List Int) : World :=
  { desired_spoke := 4,
    to_ui := [],
    positions := [1, 0, -5, -10, -3, 0, 1, 2, 3, 4, 9, 14],
    pot := fun k => readings.getD k 0,
    pot_reads := 0,
    from_ui := [none, some messages_from_ui.ACK, some messages_from_ui.DID_THAT] }

/-- State in which one pass through the loop body leaves `demo_locals` and
`demo_world readings`. -/
def demo_after (readings : List Int) : Locals × World :=
  match loop_body 4 demo_locals (demo_world readings) with
  | Outcome.exited s => s
  | Outcome.waiting s => s

end task_mastermind

/-! ### A sweep on the wheel of 32 spokes of the shipped configuration -/

namespace mastermind

/-- Shared data for one sweep with `max_spokes = 32`: the wheel is seen at -10
and then at every index from -9 to 42; call number `k` of the potentiometer
returns `100 + k`. -/
def shipped_sweep_world : World :=
  { desired_spoke := 0,
    to_ui := [],
    positions := [-10] ++ (List.range 52).map (fun k : Nat => (k : Int) - 9),
    pot := fun k : Nat => 100 + (k : Int),
    pot_reads := 0,
    from_ui := [] }

end mastermind

/-! ### The end-to-end scenario of the specification on a wheel of 4 spokes -/

namespace task_mastermind

/-- Shared data for a whole run: the wheel goes back to -10 and forward to 14
(first sweep, the potentiometer reads 12, 8, 10, 10 at the indices 0 to 3 and 11
at index 4), then to index 0; the operator acknowledges; the wheel sweeps again
(readings 10, 9, 11, 10 and again 11 at index 4). -/
def scenario_world : World :=
  { desired_spoke := 0,
    to_ui := [],
    positions :=
      [-3, -7, -10] ++ [-10, -9, -4, 0, 0, 1, 2, 3, 4, 5, 9, 14] ++
      [4, 3, 2, 1, 0] ++
      [0, -5, -10] ++ [-9, 0, 1, 1, 2, 3, 4, 8, 14],
    pot := fun k => [12, 8, 10, 10, 11, 10, 9, 11, 10, 11].getD k 0,
    pot_reads := 0,
    from_ui := [none, some messages_from_ui.DID_THAT] }

/-- The scenario on a wheel that is true from the start: every reading of the
potentiometer is 10, so all offsets of the first sweep are 0. -/
def true_wheel_world : World := { scenario_world with pot := fun _ => 10 }

end task_mastermind

/-! ## wheel_encoder.cpp and spoke_counter.cpp: the position tracker -/

/-- Variables of the position tracker and the shared variables next to them.

* `count`: the `static volatile int8_t count` of `spoke_counter.cpp`, written
  by the edge interrupt only.
* `spoke_count`: the shared `volatile int8_t spoke_count`, the published copy.
* `max_spokes`: the shared `uint8_t max_spokes`.
* `wheel_direction`: the shared `volatile bool wheel_direction`.
* `chan5high`, `chan6high`: the `static volatile bool` levels last stored by the
  channel interrupts of `wheel_encoder.cpp`.
* `desired_spoke`: the shared `volatile int8_t desired_spoke`. -/
structure Tracker where
  count : Int
  spoke_count : Int
  max_spokes : Nat
  wheel_direction : Bool
  chan5high : Bool
  chan6high : Bool
  desired_spoke : Int
  deriving DecidableEq, Repr

namespace wheel_encoder

/-- Constructor `wheel_encoder::wheel_encoder` (lines 45 to 60): both stored
levels are cleared and the direction is set to `true`. -/
def construct (t : Tracker) : Tracker :=
  { t with chan5high := false, chan6high := false, wheel_direction := true }

/-- Function `wheel_encoder::get_direction` (lines 67 to 74): the value of
`wheel_direction`, read with the interrupts disabled. -/
def get_direction (t : Tracker) : Bool := t.wheel_direction

/-- Handler `ISR(INT5_vect)` (lines 84 to 88); `pe5` is the level of pin PE5 read
from `PINE`. -/
def INT5_vect (t : Tracker) (pe5 : Bool) : Tracker :=
  let t1 := { t with chan5high := pe5 }
  { t1 with wheel_direction := if t1.chan5high then !t1.chan6high else t1.chan6high }

/-- Handler `ISR(INT6_vect)` (lines 92 to 96); `pe6` is the level of pin PE6 read
from `PINE`. -/
def INT6_vect (t : Tracker) (pe6 : Bool) : Tracker :=
  let t1 := { t with chan6high := pe6 }
  { t1 with wheel_direction := if t1.chan6high then t1.chan5high else !t1.chan5high }

/-- One step of the wheel in the sense 00, 10, 11, 01, 00 of the levels
(channel 5, channel 6): the channel that changes next raises its interrupt with
its new level. -/
def quadrature_forward (t : Tracker) : Tracker :=
  match t.chan5high, t.chan6high with
  | false, false => INT5_vect t true
  | true, false => INT6_vect t true
  | true, true => INT5_vect t false
  | false, true => INT6_vect t false

/-- One step of the wheel in the sense 00, 01, 11, 10, 00 of the levels
(channel 5, channel 6). -/
def quadrature_reverse (t : Tracker) : Tracker :=
  match t.chan5high, t.chan6high with
  | false, false => INT6_vect t true
  | false, true => INT5_vect t true
  | true, true => INT6_vect t false
  | true, false => INT5_vect t false

end wheel_encoder

namespace spoke_counter

/-- Constructor `spoke_counter::spoke_counter(.., we, num_spokes)` (lines 59 to
79): the count and its published copy are cleared and `max_spokes` is set. -/
def construct (t : Tracker) (num_spokes : Nat) : Tracker :=
  { t with count := 0, spoke_count := 0, max_spokes := num_spokes }

/-- Function `spoke_counter::update` (lines 86 to 91): `spoke_count = count`,
executed between `cli()` and `sei()`. -/
def update (t : Tracker) : Tracker := { t with spoke_count := t.count }

/-- Handler `ISR(INT4_vect)` (lines 98 to 106): `count++` when
`wheel->get_direction()` holds, `count--` otherwise; `count` is an `int8_t`. -/
def INT4_vect (t : Tracker) : Tracker :=
  if wheel_encoder.get_direction t then
    { t with count := int8 (avr_int (t.count + 1)) }
  else
    { t with count := int8 (avr_int (t.count - 1)) }

end spoke_counter

/-! ## motordriver.cpp -/

/-- Members of a `motordriver` object, together with the content of the
hardware registers that its methods write.

* `settingsReg` is the content of the 8-bit port register that the member
  pointer of this name refers to (PORTC for channel 1, PORTD for channel 2);
* `inA`, `inB`, `en` are the bit numbers stored in the object;
* `compareReg` is the content of the 16-bit output compare register behind the
  member pointer of this name (OCR1B or OCR1A);
* `ICR1` is the content of the register that holds the TOP value of the PWM
  counter.

The data direction and timer control registers, which only the constructor
writes, and the serial port are left out. -/
structure motordriver where
  settingsReg : Nat
  inA : Nat
  inB : Nat
  en : Nat
  compareReg : Int
  nullFlag : Bool
  whichchannelami : Nat
  current_power : Int
  ICR1 : Int
  deriving DecidableEq, Repr

namespace motordriver

/-- The `int` value `1 << bit` as a 16-bit pattern. -/
def bit_mask (bit : Nat) : Nat := (1 <<< bit) % 65536

/-- Statement `*settingsReg |= mask`: the operands are promoted to `int`, the
result is stored into the `uint8_t` register. -/
def or_assign (reg mask : Nat) : Nat := (reg ||| mask % 65536) % 256

/-- Statement `*settingsReg &= ~mask`, the complement being taken on the 16 bits
of an `int`. -/
def and_not_assign (reg mask : Nat) : Nat := (reg &&& (65535 ^^^ (mask % 65536))) % 256

end motordriver

/-- Function `motordriver::on` (lines 193 to 202). -/
def motordriver.on (m : motordriver) : motordriver :=
  if !m.nullFlag then
    { m with settingsReg := motordriver.or_assign m.settingsReg (motordriver.bit_mask m.en) }
  else m

namespace motordriver

/-- Function `motordriver::off` (lines 210 to 219). -/
def off (m : motordriver) : motordriver :=
  if !m.nullFlag then { m with settingsReg := and_not_assign m.settingsReg (bit_mask m.en) }
  else m

/-- Function `motordriver::brake` (lines 228 to 237). -/
def brake (m : motordriver) : motordriver :=
  if !m.nullFlag then
    { m with settingsReg := or_assign m.settingsReg (bit_mask m.inA ||| bit_mask m.inB) }
  else m

/-- The parameter `power` of `set_power` after the statement `if(power < 0)`
(lines 154 to 166): a negative value is multiplied by -1 in `int` arithmetic
and stored back into the `int16_t` parameter. -/
def power_after_sign (power : Int) : Int :=
  if power < 0 then int16 (avr_int (power * -1)) else power

/-- Function `motordriver::set_power` (lines 151 to 184); `power` is the
`int16_t` argument.  The percentage `(uint8_t)(power / 32768.0) * 100` is 0 for
every quotient of magnitude below 1; the conversion of the quotient -1.0 (left
by the argument -32768) to `uint8_t` is not defined by the language and is
taken modulo 256 here. -/
def set_power (m : motordriver) (power : Int) : motordriver :=
  if !m.nullFlag then
    let reg :=
      if power < 0 then
        and_not_assign (or_assign m.settingsReg (bit_mask m.inB)) (bit_mask m.inA)
      else
        and_not_assign (or_assign m.settingsReg (bit_mask m.inA)) (bit_mask m.inB)
    let power1 := power_after_sign power
    let current_power := (Int.tdiv power1 32768 % 256 * 100) % 256
    let power2 := int16 (avr_int (Int.tdiv power1 8))
    { m with settingsReg := reg, current_power := current_power,
             compareReg := power2 % 65536 }
  else m

/-- Constructor `motordriver::motordriver` (lines 51 to 139) for the channel
`motorChannel`; `raw` holds what the members and registers contain before the
constructor runs (no member has an initialiser, so `nullFlag` is whatever the
memory of the object held).  The bit numbers are those of the device header:
PORTC0, PORTC1, PORTC2 are 0, 1, 2 and PORTD5, PORTD6, PORTD7 are 5, 6, 7. -/
def construct (raw : motordriver) (motorChannel : Nat) : motordriver :=
  let m1 :=
    if motorChannel = 1 then
      off { raw with whichchannelami := 1, inA := 0, inB := 1, en := 2, compareReg := 0 }
    else if motorChannel = 2 then
      off { raw with whichchannelami := 2, inA := 5, inB := 6, en := 7, compareReg := 0 }
    else { raw with nullFlag := true }
  if !m1.nullFlag then { m1 with ICR1 := 0x0FFF } else m1

/-- One call of a method of the driver. -/
def call (m : motordriver) : motor_call → motordriver
  | motor_call.set_power power => set_power m power
  | motor_call.on => motordriver.on m
  | motor_call.off => off m
  | motor_call.brake => brake m

/-- A sequence of calls, in order. -/
def calls (m : motordriver) (l : List motor_call) : motordriver := l.foldl call m

/-- Members and registers that are all clear before the constructor runs. -/
def cleared : motordriver :=
  { settingsReg := 0, inA := 0, inB := 0, en := 0, compareReg := 0, nullFlag := false,
    whichchannelami := 0, current_power := 0, ICR1 := 0 }

end motordriver

/-! ## The publish step interleaved with the interrupt handlers

A machine with one processor: the task that calls `spoke_counter::update` in a
loop, the interrupt handlers, and readers of the shared `spoke_count`.  The
flag `iflag` is the global interrupt enable bit of the status register:
`cli()` clears it, `sei()` sets it, the processor clears it when it enters a
handler and sets it again when the handler returns, and a handler is only
entered while it is set. -/

namespace spoke_counter

/-- An activation of `ISR(INT4_vect)` that has not returned yet.  The call
`wheel->get_direction()` at its start runs with the interrupts disabled and ends
with `sei()`, so the rest of the handler (`count++` or `count--`, a load and a
store of the `volatile` byte, and the return) runs with the interrupts enabled.

* `direction`: the value that `get_direction` returned;
* `stage`: 0 before the load of `count`, 1 before the store, 2 before the return;
* `r`: the register that holds the loaded `count`. -/
structure Frame where
  direction : Bool
  stage : Nat
  r : Int
  deriving DecidableEq, Repr

/-- State of the machine.

* `vars`: the variables of the tracker;
* `iflag`: the global interrupt enable bit;
* `pc`: where the publishing task stands in `update`: 0 before `cli()`,
  1 before the load of `count`, 2 before the store to `spoke_count`,
  3 before `sei()`;
* `reg`: the register that holds the loaded `count`;
* `stack`: the activations of `ISR(INT4_vect)` in progress, innermost first;
* `observed`: the values that readers of `spoke_count` have read so far;
* `held`: the values that `count` has held so far. -/
structure Machine where
  vars : Tracker
  iflag : Bool
  pc : Nat
  reg : Int
  stack : List Frame
  observed : List Int
  held : List Int
  deriving DecidableEq, Repr

/-- What happens next: the publishing task executes its next instruction, the
innermost handler in progress executes its next instruction, one of the three
interrupts is requested (with the level of the pin for the channel
interrupts), or a reader reads the shared `spoke_count`. -/
inductive Event
  | publish
  | handler
  | INT4
  | INT5 (pe5 : Bool)
  | INT6 (pe6 : Bool)
  | reader
  deriving DecidableEq, Repr

/-- Instruction `cli()`. -/
def cli (s : Machine) : Machine := { s with iflag := false }

/-- Instruction `sei()`. -/
def sei (s : Machine) : Machine := { s with iflag := true }

/-- Next instruction of `spoke_counter::update` (lines 86 to 91), called in a
loop by `task_spoke_count::run`; the task does not run while a handler is in
progress. -/
def update_step (s : Machine) : Machine :=
  match s.stack with
  | _ :: _ => s
  | [] =>
    match s.pc with
    | 0 => { cli s with pc := 1 }
    | 1 => { s with reg := s.vars.count, pc := 2 }
    | 2 => { s with vars := { s.vars with spoke_count := s.reg }, pc := 3 }
    | _ => { sei s with pc := 0 }

/-- Entry into `ISR(INT4_vect)` (lines 98 to 100), when the interrupts are
enabled: the processor clears the flag, `get_direction` reads the direction and
ends with `sei()`. -/
def INT4_enter (s : Machine) : Machine :=
  if s.iflag then
    { sei (cli s) with
      stack := { direction := wheel_encoder.get_direction s.vars, stage := 0, r := 0 }
        :: s.stack }
  else s

/-- Next instruction of the innermost activation of `ISR(INT4_vect)` (lines 101
to 106): load `count`, store `count + 1` or `count - 1`, return. -/
def INT4_step (s : Machine) : Machine :=
  match s.stack with
  | [] => s
  | f :: rest =>
    match f.stage with
    | 0 => { s with stack := { f with r := s.vars.count, stage := 1 } :: rest }
    | 1 =>
      { s with
        vars := { s.vars with
          count := if f.direction then int8 (avr_int (f.r + 1)) else int8 (avr_int (f.r - 1)) },
        held := s.held ++
          [if f.direction then int8 (avr_int (f.r + 1)) else int8 (avr_int (f.r - 1))],
        stack := { f with stage := 2 } :: rest }
    | _ => { sei s with stack := rest }

/-- One event.  A channel handler never enables the interrupts, so it runs from
its entry to its return in one piece; an interrupt requested while the
interrupts are disabled does not run now. -/
def step (s : Machine) : Event → Machine
  | Event.publish => update_step s
  | Event.handler => INT4_step s
  | Event.INT4 => INT4_enter s
  | Event.INT5 pe5 =>
    if s.iflag then sei { cli s with vars := wheel_encoder.INT5_vect s.vars pe5 } else s
  | Event.INT6 pe6 =>
    if s.iflag then sei { cli s with vars := wheel_encoder.INT6_vect s.vars pe6 } else s
  | Event.reader => { s with observed := s.observed ++ [s.vars.spoke_count] }

/-- A schedule of events, in order. -/
def exec (s : Machine) (evs : List Event) : Machine := evs.foldl step s

/-- The machine after the constructors of `wheel_encoder` and `spoke_counter`
have run on the variables `t` (both end with `sei()`), with the publishing task
about to call `update`. -/
def power_on (t : Tracker) (num_spokes : Nat) : Machine :=
  { vars := construct (wheel_encoder.construct t) num_spokes,
    iflag := true, pc := 0, reg := 0, stack := [], observed := [], held := [0] }

end spoke_counter

/-! ## Fixed-width arithmetic: basic facts -/

theorem int16_eq_self {x : Int} (h : IsInt16 x) : int16 x = x := by
  unfold IsInt16 at h; unfold int16; omega

theorem int16_isInt16 (x : Int) : IsInt16 (int16 x) := by
  unfold IsInt16 int16; omega

theorem int8_eq_self {x : Int} (h : IsInt8 x) : int8 x = x := by
  unfold IsInt8 at h; unfold int8; omega

theorem ABS_eq_abs {x : Int} (hlo : -32768 < x) (hhi : x ≤ 32767) : ABS x = |x| := by
  unfold ABS avr_int int16
  split_ifs with h
  · rw [abs_of_neg h]; omega
  · rw [abs_of_nonneg (by omega)]

theorem ABS_min : ABS (-32768) = -32768 := by decide

theorem ABS_isInt16 {x : Int} (h : IsInt16 x) : IsInt16 (ABS x) := by
  unfold IsInt16 at *; unfold ABS avr_int int16
  split_ifs <;> omega

theorem ABS_le_min_iff {x : Int} (h : IsInt16 x) : ABS x ≤ -32768 ↔ x = -32768 := by
  unfold IsInt16 at h; unfold ABS avr_int int16
  split_ifs <;> omega

namespace mastermind

/-! ## find_worst -/

/-- Invariant of the loop of `find_worst`, in terms of the magnitudes that the
macro `ABS` computes. -/
theorem find_worst_loop_inv (offs : Meas) (n : Nat) (hn : 1 ≤ n) (h16 : Int16Array offs n) :
    ∀ k, k ≤ n →
      ((find_worst_loop offs k).1 = 0 ∨ (find_worst_loop offs k).1 < k) ∧
      (find_worst_loop offs k).2 = ABS (offs (find_worst_loop offs k).1) ∧
      (∀ i, i < k → ABS (offs i) ≤ (find_worst_loop offs k).2) ∧
      (∀ i, i < (find_worst_loop offs k).1 → ABS (offs i) < (find_worst_loop offs k).2) := by
  intro k
  induction k with
  | zero =>
    intro _
    refine ⟨Or.inl rfl, ?_, ?_, ?_⟩
    · show int16 (ABS (offs 0)) = ABS (offs 0)
      exact int16_eq_self (ABS_isInt16 (h16 0 (by omega)))
    · intro i hi; omega
    · intro i hi; exact absurd hi (Nat.not_lt_zero i)
  | succ k ih =>
    intro hk
    obtain ⟨hidx, hval, hmax, hfirst⟩ := ih (by omega)
    have hk16 : int16 (ABS (offs k)) = ABS (offs k) :=
      int16_eq_self (ABS_isInt16 (h16 k (by omega)))
    by_cases hgt : ABS (offs k) > (find_worst_loop offs k).2
    · have hstep : find_worst_loop offs (k + 1) = (k, int16 (ABS (offs k))) := by
        simp [find_worst_loop, hgt]
      rw [hstep]
      refine ⟨Or.inr (by simp), ?_, ?_, ?_⟩
      · simpa using hk16
      · intro i hi
        simp only [hk16]
        rcases Nat.lt_succ_iff_lt_or_eq.mp hi with h | h
        · have := hmax i h; omega
        · subst h; exact le_refl _
      · intro i hi
        simp only [hk16]
        have := hmax i hi; omega
    · have hstep : find_worst_loop offs (k + 1) = find_worst_loop offs k := by
        simp [find_worst_loop, hgt]
      rw [hstep]
      refine ⟨?_, hval, ?_, hfirst⟩
      · rcases hidx with h | h
        · exact Or.inl h
        · exact Or.inr (by omega)
      · intro i hi
        rcases Nat.lt_succ_iff_lt_or_eq.mp hi with h | h
        · exact hmax i h
        · subst h; omega

/-- Function `find_worst` selects the first slot whose `ABS` value is the largest. -/
theorem find_worst_ABS (offs : Meas) (n : Nat) (hn : 1 ≤ n) (h16 : Int16Array offs n) :
    find_worst offs n < n ∧
    (∀ i, i < n → ABS (offs i) ≤ ABS (offs (find_worst offs n))) ∧
    (∀ i, i < find_worst offs n → ABS (offs i) < ABS (offs (find_worst offs n))) := by
  obtain ⟨hidx, hval, hmax, hfirst⟩ := find_worst_loop_inv offs n hn h16 n (le_refl n)
  unfold find_worst
  refine ⟨?_, ?_, ?_⟩
  · rcases hidx with h | h <;> omega
  · intro i hi; rw [← hval]; exact hmax i hi
  · intro i hi; rw [← hval]; exact hfirst i hi

end mastermind

namespace mastermind

/-- Claim C1, as amended: for every offset array whose first `n >= 1` slots hold
16-bit values other than -32768, `find_worst` returns the least index, below
`n`, whose magnitude is the maximum: no slot below `n` has a larger magnitude
and every slot before the returned one has a strictly smaller magnitude. -/
theorem find_worst_first_max (offs : Meas) (n : Nat) (hn : 1 ≤ n)
    (hrange : ∀ i, i < n → -32768 < offs i ∧ offs i ≤ 32767) :
    find_worst offs n < n ∧
    (∀ i, i < n → |offs i| ≤ |offs (find_worst offs n)|) ∧
    (∀ i, i < find_worst offs n → |offs i| < |offs (find_worst offs n)|) := by
  have h16 : Int16Array offs n := fun i hi => ⟨by have := hrange i hi; omega, (hrange i hi).2⟩
  obtain ⟨hlt, hmax, hfirst⟩ := find_worst_ABS offs n hn h16
  have habs : ∀ i, i < n → ABS (offs i) = |offs i| :=
    fun i hi => ABS_eq_abs (hrange i hi).1 (hrange i hi).2
  refine ⟨hlt, ?_, ?_⟩
  · intro i hi
    rw [← habs i hi, ← habs _ hlt]; exact hmax i hi
  · intro i hi
    rw [← habs i (by omega), ← habs _ hlt]; exact hfirst i hi

/-- Witness for C1: the offsets 3, -12, 12, 2 select index 1. -/
theorem find_worst_first_max_witness :
    find_worst (ofList [3, -12, 12, 2]) 4 = 1 ∧
    find_worst (ofList [3, -12, 12, 2]) 4 < 4 ∧
    (∀ i, i < 4 → |ofList [3, -12, 12, 2] i| ≤
      |ofList [3, -12, 12, 2] (find_worst (ofList [3, -12, 12, 2]) 4)|) ∧
    (∀ i, i < find_worst (ofList [3, -12, 12, 2]) 4 → |ofList [3, -12, 12, 2] i| <
      |ofList [3, -12, 12, 2] (find_worst (ofList [3, -12, 12, 2]) 4)|) :=
  ⟨by decide, find_worst_first_max (ofList [3, -12, 12, 2]) 4 (by decide) (by decide)⟩

/-- Counterexample to C1 as stated: on the offsets -32768, 1 (two spokes)
`find_worst` returns index 1, although slot 0 has the larger magnitude. -/
theorem find_worst_min_int16 :
    find_worst (ofList [-32768, 1]) 2 = 1 ∧
    ¬ (∀ i, i < 2 → |ofList [-32768, 1] i| ≤
        |ofList [-32768, 1] (find_worst (ofList [-32768, 1]) 2)|) := by
  refine ⟨by decide, ?_⟩
  intro h
  have h0 := h 0 (by decide)
  have e1 : find_worst (ofList [-32768, 1]) 2 = 1 := by decide
  rw [e1] at h0
  have a0 : ofList [-32768, 1] 0 = -32768 := by decide
  have a1 : ofList [-32768, 1] 1 = 1 := by decide
  rw [a0, a1] at h0
  norm_num at h0

end mastermind

/-! ## find_avg -/

/-- Truncating division by a positive divisor stays between bounds that hold
for the dividend. -/
theorem tdiv_bounds (t n lo hi : Int) (hn : 0 < n) (hlo : lo ≤ 0) (hhi : 0 ≤ hi)
    (h1 : lo * n ≤ t) (h2 : t ≤ hi * n) : lo ≤ Int.tdiv t n ∧ Int.tdiv t n ≤ hi := by
  rcases le_or_lt 0 t with ht | ht
  · rw [Int.tdiv_eq_ediv ht (le_of_lt hn)]
    constructor
    · have : 0 ≤ t / n := Int.ediv_nonneg ht (le_of_lt hn)
      omega
    · have : t / n < hi + 1 := Int.ediv_lt_of_lt_mul hn (by nlinarith)
      omega
  · have hneg : Int.tdiv t n = -((-t) / n) := by
      have h := Int.neg_tdiv (-t) n
      rw [neg_neg] at h
      rw [h, Int.tdiv_eq_ediv (by omega) (le_of_lt hn)]
    rw [hneg]
    constructor
    · have : (-t) / n < -lo + 1 := Int.ediv_lt_of_lt_mul hn (by nlinarith)
      omega
    · have : 0 ≤ (-t) / n := Int.ediv_nonneg (by omega) (le_of_lt hn)
      omega

namespace mastermind

/-- The exact sum of `k` 16-bit readings lies within `k` times the 16-bit range. -/
theorem total_bounds (meas : Meas) (n : Nat) (h16 : Int16Array meas n) :
    ∀ k, k ≤ n → -32768 * (k : Int) ≤ total meas k ∧ total meas k ≤ 32767 * (k : Int) := by
  intro k
  induction k with
  | zero => intro _; simp [total]
  | succ k ih =>
    intro hk
    have h := ih (by omega)
    have hm := h16 k (by omega)
    unfold IsInt16 at hm
    simp only [total]
    push_cast
    omega

/-- The `int32_t` accumulator of `find_avg` never wraps: after every iteration
it holds the exact sum of the readings added so far. -/
theorem find_avg_loop_exact (meas : Meas) (n : Nat) (hn : n ≤ 255) (h16 : Int16Array meas n) :
    ∀ k, k ≤ n → find_avg_loop meas k = total meas k := by
  intro k
  induction k with
  | zero => intro _; rfl
  | succ k ih =>
    intro hk
    have hb := total_bounds meas n h16 (k + 1) hk
    simp only [total] at hb
    push_cast at hb
    simp only [find_avg_loop, total, ih (by omega)]
    unfold avr_long int32
    have hk255 : (k : Int) ≤ 254 := by omega
    omega

/-- On 16-bit readings the result of `find_avg` is the truncated quotient of
the exact sum. -/
theorem find_avg_eq_tdiv (meas : Meas) (n : Nat) (hn1 : 1 ≤ n) (hn : n ≤ 255)
    (h16 : Int16Array meas n) :
    find_avg meas n = Int.tdiv (total meas n) (n : Int) := by
  have hb := total_bounds meas n h16 n (le_refl n)
  have hq := tdiv_bounds (total meas n) (n : Int) (-32768) 32767
    (by omega) (by norm_num) (by norm_num) hb.1 hb.2
  unfold find_avg
  rw [find_avg_loop_exact meas n hn h16 n (le_refl n)]
  unfold avr_long int32 int16
  omega

/-- Claim C2: for 16-bit readings and `1 <= n <= 255` spokes, the accumulator of
`find_avg` holds the exact partial sums, which all fit the 32-bit accumulator,
and the result is the sum of the first `n` readings divided by `n` with the
quotient truncated toward zero. -/
theorem find_avg_truncates (meas : Meas) (n : Nat) (hn1 : 1 ≤ n) (hn : n ≤ 255)
    (h16 : Int16Array meas n) :
    (∀ k, k ≤ n → find_avg_loop meas k = total meas k ∧
      -2147483648 ≤ total meas k ∧ total meas k ≤ 2147483647) ∧
    find_avg meas n = Int.tdiv (total meas n) (n : Int) := by
  constructor
  · intro k hk
    have hb := total_bounds meas n h16 k hk
    have hk255 : (k : Int) ≤ 255 := by omega
    exact ⟨find_avg_loop_exact meas n hn h16 k hk, by omega, by omega⟩
  · exact find_avg_eq_tdiv meas n hn1 hn h16

/-- Witness for C2: the readings 10, 11, 8, 11 on 4 spokes average to 10, and a
negative sum is truncated toward zero (-3 over 2 spokes gives -1, not -2). -/
theorem find_avg_truncates_witness :
    find_avg (ofList [10, 11, 8, 11]) 4 = 10 ∧
    find_avg (ofList [-3, 0]) 2 = -1 ∧
    find_avg (ofList [10, 11, 8, 11]) 4 = Int.tdiv (total (ofList [10, 11, 8, 11]) 4) 4 :=
  ⟨by decide, by decide,
    (find_avg_truncates (ofList [10, 11, 8, 11]) 4 (by decide) (by decide)
      (by unfold Int16Array; decide)).2⟩

/-! ## con_to_offs -/

/-- State of the array of `con_to_offs` after `k` iterations. -/
theorem con_to_offs_loop_apply (meas : Meas) (avg : Int) :
    ∀ k i, con_to_offs_loop meas avg k i = if i < k then int16 (meas i - avg) else meas i := by
  intro k
  induction k with
  | zero => intro i; simp [con_to_offs_loop]
  | succ k ih =>
    intro i
    simp only [con_to_offs_loop]
    by_cases hik : i = k
    · subst hik
      simp only [Function.update_same, ih]
      simp only [lt_irrefl, if_false, Nat.lt_succ_self, if_true]
      unfold avr_int int16; omega
    · rw [Function.update_noteq hik, ih]
      by_cases h : i < k
      · simp [h, Nat.lt_succ_of_lt h]
      · have h2 : ¬ i < k + 1 := by omega
        simp [h, h2]

theorem con_to_offs_below (meas : Meas) (avg : Int) (n i : Nat) (hi : i < n) :
    con_to_offs meas avg n i = int16 (meas i - avg) := by
  unfold con_to_offs; rw [con_to_offs_loop_apply]; simp [hi]

theorem con_to_offs_above (meas : Meas) (avg : Int) (n i : Nat) (hi : n ≤ i) :
    con_to_offs meas avg n i = meas i := by
  unfold con_to_offs; rw [con_to_offs_loop_apply]; simp [Nat.not_lt.mpr hi]

/-- Claim C3, as amended: `con_to_offs` overwrites every slot `i < n` with
`raw[i] - avg` reduced to the signed 16-bit range, which is `raw[i] - avg` itself
whenever that difference fits 16 bits, and leaves every slot at an index
`>= n` unchanged; the array it returns is this converted array. -/
theorem con_to_offs_slots (meas : Meas) (avg : Int) (n : Nat) :
    (∀ i, i < n → con_to_offs meas avg n i = int16 (meas i - avg)) ∧
    (∀ i, i < n → IsInt16 (meas i - avg) → con_to_offs meas avg n i = meas i - avg) ∧
    (∀ i, n ≤ i → con_to_offs meas avg n i = meas i) := by
  refine ⟨?_, ?_, ?_⟩
  · intro i hi; exact con_to_offs_below meas avg n i hi
  · intro i hi h; rw [con_to_offs_below meas avg n i hi, int16_eq_self h]
  · intro i hi; exact con_to_offs_above meas avg n i hi

/-- Witness for C3: the readings 12, 8, 10, 10 with average 10 on 4 spokes, a
fifth slot holding 7 being left alone. -/
theorem con_to_offs_slots_witness :
    con_to_offs (ofList [12, 8, 10, 10, 7]) 10 4 1 = 8 - 10 ∧
    con_to_offs (ofList [12, 8, 10, 10, 7]) 10 4 4 = 7 :=
  ⟨(con_to_offs_slots (ofList [12, 8, 10, 10, 7]) 10 4).2.1 1 (by decide) (by decide),
   (con_to_offs_slots (ofList [12, 8, 10, 10, 7]) 10 4).2.2 4 (by decide)⟩

/-- Counterexample to C3 as stated: with the reading 32767 and the average -1
the slot receives -32768, not the difference 32768. -/
theorem con_to_offs_wraps :
    con_to_offs (ofList [32767]) (-1) 1 0 = -32768 ∧
    con_to_offs (ofList [32767]) (-1) 1 0 ≠ ofList [32767] 0 - (-1) := by
  constructor <;> decide

end mastermind

/-! ## pos_controller::update -/

namespace pos_controller

theorem error_isInt8 (sc ds : Int) : IsInt8 (error sc ds) := by
  unfold IsInt8 error int8; omega

theorem ABS_error (sc ds : Int) : ABS (error sc ds) = |error sc ds| := by
  have h := error_isInt8 sc ds
  unfold IsInt8 at h
  exact ABS_eq_abs (by omega) (by omega)

theorem update_fst_of_ne (pc : pos_controller) (sc ds : Int) (he : error sc ds ≠ 0) :
    (update pc sc ds).1 = { pc with esum := integrate pc (error sc ds) } := by
  simp [update, he]

theorem update_of_eq (pc : pos_controller) (sc ds : Int) (he : error sc ds = 0) :
    update pc sc ds = (pc, [motor_call.set_power 0]) := by
  simp [update, he]

/-- The integrator branch, for an accumulator that holds an `int8_t` value. -/
theorem integrate_eq (pc : pos_controller) (e : Int) (h8 : IsInt8 pc.esum) (he : IsInt8 e) :
    integrate pc e = if |e| ≤ pc.limit then clamp8 (pc.esum + e) else 0 := by
  unfold IsInt8 at h8 he
  have habs : ABS e = |e| := ABS_eq_abs (by omega) (by omega)
  unfold integrate clamp8
  rw [habs]
  by_cases hl : |e| ≤ pc.limit
  · simp only [hl, if_true]
    unfold avr_int int16 int8
    split_ifs <;> omega
  · simp only [hl, if_false]

/-- Claim C5, evaluated at two failing inputs.  With the gains of the shipped
configuration (KP 200, KI 25, FF 3, limit 16), an empty accumulator, the wheel
at index 0 and the desired index 55, the error is 55, the accumulator stays 0,
and the exact command e*FF*KP + esum*FF*KI is 33000, whose saturation is 32000;
but the product wraps in the 16-bit `int` and the command passed to the motor
is -32000.  With the gains KP 255, KI 0, FF 255 and an error of 1 the exact
command saturates at 32000 while the command passed to the motor is -511. -/
theorem update_product_wraps :
    error 0 55 = 55 ∧
    (update ⟨0, 200, 25, 3, 16⟩ 0 55).1.esum = 0 ∧
    saturate (55 * 3 * 200 + 0 * 3 * 25) = 32000 ∧
    (update ⟨0, 200, 25, 3, 16⟩ 0 55).2 = [motor_call.set_power (-32000)] ∧
    error 0 1 = 1 ∧
    (update ⟨0, 255, 0, 255, 16⟩ 0 1).1.esum = 1 ∧
    saturate (1 * 255 * 255 + 1 * 255 * 0) = 32000 ∧
    (update ⟨0, 255, 0, 255, 16⟩ 0 1).2 = [motor_call.set_power (-511)] := by
  refine ⟨by decide, by decide, by decide, by decide, by decide, by decide, by decide,
    by decide⟩

theorem mul_gain_isInt16 {a g : Int} (ha : IsInt8 a) (hg : IsUInt8 g) : IsInt16 (a * g) := by
  unfold IsInt8 at ha; unfold IsUInt8 at hg; unfold IsInt16
  constructor <;> nlinarith

theorem integrate_isInt8 (pc : pos_controller) (e : Int) (h8 : IsInt8 pc.esum)
    (he : IsInt8 e) : IsInt8 (integrate pc e) := by
  rw [integrate_eq pc e h8 he]
  unfold IsInt8 clamp8
  split_ifs <;> omega

/-- When both products fit the 16-bit `int`, the command is the exact
saturated sum of the proportional and the integral term. -/
theorem update_exact_of_fits (pc : pos_controller) (sc ds : Int) (hw : WellTyped pc)
    (he : error sc ds ≠ 0)
    (hP : IsInt16 (error sc ds * pc.FF_gain * pc.KP))
    (hI : IsInt16 ((update pc sc ds).1.esum * pc.FF_gain * pc.KI)) :
    (update pc sc ds).2 =
      [motor_call.set_power (saturate (error sc ds * pc.FF_gain * pc.KP +
        (update pc sc ds).1.esum * pc.FF_gain * pc.KI))] := by
  obtain ⟨h8, _, _, hFF, _⟩ := hw
  have hE := error_isInt8 sc ds
  rw [update_fst_of_ne pc sc ds he] at hI ⊢
  simp only at hI ⊢
  have hS := integrate_isInt8 pc _ h8 hE
  have h1 := mul_gain_isInt16 hE hFF
  have h2 := mul_gain_isInt16 hS hFF
  have hKP : avr_long (avr_int (avr_int (error sc ds * pc.FF_gain) * pc.KP)) =
      error sc ds * pc.FF_gain * pc.KP := by
    unfold avr_int
    rw [int16_eq_self h1, int16_eq_self hP]
    unfold IsInt16 at hP; unfold avr_long int32; omega
  have hKI : (if ABS (error sc ds) ≤ pc.limit then
        avr_long (avr_int (avr_int (integrate pc (error sc ds) * pc.FF_gain) * pc.KI))
      else 0) = integrate pc (error sc ds) * pc.FF_gain * pc.KI := by
    by_cases hl : ABS (error sc ds) ≤ pc.limit
    · rw [if_pos hl]
      unfold avr_int
      rw [int16_eq_self h2, int16_eq_self hI]
      unfold IsInt16 at hI; unfold avr_long int32; omega
    · rw [if_neg hl]
      simp [integrate, hl]
  simp only [update, he, if_false, hKP, hKI]
  unfold IsInt16 at hP hI
  unfold saturate avr_long int32 int16
  congr 2
  split_ifs <;> omega

/-- The saturation step of `update` (lines 108 to 114) yields a value between
-32000 and 32000. -/
theorem control_bounds (t : Int) :
    -32000 ≤ (if t > 32000 then 32000 else if t < -32000 then -32000 else int16 t) ∧
    (if t > 32000 then 32000 else if t < -32000 then -32000 else int16 t) ≤ 32000 := by
  unfold int16
  split_ifs <;> omega

/-- Claim C6: whatever the state and the two shared variables, `update` makes
exactly one call `set_power(p)` and `p` lies between -32000 and 32000. -/
theorem update_command_bounded (pc : pos_controller) (sc ds : Int) :
    ∃ p, (update pc sc ds).2 = [motor_call.set_power p] ∧ -32000 ≤ p ∧ p ≤ 32000 := by
  by_cases he : error sc ds = 0
  · exact ⟨0, by rw [update_of_eq pc sc ds he], by norm_num, by norm_num⟩
  · simp only [update, he, if_false]
    exact ⟨_, rfl, control_bounds _⟩

/-- Claim C7: on a tick with a non-zero error `e`, the new accumulator is
`esum + e` clamped to the range -128 to 127 when `|e| <= limit`, and 0 when
`|e| > limit`. -/
theorem update_esum (pc : pos_controller) (sc ds : Int) (h8 : IsInt8 pc.esum)
    (he : error sc ds ≠ 0) :
    (|error sc ds| ≤ pc.limit →
      (update pc sc ds).1.esum = clamp8 (pc.esum + error sc ds)) ∧
    (pc.limit < |error sc ds| → (update pc sc ds).1.esum = 0) := by
  rw [update_fst_of_ne pc sc ds he]
  simp only [integrate_eq pc _ h8 (error_isInt8 sc ds)]
  constructor
  · intro h; simp [h]
  · intro h; simp [not_le.mpr h]

/-- Witness for C7: accumulation (100 + 9 saturates at 127 instead of wrapping)
and reset (an error of 20 is outside the window of 16). -/
theorem update_esum_witness :
    (update ⟨120, 200, 25, 3, 16⟩ 0 9).1.esum = 127 ∧
    (update ⟨120, 200, 25, 3, 16⟩ 0 20).1.esum = 0 :=
  ⟨((update_esum ⟨120, 200, 25, 3, 16⟩ 0 9 (by decide) (by decide)).1 (by decide)).trans
      (by decide),
   (update_esum ⟨120, 200, 25, 3, 16⟩ 0 20 (by decide) (by decide)).2 (by decide)⟩

/-- Claim C8: on a tick where the desired index equals the rotation index (the
error is 0), the only call made on the motor is `set_power(0)`: no brake, on or
off call is made, and the controller state is left as it was. -/
theorem update_at_target (pc : pos_controller) (sc ds : Int)
    (h : ds = sc ∨ error sc ds = 0) :
    (update pc sc ds).2 = [motor_call.set_power 0] ∧
    motor_call.brake ∉ (update pc sc ds).2 ∧
    motor_call.on ∉ (update pc sc ds).2 ∧
    motor_call.off ∉ (update pc sc ds).2 := by
  have he : error sc ds = 0 := by
    rcases h with h | h
    · subst h; simp [error, avr_int, int16, int8]
    · exact h
  rw [update_of_eq pc sc ds he]
  simp

/-- Witness for C8: a loaded accumulator, wheel and target both at index 7. -/
theorem update_at_target_witness :
    (update ⟨-100, 200, 25, 3, 16⟩ 7 7).2 = [motor_call.set_power 0] :=
  (update_at_target ⟨-100, 200, 25, 3, 16⟩ 7 7 (Or.inl rfl)).1

/-- Claim C9, as amended: for every `d` and `r` the error used by `update` is an
`int8_t` congruent to `d - r` modulo 256, and it equals the exact difference
`d - r` whenever that difference lies between -128 and 127. -/
theorem error_exact_in_range (sc ds : Int) :
    IsInt8 (error sc ds) ∧
    (error sc ds - (ds - sc)) % 256 = 0 ∧
    (IsInt8 (ds - sc) → error sc ds = ds - sc) := by
  unfold IsInt8 at *
  unfold error avr_int int16 int8
  refine ⟨by omega, by omega, ?_⟩
  intro h; omega

/-- Witness for C9: the sweep extremes, desired index 42 with the wheel at -10. -/
theorem error_exact_in_range_witness : error (-10) 42 = 42 - (-10) :=
  (error_exact_in_range (-10) 42).2.2 (by decide)

/-- Counterexample to C9 as stated: with the desired index 100 and the wheel at
-100 the error used is -56, not the difference 200. -/
theorem error_wraps : error (-100) 100 = -56 ∧ error (-100) 100 ≠ 100 - (-100) := by
  constructor <;> decide

/-! ## Runs of consecutive ticks -/

theorem ticks_append (pc : pos_controller) (a b : List (Int × Int)) :
    ticks pc (a ++ b) = ticks (ticks pc a) b := by
  induction a generalizing pc with
  | nil => rfl
  | cons p rest ih =>
    obtain ⟨sc, ds⟩ := p
    simp only [List.cons_append, ticks]
    exact ih _

/-- One tick inside the integrator window, with an error of sign `s`. -/
theorem esum_step (pc : pos_controller) (sc ds s : Int) (hs : s = 1 ∨ s = -1)
    (h8 : IsInt8 pc.esum) (hpos : 0 < s * error sc ds) (hl : |error sc ds| ≤ pc.limit) :
    (update pc sc ds).1.limit = pc.limit ∧
    IsInt8 (update pc sc ds).1.esum ∧
    0 ≤ s * ((update pc sc ds).1.esum - pc.esum) ∧
    (0 ≤ s * pc.esum →
      0 ≤ s * (update pc sc ds).1.esum ∧ |pc.esum| ≤ |(update pc sc ds).1.esum|) ∧
    (s = 1 → pc.esum = 127 → (update pc sc ds).1.esum = 127) ∧
    (s = -1 → pc.esum = -128 → (update pc sc ds).1.esum = -128) := by
  have he : error sc ds ≠ 0 := by
    intro h0; rw [h0] at hpos; simp at hpos
  have hE := error_isInt8 sc ds
  rw [update_fst_of_ne pc sc ds he]
  simp only [integrate_eq pc _ h8 hE, hl, if_true]
  generalize error sc ds = e at *
  unfold IsInt8 at *
  unfold clamp8
  rcases hs with h | h
  · subst h
    simp only [one_mul] at *
    refine ⟨trivial, by omega, by omega, ?_, by intros; omega, by intro h1; omega⟩
    intro h0
    refine ⟨by omega, ?_⟩
    rw [abs_of_nonneg h0, abs_of_nonneg (by omega)]
    omega
  · subst h
    simp only [neg_mul, one_mul] at *
    refine ⟨trivial, by omega, by omega, ?_, by intro h1; omega, by intros; omega⟩
    intro h0
    refine ⟨by omega, ?_⟩
    rw [abs_of_nonpos (by omega), abs_of_nonpos (by omega)]
    omega

/-- A run of ticks inside the integrator window whose errors all have sign `s`,
seen from its start. -/
theorem ticks_esum_run (s : Int) (hs : s = 1 ∨ s = -1) (lim : Int) :
    ∀ (run : List (Int × Int)) (pc : pos_controller), pc.limit = lim → IsInt8 pc.esum →
      (∀ p ∈ run, 0 < s * error p.1 p.2 ∧ |error p.1 p.2| ≤ lim) →
      (ticks pc run).limit = lim ∧
      IsInt8 (ticks pc run).esum ∧
      0 ≤ s * ((ticks pc run).esum - pc.esum) ∧
      (0 ≤ s * pc.esum → 0 ≤ s * (ticks pc run).esum ∧ |pc.esum| ≤ |(ticks pc run).esum|) ∧
      (s = 1 → pc.esum = 127 → (ticks pc run).esum = 127) ∧
      (s = -1 → pc.esum = -128 → (ticks pc run).esum = -128) := by
  intro run
  induction run with
  | nil =>
    intro pc hlim h8 _
    simp only [ticks, sub_self, mul_zero, le_refl, true_and]
    exact ⟨hlim, h8, fun h => ⟨h, trivial⟩, fun _ h => h, fun _ h => h⟩
  | cons p rest ih =>
    intro pc hlim h8 hrun
    obtain ⟨sc, ds⟩ := p
    have hp := hrun (sc, ds) (List.mem_cons_self _ _)
    obtain ⟨t1, t2, t3, t4, t5, t6⟩ :=
      esum_step pc sc ds s hs h8 hp.1 (by rw [hlim]; exact hp.2)
    obtain ⟨r1, r2, r3, r4, r5, r6⟩ :=
      ih (update pc sc ds).1 (by rw [t1, hlim]) t2
        (fun q hq => hrun q (List.mem_cons_of_mem _ hq))
    simp only [ticks]
    refine ⟨r1, r2, ?_, ?_, ?_, ?_⟩
    · have : s * ((ticks (update pc sc ds).1 rest).esum - pc.esum) =
          s * ((ticks (update pc sc ds).1 rest).esum - (update pc sc ds).1.esum) +
          s * ((update pc sc ds).1.esum - pc.esum) := by ring
      rw [this]; exact add_nonneg r3 t3
    · intro h0
      obtain ⟨a1, a2⟩ := t4 h0
      obtain ⟨b1, b2⟩ := r4 a1
      exact ⟨b1, le_trans a2 b2⟩
    · intro h1 h2; exact r5 h1 (t5 h1 h2)
    · intro h1 h2; exact r6 h1 (t6 h1 h2)

/-- Claim C10, as amended: take a run of ticks whose errors are non-zero, all of
sign `s` and all inside the integrator window, and compare the accumulator at
any point of the run (after `run1`) with the accumulator at any later point
(after `run1 ++ run2`).  The accumulator stays an `int8_t`; it never moves
against the sign of the error; if the starting accumulator is zero or has the
sign of the errors, its magnitude never decreases; and once it is at the bound
in the direction of the error (127 for positive, -128 for negative errors) it
stays there for the rest of the run. -/
theorem esum_same_sign_run (pc : pos_controller) (s : Int) (hs : s = 1 ∨ s = -1)
    (h8 : IsInt8 pc.esum) (run1 run2 : List (Int × Int))
    (hrun : ∀ p ∈ run1 ++ run2, 0 < s * error p.1 p.2 ∧ |error p.1 p.2| ≤ pc.limit) :
    IsInt8 (ticks pc (run1 ++ run2)).esum ∧
    0 ≤ s * ((ticks pc (run1 ++ run2)).esum - (ticks pc run1).esum) ∧
    (0 ≤ s * pc.esum → |(ticks pc run1).esum| ≤ |(ticks pc (run1 ++ run2)).esum|) ∧
    (s = 1 → (ticks pc run1).esum = 127 → (ticks pc (run1 ++ run2)).esum = 127) ∧
    (s = -1 → (ticks pc run1).esum = -128 → (ticks pc (run1 ++ run2)).esum = -128) := by
  obtain ⟨a1, a2, _, a4, _, _⟩ :=
    ticks_esum_run s hs pc.limit run1 pc rfl h8
      (fun p hp => hrun p (List.mem_append_left _ hp))
  obtain ⟨_, b2, b3, b4, b5, b6⟩ :=
    ticks_esum_run s hs pc.limit run2 (ticks pc run1) a1 a2
      (fun p hp => hrun p (List.mem_append_right _ hp))
  rw [ticks_append]
  exact ⟨b2, b3, fun h0 => (b4 (a4 h0).1).2, b5, b6⟩

/-- Witness for C10: errors 5, 100, 16 and 16 (all positive, window 100) from an
accumulator of 0, compared after the first tick and at the end. -/
theorem esum_same_sign_run_witness :
    |(ticks ⟨0, 200, 25, 3, 100⟩ [(0, 5)]).esum| ≤
      |(ticks ⟨0, 200, 25, 3, 100⟩ ([(0, 5)] ++ [(0, 100), (0, 16), (0, 16)])).esum| ∧
    (ticks ⟨0, 200, 25, 3, 100⟩ ([(0, 5)] ++ [(0, 100), (0, 16), (0, 16)])).esum = 127 :=
  ⟨(esum_same_sign_run ⟨0, 200, 25, 3, 100⟩ 1 (Or.inl rfl) (by decide)
      [(0, 5)] [(0, 100), (0, 16), (0, 16)] (by decide)).2.2.1 (by decide),
   by decide⟩

/-- Counterexample to C10 as stated: from an accumulator of -100, one tick with
the error 5 (non-zero, inside the window of 16) gives -95, a smaller magnitude. -/
theorem esum_magnitude_decreases :
    error 0 5 = 5 ∧
    (ticks ⟨-100, 200, 25, 3, 16⟩ [(0, 5)]).esum = -95 ∧
    ¬ (|(ticks ⟨-100, 200, 25, 3, 16⟩ []).esum| ≤
        |(ticks ⟨-100, 200, 25, 3, 16⟩ [(0, 5)]).esum|) := by
  refine ⟨by decide, by decide, ?_⟩
  have h1 : (ticks ⟨-100, 200, 25, 3, 16⟩ [(0, 5)]).esum = -95 := by decide
  have h0 : (ticks ⟨-100, 200, 25, 3, 16⟩ []).esum = -100 := by decide
  rw [h1, h0]
  norm_num

end pos_controller

/-! ## The sweep keeps the array well typed -/

namespace mastermind

theorem int16Array_update (meas : Meas) (m k : Nat) (v : Int) (h : Int16Array meas m) :
    Int16Array (Function.update meas k (int16 v)) m := by
  intro i hi
  by_cases hik : i = k
  · subst hik; rw [Function.update_same]; exact int16_isInt16 v
  · rw [Function.update_noteq hik]; exact h i hi

theorem overrun_loop_int16 (n : Nat) (desired : Int) (pot : Nat → Int) (m : Nat) :
    ∀ (positions : List Int) (prev : Int) (meas : Meas) (out : List ui_messages)
      (reads : Nat), Int16Array meas m →
      ∀ s, (overrun_loop n desired pot prev meas out reads positions = Outcome.exited s ∨
            overrun_loop n desired pot prev meas out reads positions = Outcome.waiting s) →
        Int16Array s.meas m := by
  intro positions
  induction positions with
  | nil =>
    intro prev meas out reads h s hs
    simp only [overrun_loop] at hs
    rcases hs with hs | hs
    · cases hs
    · cases hs; exact h
  | cons sc rest ih =>
    intro prev meas out reads h s hs
    simp only [overrun_loop] at hs
    by_cases h1 : sc = desired
    · rw [if_pos h1] at hs
      rcases hs with hs | hs
      · cases hs; exact h
      · cases hs
    · rw [if_neg h1] at hs
      by_cases h2 : prev ≠ sc
      · rw [if_pos h2] at hs
        by_cases h3 : 0 ≤ sc ∧ sc ≤ (n : Int)
        · rw [if_pos h3] at hs
          exact ih _ _ _ _ (int16Array_update meas m _ _ h) s hs
        · rw [if_neg h3] at hs
          exact ih _ _ _ _ h s hs
      · rw [if_neg h2] at hs
        exact ih _ _ _ _ h s hs

/-- After `measure_all` the first slots of the array still hold `int16_t`
values. -/
theorem measure_all_int16 (n m : Nat) (meas : Meas) (w : World) (h : Int16Array meas m)
    (swept : Meas) (w1 : World) (hs : measure_all n meas w = Outcome.exited (swept, w1)) :
    Int16Array swept m := by
  unfold measure_all at hs
  split at hs
  · cases hs
  · split at hs
    · cases hs
    · rename_i s hov
      cases hs
      exact overrun_loop_int16 n _ _ m _ _ _ _ _ h s (Or.inl hov)

/-! ## The worst offset of a sweep is never -32768 -/

theorem total_const (meas : Meas) (c : Int) :
    ∀ k, (∀ i, i < k → meas i = c) → total meas k = (k : Int) * c := by
  intro k
  induction k with
  | zero => intro _; simp [total]
  | succ k ih =>
    intro h
    simp only [total]
    rw [ih (fun i hi => h i (by omega)), h k (by omega)]
    push_cast; ring

theorem find_avg_isInt16 (meas : Meas) (n : Nat) : IsInt16 (find_avg meas n) :=
  int16_isInt16 _

theorem con_to_offs_int16 (meas : Meas) (avg : Int) (n m : Nat) (h : Int16Array meas m) :
    Int16Array (con_to_offs meas avg n) m := by
  intro i hi
  by_cases hin : i < n
  · rw [con_to_offs_below meas avg n i hin]; exact int16_isInt16 _
  · rw [con_to_offs_above meas avg n i (by omega)]; exact h i hi

/-- The offset that a sweep analysis selects as the worst one is never -32768,
so the macro `ABS` computes its true magnitude. -/
theorem worst_offset_ne_min (n : Nat) (hn1 : 1 ≤ n) (hn : n ≤ 255) (swept : Meas)
    (h16 : Int16Array swept n) :
    con_to_offs swept (find_avg swept n) n
      (find_worst (con_to_offs swept (find_avg swept n) n) n) ≠ -32768 := by
  intro hmin
  have havg16 := find_avg_isInt16 swept n
  have havg := find_avg_eq_tdiv swept n hn1 hn h16
  have hoffs16 := con_to_offs_int16 swept (find_avg swept n) n n h16
  obtain ⟨_, hmax, _⟩ := find_worst_ABS _ n hn1 hoffs16
  rw [hmin, ABS_min] at hmax
  have hall : ∀ i, i < n → int16 (swept i - find_avg swept n) = -32768 := by
    intro i hi
    rw [← con_to_offs_below swept (find_avg swept n) n i hi]
    exact (ABS_le_min_iff (hoffs16 i hi)).mp (hmax i hi)
  generalize find_avg swept n = avg at *
  have hc : ∃ c, c ≠ avg ∧ ∀ i, i < n → swept i = c := by
    unfold IsInt16 at havg16
    by_cases h0 : 0 ≤ avg
    · refine ⟨avg - 32768, by omega, ?_⟩
      intro i hi
      have h1 := hall i hi
      have h2 := h16 i hi
      unfold IsInt16 at h2
      unfold int16 at h1
      omega
    · refine ⟨avg + 32768, by omega, ?_⟩
      intro i hi
      have h1 := hall i hi
      have h2 := h16 i hi
      unfold IsInt16 at h2
      unfold int16 at h1
      omega
  obtain ⟨c, hne, hconst⟩ := hc
  rw [total_const swept c n hconst,
    Int.mul_tdiv_cancel_left c (by omega : (n : Int) ≠ 0)] at havg
  exact hne havg.symm

end mastermind

/-! ## The tolerance test of the engine loop -/

namespace task_mastermind

open mastermind

/-- A pass through the loop body that runs to its end consists of a correction,
a sweep and the analysis of that sweep. -/
theorem loop_body_exited (n : Nat) (l : Locals) (w : World) (s : Locals × World)
    (h : loop_body n l w = Outcome.exited s) :
    ∃ w1 swept w2, correction l.worst_spoke w = Outcome.exited w1 ∧
      measure_all n l.spokes (put w1 ui_messages.MEASURING) = Outcome.exited (swept, w2) ∧
      s = (analyse n l swept, w2) := by
  unfold loop_body at h
  split at h
  · cases h
  · rename_i w1 hc
    unfold resweep at h
    split at h
    · cases h
    · rename_i swept w2 hm
      cases h
      exact ⟨w1, swept, w2, hc, hm, rfl⟩

theorem run_loop_finished (n fuel : Nat) (l : Locals) (w : World) (h : l.finished = true) :
    run_loop n fuel l w = Outcome.exited (l, put w ui_messages.GOODBYE) := by
  cases fuel <;> simp [run_loop, h]

theorem run_loop_continue (n fuel : Nat) (l : Locals) (w : World) (h : l.finished = false) :
    run_loop n (fuel + 1) l w =
      match correction l.worst_spoke w with
      | Outcome.waiting w1 => Outcome.waiting (l, w1)
      | Outcome.exited w1 =>
        match resweep n l w1 with
        | Outcome.waiting t => Outcome.waiting t
        | Outcome.exited t => run_loop n fuel t.1 t.2 := by
  simp only [run_loop, h, loop_body]
  cases hc : correction l.worst_spoke w with
  | waiting w1 => simp
  | exited w1 =>
    simp only []
    cases hr : resweep n l w1 with
    | waiting t => simp
    | exited t => obtain ⟨l1, w2⟩ := t; simp

/-- Claim C4: take a pass through the body of the engine loop (a correction, a
new sweep and its analysis) that runs to its end, on a wheel of `1 <= n <= 255`
spokes.  The new worst index is the one `find_worst` selects in the new
offsets, and the flag `finished` is set exactly when the offset at that index
has magnitude below 10.  In that case the loop is left and GOODBYE is put on
the queue without any further step; otherwise (in particular for a magnitude of
exactly 10) the loop runs another correction towards the new worst index,
followed by another sweep. -/
theorem loop_exit_iff (n : Nat) (hn1 : 1 ≤ n) (hn : n ≤ 255) (l : Locals) (w : World)
    (s : Locals × World) (h16 : Int16Array l.spokes n) (hrun : l.finished = false)
    (hbody : loop_body n l w = Outcome.exited s) :
    s.1.worst_spoke = find_worst s.1.spokes n ∧
    s.1.worst_spoke_val = s.1.spokes s.1.worst_spoke ∧
    (s.1.finished = true ↔ |s.1.spokes s.1.worst_spoke| < 10) ∧
    (|s.1.spokes s.1.worst_spoke| < 10 →
      ∀ fuel, run_loop n fuel s.1 s.2 =
        Outcome.exited (s.1, put s.2 ui_messages.GOODBYE)) ∧
    (¬ |s.1.spokes s.1.worst_spoke| < 10 →
      ∀ fuel, run_loop n (fuel + 1) s.1 s.2 =
        match correction (find_worst s.1.spokes n) s.2 with
        | Outcome.waiting w1 => Outcome.waiting (s.1, w1)
        | Outcome.exited w1 =>
          match resweep n s.1 w1 with
          | Outcome.waiting t => Outcome.waiting t
          | Outcome.exited t => run_loop n fuel t.1 t.2) := by
  obtain ⟨w1, swept, w2, _, hm, hs⟩ := loop_body_exited n l w s hbody
  have hsw : Int16Array swept n := measure_all_int16 n n l.spokes _ h16 swept w2 hm
  have hne := worst_offset_ne_min n hn1 hn swept hsw
  have hoffs := con_to_offs_int16 swept (find_avg swept n) n n hsw
  have hlt := (find_worst_ABS _ n hn1 hoffs).1
  have hv16 := hoffs _ hlt
  have habs : ABS (con_to_offs swept (find_avg swept n) n
      (find_worst (con_to_offs swept (find_avg swept n) n) n)) =
      |con_to_offs swept (find_avg swept n) n
        (find_worst (con_to_offs swept (find_avg swept n) n) n)| := by
    unfold IsInt16 at hv16
    exact ABS_eq_abs (by omega) (by omega)
  have hfin : s.1.finished = true ↔ |s.1.spokes s.1.worst_spoke| < 10 := by
    subst hs
    simp only [analyse, habs, hrun]
    constructor
    · intro h
      by_contra hc
      simp [hc] at h
    · intro h
      simp [h]
  refine ⟨by subst hs; rfl, by subst hs; rfl, hfin, ?_, ?_⟩
  · intro h fuel
    exact run_loop_finished n fuel s.1 s.2 (hfin.mpr h)
  · intro h fuel
    have hf : s.1.finished = false := by
      cases hb : s.1.finished
      · rfl
      · exact absurd (hfin.mp hb) h
    have hw : s.1.worst_spoke = find_worst s.1.spokes n := by subst hs; rfl
    rw [run_loop_continue n fuel s.1 s.2 hf, hw]

/-- Witness for C4: after the correction the sweep reads 10, 9, 11, 10 (worst
offset -1), so the flag is set and the loop is left with GOODBYE; had it read
0, 20, 10, 10 (worst offset -10) the flag would have stayed clear. -/
theorem loop_exit_iff_witness :
    (demo_after [10, 9, 11, 10, 5]).1.spokes (demo_after [10, 9, 11, 10, 5]).1.worst_spoke = -1 ∧
    (demo_after [10, 9, 11, 10, 5]).1.finished = true ∧
    (∀ fuel, run_loop 4 fuel (demo_after [10, 9, 11, 10, 5]).1 (demo_after [10, 9, 11, 10, 5]).2 =
      Outcome.exited ((demo_after [10, 9, 11, 10, 5]).1,
        put (demo_after [10, 9, 11, 10, 5]).2 ui_messages.GOODBYE)) ∧
    (demo_after [0, 20, 10, 10, 5]).1.spokes (demo_after [0, 20, 10, 10, 5]).1.worst_spoke = -10 ∧
    ((demo_after [0, 20, 10, 10, 5]).1.finished = true ↔
      |(demo_after [0, 20, 10, 10, 5]).1.spokes
        (demo_after [0, 20, 10, 10, 5]).1.worst_spoke| < 10) :=
  ⟨by decide, by decide,
    (loop_exit_iff 4 (by decide) (by decide) demo_locals (demo_world [10, 9, 11, 10, 5])
      (demo_after [10, 9, 11, 10, 5]) (by unfold Int16Array; decide) rfl rfl).2.2.2.1
      (by decide),
    by decide,
    (loop_exit_iff 4 (by decide) (by decide) demo_locals (demo_world [0, 20, 10, 10, 5])
      (demo_after [0, 20, 10, 10, 5]) (by unfold Int16Array; decide) rfl rfl).2.2.1⟩

end task_mastermind

/-! ## The position tracker -/

namespace spoke_counter

/-- Claim C18, as amended: the edge handler leaves the direction, the stored
channel levels, the published index, `max_spokes` and the desired index alone;
it replaces the accumulator by `count + 1` (direction `true`) or `count - 1`
(direction `false`) reduced to the `int8_t` range, which is exactly one more
when `count < 127`, and exactly one less when `count > -128`. -/
theorem INT4_vect_counts (t : Tracker) :
    (INT4_vect t).wheel_direction = t.wheel_direction ∧
    (INT4_vect t).chan5high = t.chan5high ∧
    (INT4_vect t).chan6high = t.chan6high ∧
    (INT4_vect t).spoke_count = t.spoke_count ∧
    (INT4_vect t).max_spokes = t.max_spokes ∧
    (INT4_vect t).desired_spoke = t.desired_spoke ∧
    (t.wheel_direction = true → (INT4_vect t).count = int8 (t.count + 1)) ∧
    (t.wheel_direction = false → (INT4_vect t).count = int8 (t.count - 1)) ∧
    (t.wheel_direction = true → IsInt8 t.count → t.count < 127 →
      (INT4_vect t).count = t.count + 1) ∧
    (t.wheel_direction = false → IsInt8 t.count → -128 < t.count →
      (INT4_vect t).count = t.count - 1) := by
  unfold INT4_vect wheel_encoder.get_direction
  cases hd : t.wheel_direction
  · simp only [Bool.false_eq_true, if_false, true_and, false_implies, true_implies]
    refine ⟨?_, ?_⟩
    · unfold avr_int int16 int8; omega
    · intro h8 hlo; unfold IsInt8 at h8; unfold avr_int int16 int8; omega
  · simp only [if_true, true_and, Bool.true_eq_false, false_implies, true_implies, and_true]
    refine ⟨?_, ?_⟩
    · unfold avr_int int16 int8; omega
    · intro h8 hhi; unfold IsInt8 at h8; unfold avr_int int16 int8; omega

/-- Witness for C18: forward from 5 gives 6, backward from 5 gives 4. -/
theorem INT4_vect_counts_witness :
    (INT4_vect ⟨5, 3, 32, true, false, true, 7⟩).count = 5 + 1 ∧
    (INT4_vect ⟨5, 3, 32, false, false, true, 7⟩).count = 5 - 1 :=
  ⟨(INT4_vect_counts ⟨5, 3, 32, true, false, true, 7⟩).2.2.2.2.2.2.2.2.1 rfl
      (by decide) (by decide),
   (INT4_vect_counts ⟨5, 3, 32, false, false, true, 7⟩).2.2.2.2.2.2.2.2.2 rfl
      (by decide) (by decide)⟩

/-- Counterexample to C18 as stated: with the accumulator at 127 and the
direction forward the handler leaves -128, not 128. -/
theorem INT4_vect_wraps :
    (INT4_vect ⟨127, 3, 32, true, false, true, 7⟩).count = -128 ∧
    (INT4_vect ⟨127, 3, 32, true, false, true, 7⟩).count ≠ 127 + 1 := by
  constructor <;> decide

/-- Claim C20: `spoke_counter::update` makes `spoke_count` equal to `count`,
leaves the accumulator, the direction, the stored levels, `max_spokes` and the
desired index unchanged, and publishing twice gives the same state as
publishing once. -/
theorem update_publishes (t : Tracker) :
    (update t).spoke_count = t.count ∧
    (update t).count = t.count ∧
    (update t).wheel_direction = t.wheel_direction ∧
    (update t).desired_spoke = t.desired_spoke ∧
    (update t).chan5high = t.chan5high ∧
    (update t).chan6high = t.chan6high ∧
    (update t).max_spokes = t.max_spokes ∧
    update (update t) = update t :=
  ⟨rfl, rfl, rfl, rfl, rfl, rfl, rfl, rfl⟩

end spoke_counter

namespace wheel_encoder

/-- Claim C19: after the channel-5 handler the direction is
`level5 != level6`, after the channel-6 handler it is `level5 == level6`, where
the level of the triggering channel is the new one and the level of the other
channel the stored one; the handler stores the new level of its own channel and
leaves the other stored level, the accumulator, the published index and the
desired index unchanged.  Two states that agree on the stored level of the
other channel get the same direction, whatever their previous direction and
accumulator. -/
theorem channel_handlers (t : Tracker) (level : Bool) :
    (INT5_vect t level).wheel_direction = (level != t.chan6high) ∧
    (INT5_vect t level).chan5high = level ∧
    (INT5_vect t level).chan6high = t.chan6high ∧
    (INT5_vect t level).count = t.count ∧
    (INT5_vect t level).spoke_count = t.spoke_count ∧
    (INT5_vect t level).desired_spoke = t.desired_spoke ∧
    (INT6_vect t level).wheel_direction = (t.chan5high == level) ∧
    (INT6_vect t level).chan6high = level ∧
    (INT6_vect t level).chan5high = t.chan5high ∧
    (INT6_vect t level).count = t.count ∧
    (INT6_vect t level).spoke_count = t.spoke_count ∧
    (INT6_vect t level).desired_spoke = t.desired_spoke ∧
    (∀ u : Tracker, u.chan6high = t.chan6high →
      (INT5_vect u level).wheel_direction = (INT5_vect t level).wheel_direction) ∧
    (∀ u : Tracker, u.chan5high = t.chan5high →
      (INT6_vect u level).wheel_direction = (INT6_vect t level).wheel_direction) := by
  unfold INT5_vect INT6_vect
  refine ⟨?_, rfl, rfl, rfl, rfl, rfl, ?_, rfl, rfl, rfl, rfl, rfl, ?_, ?_⟩
  · cases level <;> cases t.chan6high <;> rfl
  · cases level <;> cases t.chan5high <;> rfl
  · intro u hu; simp only [hu]
  · intro u hu; simp only [hu]

/-- Witness for C19: the same new level and stored other level, with different
previous directions and accumulators, give the same direction. -/
theorem channel_handlers_witness :
    (INT5_vect ⟨5, 3, 32, true, false, true, 7⟩ true).wheel_direction =
      (INT5_vect ⟨-9, 0, 32, false, false, true, 0⟩ true).wheel_direction :=
  (channel_handlers ⟨-9, 0, 32, false, false, true, 0⟩ true).2.2.2.2.2.2.2.2.2.2.2.2.1
    ⟨5, 3, 32, true, false, true, 7⟩ rfl

end wheel_encoder

/-! ## The wait for the operator -/

namespace task_mastermind

open mastermind

theorem await_loop_exited (polls : List (Option messages_from_ui)) :
    ∀ rest, await_loop polls = Outcome.exited rest →
      ∃ before, polls = before ++ some messages_from_ui.DID_THAT :: rest ∧
        some messages_from_ui.DID_THAT ∉ before := by
  induction polls with
  | nil => intro rest h; simp [await_loop] at h
  | cons p more ih =>
    intro rest h
    cases p with
    | none =>
      simp only [await_loop] at h
      obtain ⟨before, hb, hn⟩ := ih rest h
      exact ⟨none :: before, by simp [hb], by simp [hn]⟩
    | some m =>
      simp only [await_loop] at h
      by_cases hm : m ≠ messages_from_ui.DID_THAT
      · rw [if_pos hm] at h
        obtain ⟨before, hb, hn⟩ := ih rest h
        refine ⟨some m :: before, by simp [hb], ?_⟩
        simp only [List.mem_cons, not_or]
        exact ⟨fun h2 => hm (Option.some.inj h2).symm, hn⟩
      · rw [if_neg hm] at h
        have hm2 : m = messages_from_ui.DID_THAT := not_not.mp hm
        cases h
        exact ⟨[], by simp [hm2], by simp⟩

theorem await_loop_waiting (polls : List (Option messages_from_ui)) :
    ∀ rest, await_loop polls = Outcome.waiting rest →
      rest = [] ∧ some messages_from_ui.DID_THAT ∉ polls := by
  induction polls with
  | nil => intro rest h; simp only [await_loop] at h; cases h; simp
  | cons p more ih =>
    intro rest h
    cases p with
    | none =>
      simp only [await_loop] at h
      obtain ⟨hr, hn⟩ := ih rest h
      exact ⟨hr, by simp [hn]⟩
    | some m =>
      simp only [await_loop] at h
      by_cases hm : m ≠ messages_from_ui.DID_THAT
      · rw [if_pos hm] at h
        obtain ⟨hr, hn⟩ := ih rest h
        refine ⟨hr, ?_⟩
        simp only [List.mem_cons, not_or]
        exact ⟨fun h2 => hm (Option.some.inj h2).symm, hn⟩
      · rw [if_neg hm] at h
        cases h

theorem await_loop_released (before rest : List (Option messages_from_ui))
    (hn : some messages_from_ui.DID_THAT ∉ before) :
    await_loop (before ++ some messages_from_ui.DID_THAT :: rest) = Outcome.exited rest := by
  induction before with
  | nil => simp [await_loop]
  | cons p more ih =>
    simp only [List.mem_cons, not_or] at hn
    cases p with
    | none => simp only [List.cons_append, await_loop]; exact ih hn.2
    | some m =>
      have hm : m ≠ messages_from_ui.DID_THAT := fun h => hn.1 (by rw [h])
      simp only [List.cons_append, await_loop, if_pos hm]
      exact ih hn.2

/-- Claim C16: for every stream of polls of the queue `from_ui`, the wait of
`run` ends exactly at the first DID_THAT.  If the wait ends, the polls consumed
are some polls without DID_THAT (each finds the queue empty or takes an ACK),
then the DID_THAT, and everything after it is left in the queue; if the stream
holds no DID_THAT the wait never ends; and a stream whose first DID_THAT comes
after any number of other polls does end the wait there. -/
theorem await_ends_at_first_did_that (polls : List (Option messages_from_ui)) :
    (∀ rest, await_loop polls = Outcome.exited rest →
      ∃ before, polls = before ++ some messages_from_ui.DID_THAT :: rest ∧
        some messages_from_ui.DID_THAT ∉ before ∧
        ∀ m, some m ∈ before → m = messages_from_ui.ACK) ∧
    (∀ rest, await_loop polls = Outcome.waiting rest →
      rest = [] ∧ some messages_from_ui.DID_THAT ∉ polls) ∧
    (∀ before rest, some messages_from_ui.DID_THAT ∉ before →
      polls = before ++ some messages_from_ui.DID_THAT :: rest →
      await_loop polls = Outcome.exited rest) := by
  refine ⟨?_, await_loop_waiting polls, ?_⟩
  · intro rest h
    obtain ⟨before, hb, hn⟩ := await_loop_exited polls rest h
    refine ⟨before, hb, hn, ?_⟩
    intro m hm
    cases m with
    | DID_THAT => exact absurd hm hn
    | ACK => rfl
  · intro before rest hn hp
    rw [hp]; exact await_loop_released before rest hn

/-- Witness for C16: an empty poll, two ACKs, then DID_THAT, then an ACK and a
second DID_THAT that stay in the queue. -/
theorem await_ends_at_first_did_that_witness :
    await_loop [none, some messages_from_ui.ACK, some messages_from_ui.ACK,
      some messages_from_ui.DID_THAT, some messages_from_ui.ACK,
      some messages_from_ui.DID_THAT] =
    Outcome.exited [some messages_from_ui.ACK, some messages_from_ui.DID_THAT] :=
  (await_ends_at_first_did_that [none, some messages_from_ui.ACK, some messages_from_ui.ACK,
      some messages_from_ui.DID_THAT, some messages_from_ui.ACK,
      some messages_from_ui.DID_THAT]).2.2
    [none, some messages_from_ui.ACK, some messages_from_ui.ACK]
    [some messages_from_ui.ACK, some messages_from_ui.DID_THAT] (by decide) rfl

end task_mastermind

/-! ## The messages of the engine -/

namespace mastermind

theorem approach_loop_out (desired : Int) :
    ∀ (positions : List Int) (prev : Int) (out : List ui_messages),
      ∃ k, (approach_loop desired prev out positions).state.1 =
        out ++ List.replicate k ui_messages.GO_BACK := by
  intro positions
  induction positions with
  | nil => intro prev out; exact ⟨0, by simp [approach_loop, Outcome.state]⟩
  | cons sc rest ih =>
    intro prev out
    simp only [approach_loop]
    by_cases h1 : sc = desired
    · rw [if_pos h1]; exact ⟨0, by simp [Outcome.state]⟩
    · rw [if_neg h1]
      by_cases h2 : prev ≠ sc
      · rw [if_pos h2]
        obtain ⟨k, hk⟩ := ih sc (out ++ [ui_messages.GO_BACK])
        refine ⟨k + 1, ?_⟩
        rw [hk, List.replicate_succ, List.append_assoc]; rfl
      · rw [if_neg h2]; exact ih prev out

theorem overrun_loop_out (n : Nat) (desired : Int) (pot : Nat → Int) :
    ∀ (positions : List Int) (prev : Int) (meas : Meas) (out : List ui_messages)
      (reads : Nat),
      ∃ k, (overrun_loop n desired pot prev meas out reads positions).state.out =
        out ++ List.replicate k ui_messages.PRINT_SPOKE := by
  intro positions
  induction positions with
  | nil => intro prev meas out reads; exact ⟨0, by simp [overrun_loop, Outcome.state]⟩
  | cons sc rest ih =>
    intro prev meas out reads
    simp only [overrun_loop]
    by_cases h1 : sc = desired
    · rw [if_pos h1]; exact ⟨0, by simp [Outcome.state]⟩
    · rw [if_neg h1]
      by_cases h2 : prev ≠ sc
      · rw [if_pos h2]
        by_cases h3 : 0 ≤ sc ∧ sc ≤ (n : Int)
        · rw [if_pos h3]
          obtain ⟨k, hk⟩ := ih sc (Function.update meas sc.toNat (int16 (pot reads)))
            (out ++ [ui_messages.PRINT_SPOKE]) (reads + 1)
          refine ⟨k + 1, ?_⟩
          rw [hk, List.replicate_succ, List.append_assoc]; rfl
        · rw [if_neg h3]
          obtain ⟨k, hk⟩ := ih sc meas (out ++ [ui_messages.PRINT_SPOKE]) reads
          refine ⟨k + 1, ?_⟩
          rw [hk, List.replicate_succ, List.append_assoc]; rfl
      · rw [if_neg h2]; exact ih prev meas out reads

/-- A sweep puts GO_BACK notices followed by PRINT_SPOKE notices, nothing else. -/
theorem measure_all_out (n : Nat) (meas : Meas) (w : World) :
    ∃ a b, (measure_all n meas w).state.2.to_ui =
      w.to_ui ++ (List.replicate a ui_messages.GO_BACK ++
        List.replicate b ui_messages.PRINT_SPOKE) := by
  obtain ⟨a, ha⟩ := approach_loop_out (-10) w.positions (-127) w.to_ui
  unfold measure_all
  cases h : approach_loop (-10) (-127) w.to_ui w.positions with
  | waiting r =>
    obtain ⟨out1, rest1⟩ := r
    rw [h] at ha
    simp only [Outcome.state] at ha ⊢
    exact ⟨a, 0, by simp [ha]⟩
  | exited r =>
    obtain ⟨out1, rest1⟩ := r
    rw [h] at ha
    simp only [Outcome.state] at ha
    obtain ⟨b, hb⟩ := overrun_loop_out n (int8 (avr_int ((n : Int) + 10))) w.pot rest1 (-127)
      meas out1 w.pot_reads
    simp only []
    cases h2 : overrun_loop n (int8 (avr_int ((n : Int) + 10))) w.pot (-127) meas out1
        w.pot_reads rest1 with
    | waiting s =>
      rw [h2] at hb
      simp only [Outcome.state] at hb ⊢
      exact ⟨a, b, by rw [hb, ha, List.append_assoc]⟩
    | exited s =>
      rw [h2] at hb
      simp only [Outcome.state] at hb ⊢
      exact ⟨a, b, by rw [hb, ha, List.append_assoc]⟩

end mastermind

namespace task_mastermind

open mastermind

theorem correction_exited_out (k : Nat) (w w1 : World)
    (h : correction k w = Outcome.exited w1) :
    w1.to_ui = w.to_ui ++ [ui_messages.TIGHTEN] := by
  unfold correction at h
  simp only [] at h
  split at h
  · cases h
  · split at h
    · cases h
    · cases h; rfl

theorem correction_waiting_out (k : Nat) (w w1 : World)
    (h : correction k w = Outcome.waiting w1) :
    w1.to_ui = w.to_ui ∨
    (w1.to_ui = w.to_ui ++ [ui_messages.TIGHTEN] ∧
      some messages_from_ui.DID_THAT ∉ w.from_ui) := by
  unfold correction at h
  simp only [] at h
  split at h
  · cases h; exact Or.inl rfl
  · split at h
    · rename_i polls hp
      cases h
      exact Or.inr ⟨rfl, (await_loop_waiting _ polls hp).2⟩
    · cases h

theorem resweep_out (n : Nat) (l : Locals) (w : World) :
    ∃ a b, (resweep n l w).state.2.to_ui =
      w.to_ui ++ ui_messages.MEASURING :: (List.replicate a ui_messages.GO_BACK ++
        List.replicate b ui_messages.PRINT_SPOKE) := by
  obtain ⟨a, b, hab⟩ := measure_all_out n l.spokes (put w ui_messages.MEASURING)
  refine ⟨a, b, ?_⟩
  unfold resweep
  cases h : measure_all n l.spokes (put w ui_messages.MEASURING) with
  | waiting r =>
    obtain ⟨m, w1⟩ := r
    rw [h] at hab
    simp only [Outcome.state, put] at hab ⊢
    rw [hab]; simp
  | exited r =>
    obtain ⟨m, w1⟩ := r
    rw [h] at hab
    simp only [Outcome.state, put] at hab ⊢
    rw [hab]; simp

/-- The messages of one pass through the loop body: TIGHTEN, then (once the
acknowledgment has come) MEASURING and the notices of the sweep. -/
theorem loop_body_out (n : Nat) (l : Locals) (w : World) :
    (∀ s, loop_body n l w = Outcome.exited s →
      ∃ a b, s.2.to_ui = w.to_ui ++ ui_messages.TIGHTEN :: ui_messages.MEASURING ::
        (List.replicate a ui_messages.GO_BACK ++ List.replicate b ui_messages.PRINT_SPOKE)) ∧
    (∀ s, loop_body n l w = Outcome.waiting s →
      s.2.to_ui = w.to_ui ∨
      (s.2.to_ui = w.to_ui ++ [ui_messages.TIGHTEN] ∧
        some messages_from_ui.DID_THAT ∉ w.from_ui) ∨
      ∃ a b, s.2.to_ui = w.to_ui ++ ui_messages.TIGHTEN :: ui_messages.MEASURING ::
        (List.replicate a ui_messages.GO_BACK ++ List.replicate b ui_messages.PRINT_SPOKE)) := by
  unfold loop_body
  cases hc : correction l.worst_spoke w with
  | waiting w1 =>
    refine ⟨fun s h => by simp at h, ?_⟩
    intro s h
    simp only [] at h
    cases h
    rcases correction_waiting_out _ w w1 hc with h1 | h1
    · exact Or.inl h1
    · exact Or.inr (Or.inl h1)
  | exited w1 =>
    simp only []
    have h1 := correction_exited_out _ w w1 hc
    obtain ⟨a, b, hab⟩ := resweep_out n l w1
    constructor
    · intro s h
      rw [h] at hab
      simp only [Outcome.state] at hab
      exact ⟨a, b, by rw [hab, h1]; simp⟩
    · intro s h
      rw [h] at hab
      simp only [Outcome.state] at hab
      exact Or.inr (Or.inr ⟨a, b, by rw [hab, h1]; simp⟩)

end task_mastermind

namespace task_mastermind

open mastermind

theorem cycle_engineMessage (a b : Nat) :
    ∀ m ∈ ui_messages.TIGHTEN :: ui_messages.MEASURING ::
      (List.replicate a ui_messages.GO_BACK ++ List.replicate b ui_messages.PRINT_SPOKE),
      EngineMessage m := by
  intro m hm
  unfold EngineMessage
  simp only [List.mem_cons, List.mem_append, List.mem_replicate] at hm
  rcases hm with h | h | h | h
  · exact Or.inr (Or.inr (Or.inr (Or.inr (Or.inl h))))
  · exact Or.inr (Or.inl h)
  · exact Or.inr (Or.inr (Or.inl h.2))
  · exact Or.inr (Or.inr (Or.inr (Or.inl h.2)))

/-- Whatever the loop `while(!finished)` puts on `to_ui` is a message of the
engine. -/
theorem run_loop_out (n : Nat) :
    ∀ (fuel : Nat) (l : Locals) (w : World),
      ∃ added, (run_loop n fuel l w).state.2.to_ui = w.to_ui ++ added ∧
        ∀ m ∈ added, EngineMessage m := by
  intro fuel
  induction fuel with
  | zero =>
    intro l w
    unfold run_loop
    cases hf : l.finished
    · exact ⟨[], by simp [Outcome.state], by simp⟩
    · refine ⟨[ui_messages.GOODBYE], by simp [Outcome.state, put], ?_⟩
      intro m hm
      simp only [List.mem_singleton] at hm
      unfold EngineMessage; simp [hm]
  | succ fuel ih =>
    intro l w
    unfold run_loop
    cases hf : l.finished
    · simp only [Bool.false_eq_true, if_false]
      obtain ⟨hex, hwait⟩ := loop_body_out n l w
      cases hb : loop_body n l w with
      | waiting s =>
        simp only [Outcome.state]
        rcases hwait s hb with h | h | ⟨a, b, h⟩
        · exact ⟨[], by simp [h], by simp⟩
        · refine ⟨[ui_messages.TIGHTEN], h.1, ?_⟩
          intro m hm
          simp only [List.mem_singleton] at hm
          unfold EngineMessage; simp [hm]
        · exact ⟨_, h, cycle_engineMessage a b⟩
      | exited s =>
        obtain ⟨l1, w1⟩ := s
        simp only []
        obtain ⟨a, b, h⟩ := hex (l1, w1) hb
        simp only [] at h
        obtain ⟨added, h2, h3⟩ := ih l1 w1
        refine ⟨(ui_messages.TIGHTEN :: ui_messages.MEASURING ::
          (List.replicate a ui_messages.GO_BACK ++
            List.replicate b ui_messages.PRINT_SPOKE)) ++ added,
          by rw [h2, h, List.append_assoc], ?_⟩
        intro m hm
        rcases List.mem_append.mp hm with h4 | h4
        · exact cycle_engineMessage a b m h4
        · exact h3 m h4
    · refine ⟨[ui_messages.GOODBYE], by simp [Outcome.state, put], ?_⟩
      intro m hm
      simp only [List.mem_singleton] at hm
      unfold EngineMessage; simp [hm]

theorem run_out (n fuel : Nat) (stack : Meas) (w : World) :
    ∃ added, (run n fuel stack w).state.2.to_ui = w.to_ui ++ added ∧
      ∀ m ∈ added, EngineMessage m := by
  obtain ⟨a, b, hab⟩ :=
    measure_all_out n stack (put (put w ui_messages.HELLO) ui_messages.MEASURING)
  have hsweep : ∀ m ∈ ui_messages.HELLO :: ui_messages.MEASURING ::
      (List.replicate a ui_messages.GO_BACK ++ List.replicate b ui_messages.PRINT_SPOKE),
      EngineMessage m := by
    intro m hm
    unfold EngineMessage
    simp only [List.mem_cons, List.mem_append, List.mem_replicate] at hm
    rcases hm with h | h | h | h
    · exact Or.inl h
    · exact Or.inr (Or.inl h)
    · exact Or.inr (Or.inr (Or.inl h.2))
    · exact Or.inr (Or.inr (Or.inr (Or.inl h.2)))
  unfold run
  cases hm : measure_all n stack (put (put w ui_messages.HELLO) ui_messages.MEASURING) with
  | waiting r =>
    obtain ⟨m1, w1⟩ := r
    rw [hm] at hab
    simp only [Outcome.state, put] at hab ⊢
    exact ⟨_, by rw [hab]; simp, hsweep⟩
  | exited r =>
    obtain ⟨m1, w1⟩ := r
    rw [hm] at hab
    simp only [Outcome.state, put] at hab
    obtain ⟨added, h2, h3⟩ := run_loop_out n fuel (first_analysis n m1) w1
    refine ⟨(ui_messages.HELLO :: ui_messages.MEASURING ::
      (List.replicate a ui_messages.GO_BACK ++ List.replicate b ui_messages.PRINT_SPOKE)) ++
      added, by simp only []; rw [h2, hab]; simp, ?_⟩
    intro m hmem
    rcases List.mem_append.mp hmem with h4 | h4
    · exact hsweep m h4
    · exact h3 m h4

end task_mastermind

/-! ## The end-to-end scenario -/

namespace task_mastermind

open mastermind

/-- Once the model of the loop has run to its end, more fuel changes nothing. -/
theorem run_loop_exited_succ (n : Nat) :
    ∀ (fuel : Nat) (l : Locals) (w : World) (s : Locals × World),
      run_loop n fuel l w = Outcome.exited s → run_loop n (fuel + 1) l w = Outcome.exited s := by
  intro fuel
  induction fuel with
  | zero =>
    intro l w s h
    unfold run_loop at h ⊢
    cases hf : l.finished
    · rw [hf] at h; simp at h
    · rw [hf] at h; simpa using h
  | succ fuel ih =>
    intro l w s h
    rw [run_loop] at h ⊢
    cases hf : l.finished
    · rw [hf] at h
      simp only [Bool.false_eq_true, if_false] at h ⊢
      cases hb : loop_body n l w with
      | waiting t => rw [hb] at h; simp at h
      | exited t =>
        obtain ⟨l1, w1⟩ := t
        rw [hb] at h
        simp only [] at h ⊢
        exact ih l1 w1 s h
    · rw [hf] at h; simpa using h

theorem run_loop_exited_add (n fuel : Nat) (l : Locals) (w : World) (s : Locals × World)
    (h : run_loop n fuel l w = Outcome.exited s) :
    ∀ k, run_loop n (fuel + k) l w = Outcome.exited s := by
  intro k
  induction k with
  | zero => exact h
  | succ k ih => exact run_loop_exited_succ n (fuel + k) l w s ih

theorem run_exited_add (n fuel : Nat) (stack : Meas) (w : World)
    (h : (run n fuel stack w).isExited = true) :
    ∀ k, run n (fuel + k) stack w = run n fuel stack w := by
  intro k
  unfold run at h ⊢
  cases hm : measure_all n stack (put (put w ui_messages.HELLO) ui_messages.MEASURING) with
  | waiting r =>
    obtain ⟨m1, w1⟩ := r
    rfl
  | exited r =>
    obtain ⟨m1, w1⟩ := r
    rw [hm] at h
    simp only [] at h ⊢
    cases hr : run_loop n fuel (first_analysis n m1) w1 with
    | waiting t => rw [hr] at h; simp [Outcome.isExited] at h
    | exited t => exact run_loop_exited_add n fuel _ w1 t hr k

/-- Claim C15: on 4 spokes the readings 12, 8, 10, 10 give the average 10, the
offsets 2, -2, 0, 0 and the worst index 0; the readings 10, 9, 11, 10 give the
average 10, the offsets 0, -1, 1, 0 and a worst offset of magnitude 1; and a
run of the engine that takes these readings in its first and second sweep ends,
for any fuel of at least one pass, after exactly one TIGHTEN with GOODBYE as its
last message, the final offsets being 0, -1, 1, 0. -/
theorem scenario_converges :
    find_avg (ofList [12, 8, 10, 10]) 4 = 10 ∧
    (List.range 4).map (con_to_offs (ofList [12, 8, 10, 10]) 10 4) = [2, -2, 0, 0] ∧
    find_worst (ofList [2, -2, 0, 0]) 4 = 0 ∧
    find_avg (ofList [10, 9, 11, 10]) 4 = 10 ∧
    (List.range 4).map (con_to_offs (ofList [10, 9, 11, 10]) 10 4) = [0, -1, 1, 0] ∧
    |ofList [0, -1, 1, 0] (find_worst (ofList [0, -1, 1, 0]) 4)| = 1 ∧
    (run 4 0 (fun _ => 0) scenario_world).state.1.avg = 10 ∧
    (List.range 4).map (run 4 0 (fun _ => 0) scenario_world).state.1.spokes = [2, -2, 0, 0] ∧
    (run 4 0 (fun _ => 0) scenario_world).state.1.worst_spoke = 0 ∧
    (run 4 0 (fun _ => 0) scenario_world).isExited = false ∧
    (∀ k, run 4 (1 + k) (fun _ => 0) scenario_world = run 4 1 (fun _ => 0) scenario_world) ∧
    (run 4 1 (fun _ => 0) scenario_world).isExited = true ∧
    (run 4 1 (fun _ => 0) scenario_world).state.1.avg = 10 ∧
    (List.range 4).map (run 4 1 (fun _ => 0) scenario_world).state.1.spokes = [0, -1, 1, 0] ∧
    (run 4 1 (fun _ => 0) scenario_world).state.1.worst_spoke_val = -1 ∧
    (run 4 1 (fun _ => 0) scenario_world).state.1.finished = true ∧
    (run 4 1 (fun _ => 0) scenario_world).state.2.to_ui.count ui_messages.TIGHTEN = 1 ∧
    (run 4 1 (fun _ => 0) scenario_world).state.2.to_ui.getLast? = some ui_messages.GOODBYE ∧
    (run 4 1 (fun _ => 0) scenario_world).state.2.to_ui.count ui_messages.GOODBYE = 1 := by
  refine ⟨by decide, by decide, by decide, by decide, by decide, by decide, by decide!,
    by decide!, by decide!, by decide!, ?_, by decide!, by decide!, by decide!, by decide!,
    by decide!, by decide!, by decide!, by decide!⟩
  exact run_exited_add 4 1 (fun _ => 0) scenario_world (by decide!)

end task_mastermind

/-! ## The sweep: what is sampled and announced -/

namespace mastermind

/-- The traces describe the second polling loop: the array it leaves is the one
obtained by storing the samples of the trace, the number of potentiometer reads
grows by the number of samples, and one PRINT_SPOKE is put per notice of the
trace. -/
theorem overrun_loop_trace (n : Nat) (desired : Int) (pot : Nat → Int) :
    ∀ (positions : List Int) (step : Nat) (prev : Int) (meas : Meas)
      (out : List ui_messages) (reads : Nat),
      (overrun_loop n desired pot prev meas out reads positions).state.meas =
        store_samples pot reads meas (overrun_samples n desired step prev positions) ∧
      (overrun_loop n desired pot prev meas out reads positions).state.pot_reads =
        reads + (overrun_samples n desired step prev positions).length ∧
      (overrun_loop n desired pot prev meas out reads positions).state.out =
        out ++ List.replicate (overrun_prints desired step prev positions).length
          ui_messages.PRINT_SPOKE := by
  intro positions
  induction positions with
  | nil =>
    intro step prev meas out reads
    simp [overrun_loop, overrun_samples, overrun_prints, store_samples, Outcome.state]
  | cons sc rest ih =>
    intro step prev meas out reads
    simp only [overrun_loop, overrun_samples, overrun_prints]
    by_cases h1 : sc = desired
    · simp only [if_pos h1]
      simp [store_samples, Outcome.state]
    · simp only [if_neg h1]
      by_cases h2 : prev ≠ sc
      · simp only [if_pos h2]
        by_cases h3 : 0 ≤ sc ∧ sc ≤ (n : Int)
        · simp only [if_pos h3]
          obtain ⟨a1, a2, a3⟩ := ih (step + 1) sc
            (Function.update meas sc.toNat (int16 (pot reads)))
            (out ++ [ui_messages.PRINT_SPOKE]) (reads + 1)
          refine ⟨?_, ?_, ?_⟩
          · rw [a1]; rfl
          · rw [a2]; simp only [List.length_cons]; omega
          · rw [a3]; simp only [List.length_cons, List.replicate_succ, List.append_assoc]; rfl
        · simp only [if_neg h3]
          obtain ⟨a1, a2, a3⟩ := ih (step + 1) sc meas (out ++ [ui_messages.PRINT_SPOKE]) reads
          refine ⟨a1, a2, ?_⟩
          rw [a3]; simp only [List.length_cons, List.replicate_succ, List.append_assoc]; rfl
      · simp only [if_neg h2]
        exact ih (step + 1) prev meas out reads

/-- The second polling loop ends when the desired index is among the
observations. -/
theorem overrun_loop_exits (n : Nat) (desired : Int) (pot : Nat → Int) :
    ∀ (positions : List Int) (prev : Int) (meas : Meas) (out : List ui_messages)
      (reads : Nat), desired ∈ positions →
      (overrun_loop n desired pot prev meas out reads positions).isExited = true := by
  intro positions
  induction positions with
  | nil => intro prev meas out reads h; simp at h
  | cons sc rest ih =>
    intro prev meas out reads h
    simp only [overrun_loop]
    by_cases h1 : sc = desired
    · simp only [if_pos h1]; rfl
    · have hr : desired ∈ rest := by
        rcases List.mem_cons.mp h with h2 | h2
        · exact absurd h2.symm h1
        · exact h2
      simp only [if_neg h1]
      split_ifs
      · exact ih _ _ _ _ hr
      · exact ih _ _ _ _ hr
      · exact ih _ _ _ _ hr

/-- Slots above `max_spokes` are never written by a trace of samples. -/
theorem store_samples_frame (pot : Nat → Int) (n : Nat) (i : Nat) (hi : n < i) :
    ∀ (events : List (Nat × Int)) (reads : Nat) (meas : Meas),
      (∀ e ∈ events, 0 ≤ e.2 ∧ e.2 ≤ (n : Int)) →
      store_samples pot reads meas events i = meas i := by
  intro events
  induction events with
  | nil => intro reads meas _; rfl
  | cons e more ih =>
    intro reads meas h
    simp only [store_samples]
    rw [ih (reads + 1) _ (fun x hx => h x (List.mem_cons_of_mem _ hx))]
    have he := h e (List.mem_cons_self _ _)
    have hne : i ≠ e.2.toNat := by omega
    exact Function.update_noteq hne _ _

theorem overrun_samples_range (n : Nat) (desired : Int) :
    ∀ (positions : List Int) (step : Nat) (prev : Int),
      ∀ e ∈ overrun_samples n desired step prev positions, 0 ≤ e.2 ∧ e.2 ≤ (n : Int) := by
  intro positions
  induction positions with
  | nil => intro step prev e he; simp [overrun_samples] at he
  | cons sc rest ih =>
    intro step prev e he
    simp only [overrun_samples] at he
    split_ifs at he with h1 h2 h3
    · simp at he
    · rcases List.mem_cons.mp he with h | h
      · rw [h]; exact h3
      · exact ih _ _ e h
    · exact ih _ _ e he
    · exact ih _ _ e he

/-- The sweep writes no slot above `max_spokes`. -/
theorem measure_all_frame (n : Nat) (meas : Meas) (w : World) (i : Nat) (hi : n < i) :
    (measure_all n meas w).state.1 i = meas i := by
  unfold measure_all
  cases h : approach_loop (-10) (-127) w.to_ui w.positions with
  | waiting r => obtain ⟨out1, rest1⟩ := r; rfl
  | exited r =>
    obtain ⟨out1, rest1⟩ := r
    simp only []
    have ht := (overrun_loop_trace n (int8 (avr_int ((n : Int) + 10))) w.pot rest1 0 (-127)
      meas out1 w.pot_reads).1
    have hf := store_samples_frame w.pot n i hi
      (overrun_samples n (int8 (avr_int ((n : Int) + 10))) 0 (-127) rest1) w.pot_reads meas
      (overrun_samples_range n _ rest1 0 (-127))
    cases h2 : overrun_loop n (int8 (avr_int ((n : Int) + 10))) w.pot (-127) meas out1
        w.pot_reads rest1 with
    | waiting s =>
      rw [h2] at ht
      simp only [Outcome.state] at ht ⊢
      rw [ht, hf]
    | exited s =>
      rw [h2] at ht
      simp only [Outcome.state] at ht ⊢
      rw [ht, hf]

theorem approach_loop_exited (desired : Int) :
    ∀ (positions : List Int) (prev : Int) (out : List ui_messages)
      (r : List ui_messages × List Int),
      approach_loop desired prev out positions = Outcome.exited r →
      ∃ a, positions = a ++ desired :: r.2 ∧ desired ∉ a := by
  intro positions
  induction positions with
  | nil => intro prev out r h; simp [approach_loop] at h
  | cons sc rest ih =>
    intro prev out r h
    simp only [approach_loop] at h
    by_cases h1 : sc = desired
    · rw [if_pos h1] at h
      cases h
      exact ⟨[], by simp [h1], by simp⟩
    · rw [if_neg h1] at h
      have hstep : ∃ p o, approach_loop desired p o rest = Outcome.exited r := by
        by_cases h2 : prev ≠ sc
        · rw [if_pos h2] at h; exact ⟨_, _, h⟩
        · rw [if_neg h2] at h; exact ⟨_, _, h⟩
      obtain ⟨p, o, hr⟩ := hstep
      obtain ⟨a, ha, hn⟩ := ih p o r hr
      refine ⟨sc :: a, by simp [ha], ?_⟩
      simp only [List.mem_cons, not_or]
      exact ⟨fun h2 => h1 h2.symm, hn⟩

theorem approach_loop_waiting (desired : Int) :
    ∀ (positions : List Int) (prev : Int) (out : List ui_messages)
      (r : List ui_messages × List Int),
      approach_loop desired prev out positions = Outcome.waiting r → desired ∉ positions := by
  intro positions
  induction positions with
  | nil => intro prev out r _; simp
  | cons sc rest ih =>
    intro prev out r h
    simp only [approach_loop] at h
    by_cases h1 : sc = desired
    · rw [if_pos h1] at h; cases h
    · rw [if_neg h1] at h
      have hstep : ∃ p o, approach_loop desired p o rest = Outcome.waiting r := by
        by_cases h2 : prev ≠ sc
        · rw [if_pos h2] at h; exact ⟨_, _, h⟩
        · rw [if_neg h2] at h; exact ⟨_, _, h⟩
      obtain ⟨p, o, hr⟩ := hstep
      simp only [List.mem_cons, not_or]
      exact ⟨fun h2 => h1 h2.symm, ih p o r hr⟩

theorem overrun_loop_step (n : Nat) (desired : Int) (pot : Nat → Int) (sc : Int)
    (rest : List Int) (prev : Int) (meas : Meas) (out : List ui_messages) (reads : Nat)
    (h1 : sc ≠ desired) :
    ∃ p m o k, overrun_loop n desired pot prev meas out reads (sc :: rest) =
      overrun_loop n desired pot p m o k rest := by
  simp only [overrun_loop, if_neg h1]
  split_ifs
  · exact ⟨_, _, _, _, rfl⟩
  · exact ⟨_, _, _, _, rfl⟩
  · exact ⟨_, _, _, _, rfl⟩

theorem overrun_loop_exited (n : Nat) (desired : Int) (pot : Nat → Int) :
    ∀ (positions : List Int) (prev : Int) (meas : Meas) (out : List ui_messages)
      (reads : Nat) (s : Sweep),
      overrun_loop n desired pot prev meas out reads positions = Outcome.exited s →
      ∃ b, positions = b ++ desired :: s.rest ∧ desired ∉ b := by
  intro positions
  induction positions with
  | nil => intro prev meas out reads s h; simp [overrun_loop] at h
  | cons sc rest ih =>
    intro prev meas out reads s h
    by_cases h1 : sc = desired
    · simp only [overrun_loop, if_pos h1] at h
      cases h
      exact ⟨[], by simp [h1], by simp⟩
    · obtain ⟨p, m, o, k, hstep⟩ :=
        overrun_loop_step n desired pot sc rest prev meas out reads h1
      rw [hstep] at h
      obtain ⟨b, hb, hn⟩ := ih p m o k s h
      refine ⟨sc :: b, by simp [hb], ?_⟩
      simp only [List.mem_cons, not_or]
      exact ⟨fun h2 => h1 h2.symm, hn⟩

theorem overrun_loop_waiting (n : Nat) (desired : Int) (pot : Nat → Int) :
    ∀ (positions : List Int) (prev : Int) (meas : Meas) (out : List ui_messages)
      (reads : Nat) (s : Sweep),
      overrun_loop n desired pot prev meas out reads positions = Outcome.waiting s →
      desired ∉ positions := by
  intro positions
  induction positions with
  | nil => intro prev meas out reads s _; simp
  | cons sc rest ih =>
    intro prev meas out reads s h
    by_cases h1 : sc = desired
    · simp only [overrun_loop, if_pos h1] at h
      cases h
    · obtain ⟨p, m, o, k, hstep⟩ :=
        overrun_loop_step n desired pot sc rest prev meas out reads h1
      rw [hstep] at h
      simp only [List.mem_cons, not_or]
      exact ⟨fun h2 => h1 h2.symm, ih p m o k s h⟩

/-- Claim C12, as amended: for `max_spokes` up to 117 (so that `max_spokes + 10`
is an `int8_t`), a sweep that has not ended is either in its approach pass, with
the desired index -10 and the wheel not yet seen at -10, or in its overrun pass,
with the desired index `max_spokes + 10`, the wheel having been seen at -10 and
not yet at `max_spokes + 10` since; and when `measure_all` has returned the
wheel has been seen at -10 and later at `max_spokes + 10`, and the desired index
is `max_spokes`. -/
theorem measure_all_desired_order (n : Nat) (hn : n ≤ 117) (meas : Meas) (w : World) :
    (∀ r, measure_all n meas w = Outcome.waiting r →
      (r.2.desired_spoke = -10 ∧ (-10 : Int) ∉ w.positions) ∨
      (r.2.desired_spoke = (n : Int) + 10 ∧
        ∃ a b, w.positions = a ++ (-10 : Int) :: b ∧ (-10 : Int) ∉ a ∧ (n : Int) + 10 ∉ b)) ∧
    (∀ r, measure_all n meas w = Outcome.exited r →
      r.2.desired_spoke = (n : Int) ∧
      ∃ a b, w.positions = a ++ (-10 : Int) :: (b ++ ((n : Int) + 10) :: r.2.positions) ∧
        (-10 : Int) ∉ a ∧ (n : Int) + 10 ∉ b) := by
  have hd : int8 (avr_int ((n : Int) + 10)) = (n : Int) + 10 := by
    unfold avr_int int16 int8; omega
  have hd2 : int8 (n : Int) = (n : Int) := by
    unfold int8; omega
  unfold measure_all
  rw [hd, hd2]
  cases h : approach_loop (-10) (-127) w.to_ui w.positions with
  | waiting r1 =>
    obtain ⟨out1, rest1⟩ := r1
    refine ⟨?_, fun r hr => by simp at hr⟩
    intro r hr
    simp only [] at hr
    cases hr
    exact Or.inl ⟨rfl, approach_loop_waiting (-10) _ _ _ _ h⟩
  | exited r1 =>
    obtain ⟨out1, rest1⟩ := r1
    obtain ⟨a, ha, hna⟩ := approach_loop_exited (-10) _ _ _ _ h
    simp only [] at ha ⊢
    cases h2 : overrun_loop n ((n : Int) + 10) w.pot (-127) meas out1 w.pot_reads rest1 with
    | waiting s =>
      refine ⟨?_, fun r hr => by simp at hr⟩
      intro r hr
      simp only [] at hr
      cases hr
      exact Or.inr ⟨rfl, a, rest1, ha, hna, overrun_loop_waiting n _ _ _ _ _ _ _ s h2⟩
    | exited s =>
      refine ⟨fun r hr => by simp at hr, ?_⟩
      intro r hr
      simp only [] at hr
      cases hr
      obtain ⟨b, hb, hnb⟩ := overrun_loop_exited n _ _ _ _ _ _ _ s h2
      exact ⟨rfl, a, b, by rw [ha, hb], hna, hnb⟩

/-- Witness for C12: a sweep of the shipped wheel of 32 spokes in which the
wheel is seen at -3, -10, 5 and 42 ends with the desired index 32. -/
theorem measure_all_desired_order_witness :
    (measure_all 32 (fun _ => 0)
      { shipped_sweep_world with positions := [-3, -10, 5, 42] }).state.2.desired_spoke = 32 :=
  ((measure_all_desired_order 32 (by decide) (fun _ => 0)
      { shipped_sweep_world with positions := [-3, -10, 5, 42] }).2
    (measure_all 32 (fun _ => 0)
      { shipped_sweep_world with positions := [-3, -10, 5, 42] }).state rfl).1

/-- Claim C11, evaluated at a failing input: on the shipped wheel of 32 spokes,
with the wheel observed at every index from -9 to 42, the sweep ends having
read the potentiometer 33 times; the samples are taken at the indices 0 to 32,
and slot 32 of the array, which held 0, holds the reading taken at index 32. -/
theorem measure_all_writes_slot_max_spokes :
    (measure_all 32 (fun _ => 0) shipped_sweep_world).isExited = true ∧
    (measure_all 32 (fun _ => 0) shipped_sweep_world).state.2.pot_reads = 33 ∧
    (overrun_samples 32 42 0 (-127) ((List.range 52).map (fun k : Nat => (k : Int) - 9))).map
      Prod.snd = (List.range 33).map (fun k : Nat => (k : Int)) ∧
    (measure_all 32 (fun _ => 0) shipped_sweep_world).state.1 31 = 131 ∧
    (measure_all 32 (fun _ => 0) shipped_sweep_world).state.1 32 = 132 ∧
    (measure_all 32 (fun _ => 0) shipped_sweep_world).state.1 33 = 0 := by
  refine ⟨by decide, by decide, by decide, by decide, by decide, by decide⟩

/-- Counterexample to C12 as stated: on the shipped wheel of 32 spokes the
desired index is -10 while the approach pass is polling, 42 while the overrun
pass is polling, and 32 (not 31) when `measure_all` has returned. -/
theorem measure_all_rests_at_max_spokes :
    (measure_all 32 (fun _ => 0) { shipped_sweep_world with positions := [-3] }).isExited
      = false ∧
    (measure_all 32 (fun _ => 0)
      { shipped_sweep_world with positions := [-3] }).state.2.desired_spoke = -10 ∧
    (measure_all 32 (fun _ => 0)
      { shipped_sweep_world with positions := [-3, -10, -9, 41] }).isExited = false ∧
    (measure_all 32 (fun _ => 0)
      { shipped_sweep_world with positions := [-3, -10, -9, 41] }).state.2.desired_spoke
      = 42 ∧
    (measure_all 32 (fun _ => 0) shipped_sweep_world).isExited = true ∧
    (measure_all 32 (fun _ => 0) shipped_sweep_world).state.2.desired_spoke = 32 ∧
    (measure_all 32 (fun _ => 0) shipped_sweep_world).state.2.desired_spoke ≠ 32 - 1 := by
  refine ⟨by decide, by decide, by decide, by decide, by decide, by decide, by decide⟩

end mastermind

namespace mastermind

/-- A sample is taken exactly at the notices whose index lies between 0 and
`max_spokes`. -/
theorem overrun_samples_eq_filter (n : Nat) (desired : Int) :
    ∀ (positions : List Int) (step : Nat) (prev : Int),
      overrun_samples n desired step prev positions =
        (overrun_prints desired step prev positions).filter
          (fun e => decide (0 ≤ e.2 ∧ e.2 ≤ (n : Int))) := by
  intro positions
  induction positions with
  | nil => intro step prev; rfl
  | cons sc rest ih =>
    intro step prev
    simp only [overrun_samples, overrun_prints]
    by_cases h1 : sc = desired
    · simp only [if_pos h1]; rfl
    · simp only [if_neg h1]
      by_cases h2 : prev ≠ sc
      · simp only [if_pos h2]
        by_cases h3 : 0 ≤ sc ∧ sc ≤ (n : Int)
        · rw [if_pos h3, List.filter_cons_of_pos (by simpa using h3), ih]
        · rw [if_neg h3, List.filter_cons_of_neg (by simpa using h3), ih]
      · simp only [if_neg h2]; exact ih (step + 1) prev

/-- Two consecutive notices never carry the same index, and the first notice
does not carry the index the loop started from. -/
theorem overrun_prints_chain (desired : Int) :
    ∀ (positions : List Int) (step : Nat) (prev : Int),
      List.Chain' (fun a b : Nat × Int => a.2 ≠ b.2) (overrun_prints desired step prev positions) ∧
      ∀ e ∈ (overrun_prints desired step prev positions).head?, prev ≠ e.2 := by
  intro positions
  induction positions with
  | nil => intro step prev; simp [overrun_prints]
  | cons sc rest ih =>
    intro step prev
    simp only [overrun_prints]
    by_cases h1 : sc = desired
    · simp only [if_pos h1]; simp
    · simp only [if_neg h1]
      by_cases h2 : prev ≠ sc
      · simp only [if_pos h2]
        obtain ⟨c1, c2⟩ := ih (step + 1) sc
        refine ⟨List.chain'_cons'.mpr ⟨c2, c1⟩, ?_⟩
        intro e he
        simp only [List.head?_cons, Option.mem_def, Option.some.injEq] at he
        rw [← he]; exact h2
      · simp only [if_neg h2]; exact ih (step + 1) prev

/-- On observations that never decrease and never fall below the index the loop
started from, the notices carry strictly increasing indices above it. -/
theorem overrun_prints_increasing_from (desired : Int) :
    ∀ (positions : List Int) (step : Nat) (prev : Int),
      List.Pairwise (fun a b : Int => a ≤ b) positions → (∀ x ∈ positions, prev ≤ x) →
      (∀ e ∈ overrun_prints desired step prev positions, prev < e.2) ∧
      List.Pairwise (fun a b : Nat × Int => a.2 < b.2)
        (overrun_prints desired step prev positions) := by
  intro positions
  induction positions with
  | nil => intro step prev _ _; simp [overrun_prints]
  | cons sc rest ih =>
    intro step prev hp hlo
    obtain ⟨hsc, hrest⟩ := List.pairwise_cons.mp hp
    have hprev : prev ≤ sc := hlo sc (List.mem_cons_self _ _)
    simp only [overrun_prints]
    by_cases h1 : sc = desired
    · simp only [if_pos h1]; simp
    · simp only [if_neg h1]
      by_cases h2 : prev ≠ sc
      · simp only [if_pos h2]
        obtain ⟨a1, a2⟩ := ih (step + 1) sc hrest hsc
        have hlt : prev < sc := lt_of_le_of_ne hprev h2
        refine ⟨?_, List.pairwise_cons.mpr ⟨a1, a2⟩⟩
        intro e he
        rcases List.mem_cons.mp he with h | h
        · rw [h]; exact hlt
        · exact lt_trans hlt (a1 e h)
      · simp only [if_neg h2]
        have heq : prev = sc := not_not.mp h2
        exact ih (step + 1) prev hrest (fun x hx => by rw [heq]; exact hsc x hx)

/-- On observations that never decrease the notices carry strictly increasing
indices. -/
theorem overrun_prints_increasing (desired : Int) :
    ∀ (positions : List Int) (step : Nat) (prev : Int),
      List.Pairwise (fun a b : Int => a ≤ b) positions →
      List.Pairwise (fun a b : Nat × Int => a.2 < b.2)
        (overrun_prints desired step prev positions) := by
  intro positions
  induction positions with
  | nil => intro step prev _; simp [overrun_prints]
  | cons sc rest ih =>
    intro step prev hp
    obtain ⟨hsc, hrest⟩ := List.pairwise_cons.mp hp
    simp only [overrun_prints]
    by_cases h1 : sc = desired
    · simp only [if_pos h1]; simp
    · simp only [if_neg h1]
      by_cases h2 : prev ≠ sc
      · simp only [if_pos h2]
        obtain ⟨a1, a2⟩ := overrun_prints_increasing_from desired rest (step + 1) sc hrest hsc
        exact List.pairwise_cons.mpr ⟨a1, a2⟩
      · simp only [if_neg h2]
        exact ih (step + 1) prev hrest

theorem count_le_one_of_increasing (events : List (Nat × Int))
    (h : List.Pairwise (fun a b : Nat × Int => a.2 < b.2) events) (i : Int) :
    (events.map Prod.snd).count i ≤ 1 := by
  have hnd : (events.map Prod.snd).Nodup := by
    unfold List.Nodup
    rw [List.pairwise_map]
    exact List.Pairwise.imp (fun hab => ne_of_lt hab) h
  exact List.nodup_iff_count_le_one.mp hnd i

end mastermind

/-! ## A forward sweep, one index at a time -/

namespace mastermind

theorem mem_staircase :
    ∀ (cs : List Nat) (lo x : Int), x ∈ staircase lo cs →
      lo ≤ x ∧ x < lo + (cs.length : Int) := by
  intro cs
  induction cs with
  | nil => intro lo x h; simp [staircase] at h
  | cons c cs ih =>
    intro lo x h
    simp only [staircase, List.mem_append] at h
    simp only [List.length_cons]
    push_cast
    rcases h with h | h
    · have := List.eq_of_mem_replicate h
      omega
    · have := ih (lo + 1) x h
      omega

theorem staircase_length_cons (lo : Int) (c : Nat) (cs : List Nat) :
    (staircase lo (c :: cs)).length = c + 1 + (staircase (lo + 1) cs).length := by
  simp [staircase]

/-- Repeated observations of the index seen last produce no sample. -/
theorem overrun_samples_repeat (n : Nat) (desired v : Int) (hv : v ≠ desired)
    (more : List Int) :
    ∀ (c step : Nat),
      overrun_samples n desired step v (List.replicate c v ++ more) =
        overrun_samples n desired (step + c) v more := by
  intro c
  induction c with
  | zero => intro step; simp
  | succ c ih =>
    intro step
    have hlist : List.replicate (c + 1) v ++ more = v :: (List.replicate c v ++ more) := by
      simp [List.replicate_succ]
    have hnot : ¬ (v ≠ v) := fun h => h rfl
    rw [hlist, overrun_samples, if_neg hv, if_neg hnot, ih (step + 1)]
    congr 1
    omega

/-- A run of observations of a new index on the wheel produces one sample, at
its first observation. -/
theorem overrun_samples_block (n : Nat) (desired v prev : Int) (hv : v ≠ desired)
    (hp : prev ≠ v) (hr : 0 ≤ v ∧ v ≤ (n : Int)) (more : List Int) (c step : Nat) :
    overrun_samples n desired step prev (List.replicate (c + 1) v ++ more) =
      (step, v) :: overrun_samples n desired (step + c + 1) v more := by
  have hlist : List.replicate (c + 1) v ++ more = v :: (List.replicate c v ++ more) := by
    simp [List.replicate_succ]
  rw [hlist, overrun_samples, if_neg hv, if_pos hp, if_pos hr,
    overrun_samples_repeat n desired v hv more c (step + 1)]
  congr 2
  omega

/-- Observations outside the range from 0 to `max_spokes` produce no sample. -/
theorem overrun_samples_outside (n : Nat) (desired : Int) (more : List Int) :
    ∀ (seg : List Int) (step : Nat) (prev : Int),
      (∀ x ∈ seg, x ≠ desired ∧ ¬ (0 ≤ x ∧ x ≤ (n : Int))) →
      ∃ p, (p = prev ∨ p ∈ seg) ∧
        overrun_samples n desired step prev (seg ++ more) =
          overrun_samples n desired (step + seg.length) p more := by
  intro seg
  induction seg with
  | nil => intro step prev _; exact ⟨prev, Or.inl rfl, by simp⟩
  | cons x seg ih =>
    intro step prev h
    obtain ⟨hx1, hx2⟩ := h x (List.mem_cons_self _ _)
    obtain ⟨p, hp, heq⟩ := ih (step + 1) x (fun y hy => h y (List.mem_cons_of_mem _ hy))
    refine ⟨p, ?_, ?_⟩
    · rcases hp with hp | hp
      · exact Or.inr (by rw [hp]; exact List.mem_cons_self _ _)
      · exact Or.inr (List.mem_cons_of_mem _ hp)
    · have hstep : step + (x :: seg).length = step + 1 + seg.length := by
        simp only [List.length_cons]; omega
      rw [List.cons_append, overrun_samples, if_neg hx1, hstep]
      by_cases hpx : prev ≠ x
      · rw [if_pos hpx, if_neg hx2, heq]
      · rw [if_neg hpx, not_not.mp hpx, heq]

/-- Forward observations inside the range from 0 to `max_spokes` produce one
sample per index, at its first observation. -/
theorem overrun_samples_stair (n : Nat) (desired : Int) (hd : (n : Int) < desired)
    (more : List Int) :
    ∀ (cs : List Nat) (lo : Int) (step : Nat) (prev : Int),
      prev < lo → 0 ≤ lo → lo + (cs.length : Int) ≤ (n : Int) + 1 →
      ∃ p, overrun_samples n desired step prev (staircase lo cs ++ more) =
        stair_events lo step cs ++
          overrun_samples n desired (step + (staircase lo cs).length) p more := by
  intro cs
  induction cs with
  | nil => intro lo step prev _ _ _; exact ⟨prev, by simp [staircase, stair_events]⟩
  | cons c cs ih =>
    intro lo step prev hp h0 hlen
    simp only [List.length_cons] at hlen
    push_cast at hlen
    obtain ⟨p, heq⟩ := ih (lo + 1) (step + c + 1) lo (by omega) (by omega) (by omega)
    refine ⟨p, ?_⟩
    have hassoc : staircase lo (c :: cs) ++ more =
        List.replicate (c + 1) lo ++ (staircase (lo + 1) cs ++ more) := by
      simp [staircase]
    rw [hassoc, overrun_samples_block n desired lo prev (by omega) (by omega)
      ⟨h0, by omega⟩ _ c step, heq, staircase_length_cons]
    simp only [stair_events, List.cons_append]
    congr 3
    omega

theorem stair_events_snd :
    ∀ (cs : List Nat) (lo : Int) (step : Nat),
      (stair_events lo step cs).map Prod.snd =
        (List.range cs.length).map (fun j : Nat => lo + (j : Int)) := by
  intro cs
  induction cs with
  | nil => intro lo step; rfl
  | cons c cs ih =>
    intro lo step
    rw [List.length_cons, List.range_succ_eq_map]
    simp only [stair_events, List.map_cons, ih, List.map_map, Nat.cast_zero, add_zero]
    congr 1
    apply List.map_congr_left
    intro j _
    simp only [Function.comp, Nat.succ_eq_add_one]
    push_cast
    ring

theorem stair_events_length (cs : List Nat) (lo : Int) (step : Nat) :
    (stair_events lo step cs).length = cs.length := by
  have h := congrArg List.length (stair_events_snd cs lo step)
  simpa using h

/-- Every event of `stair_events` stands at the first observation of its index. -/
theorem stair_events_first_seen (more : List Int) :
    ∀ (cs : List Nat) (lo : Int) (step : Nat) (pre : List Int),
      (∀ x ∈ pre, x < lo) → pre.length = step →
      ∀ j, j < cs.length →
        (stair_events lo step cs).get? j =
          some ((pre ++ (staircase lo cs ++ more)).indexOf (lo + (j : Int)), lo + (j : Int)) := by
  intro cs
  induction cs with
  | nil => intro lo step pre _ _ j hj; simp at hj
  | cons c cs ih =>
    intro lo step pre hpre hlen j hj
    cases j with
    | zero =>
      have hnot : lo ∉ pre := fun h => lt_irrefl lo (hpre lo h)
      simp only [stair_events, List.get?_cons_zero, Nat.cast_zero, add_zero, staircase,
        List.replicate_succ, List.cons_append]
      rw [List.indexOf_append_of_not_mem hnot, List.indexOf_cons_self, hlen]
      rfl
    | succ j =>
      have hj2 : j < cs.length := by simpa using hj
      have hpre2 : ∀ x ∈ pre ++ List.replicate (c + 1) lo, x < lo + 1 := by
        intro x hx
        rcases List.mem_append.mp hx with h | h
        · have := hpre x h; omega
        · have := List.eq_of_mem_replicate h; omega
      have hlen2 : (pre ++ List.replicate (c + 1) lo).length = step + c + 1 := by
        simp [hlen]; omega
      have h := ih (lo + 1) (step + c + 1) (pre ++ List.replicate (c + 1) lo) hpre2 hlen2 j hj2
      have hlist : pre ++ List.replicate (c + 1) lo ++ (staircase (lo + 1) cs ++ more) =
          pre ++ (staircase lo (c :: cs) ++ more) := by
        simp [staircase]
      have hval : lo + 1 + (j : Int) = lo + ((j + 1 : Nat) : Int) := by push_cast; ring
      rw [hlist, hval] at h
      simpa [stair_events] using h

theorem store_samples_below (pot : Nat → Int) :
    ∀ (cs : List Nat) (lo : Int) (step reads : Nat) (meas : Meas) (k : Nat),
      0 ≤ lo → (k : Int) < lo →
      store_samples pot reads meas (stair_events lo step cs) k = meas k := by
  intro cs
  induction cs with
  | nil => intro lo step reads meas k _ _; rfl
  | cons c cs ih =>
    intro lo step reads meas k h0 hk
    simp only [stair_events, store_samples]
    rw [ih (lo + 1) _ _ _ k (by omega) (by omega)]
    have hne : k ≠ lo.toNat := by omega
    exact Function.update_noteq hne _ _

/-- Storing the samples of a forward sweep puts reading number `j` into the
slot of the index observed `j` steps after the first one. -/
theorem store_samples_stair (pot : Nat → Int) :
    ∀ (cs : List Nat) (lo : Int) (step reads : Nat) (meas : Meas) (k j : Nat),
      0 ≤ lo → j < cs.length → (k : Int) = lo + (j : Int) →
      store_samples pot reads meas (stair_events lo step cs) k = int16 (pot (reads + j)) := by
  intro cs
  induction cs with
  | nil => intro lo step reads meas k j _ hj _; simp at hj
  | cons c cs ih =>
    intro lo step reads meas k j h0 hj hk
    simp only [stair_events, store_samples]
    cases j with
    | zero =>
      rw [store_samples_below pot cs (lo + 1) _ _ _ k (by omega) (by push_cast at hk; omega)]
      have hkn : k = lo.toNat := by push_cast at hk; omega
      rw [hkn, Function.update_same]
      rfl
    | succ j =>
      have hj2 : j < cs.length := by simpa using hj
      rw [ih (lo + 1) _ (reads + 1) _ k j (by omega) hj2 (by push_cast at hk ⊢; omega)]
      congr 2
      omega

end mastermind

namespace mastermind

/-- The samples of a sweep in which the wheel is seen at every index from -10 up
to `max_spokes + 10`, one after the other. -/
theorem forward_sweep_trace (n : Nat) (before cs after : List Nat)
    (hb : before.length = 10) (hcs : cs.length = n + 1) (ha : after.length = 9)
    (tail : List Int) :
    overrun_samples n ((n : Int) + 10) 0 (-127)
      (staircase (-10) before ++ (staircase 0 cs ++
        (staircase ((n : Int) + 1) after ++ ((n : Int) + 10) :: tail))) =
    stair_events 0 (staircase (-10) before).length cs := by
  have h1 : ∀ x ∈ staircase (-10) before,
      x ≠ (n : Int) + 10 ∧ ¬ (0 ≤ x ∧ x ≤ (n : Int)) := by
    intro x hx
    have := mem_staircase before (-10) x hx
    rw [hb] at this
    constructor <;> omega
  have h3 : ∀ x ∈ staircase ((n : Int) + 1) after,
      x ≠ (n : Int) + 10 ∧ ¬ (0 ≤ x ∧ x ≤ (n : Int)) := by
    intro x hx
    have := mem_staircase after ((n : Int) + 1) x hx
    rw [ha] at this
    constructor <;> omega
  obtain ⟨p1, hp1, e1⟩ := overrun_samples_outside n ((n : Int) + 10)
    (staircase 0 cs ++ (staircase ((n : Int) + 1) after ++ ((n : Int) + 10) :: tail))
    (staircase (-10) before) 0 (-127) h1
  have hp1neg : p1 < 0 := by
    rcases hp1 with h | h
    · omega
    · have := mem_staircase before (-10) p1 h
      rw [hb] at this
      omega
  obtain ⟨p2, e2⟩ := overrun_samples_stair n ((n : Int) + 10) (by omega)
    (staircase ((n : Int) + 1) after ++ ((n : Int) + 10) :: tail) cs 0
    (0 + (staircase (-10) before).length) p1 hp1neg (le_refl 0) (by rw [hcs]; push_cast; omega)
  obtain ⟨p3, _, e3⟩ := overrun_samples_outside n ((n : Int) + 10)
    (((n : Int) + 10) :: tail) (staircase ((n : Int) + 1) after)
    (0 + (staircase (-10) before).length + (staircase 0 cs).length) p2 h3
  rw [e1, e2, e3, overrun_samples, if_pos rfl]
  simp

/-- On iterations during which the variable keeps its value, the loop read by
read does what the loop with one observation per iteration does. -/
theorem overrun_loop_reads_const (n : Nat) (desired : Int) (pot : Nat → Int) :
    ∀ (positions : List Int) (prev : Int) (meas : Meas) (out : List ui_messages)
      (reads : Nat),
      (overrun_loop_reads n desired pot prev meas out reads
        (positions.map Reads.const)).state.meas =
        (overrun_loop n desired pot prev meas out reads positions).state.meas ∧
      (overrun_loop_reads n desired pot prev meas out reads
        (positions.map Reads.const)).state.out =
        (overrun_loop n desired pot prev meas out reads positions).state.out ∧
      (overrun_loop_reads n desired pot prev meas out reads
        (positions.map Reads.const)).state.pot_reads =
        (overrun_loop n desired pot prev meas out reads positions).state.pot_reads ∧
      (overrun_loop_reads n desired pot prev meas out reads
        (positions.map Reads.const)).isExited =
        (overrun_loop n desired pot prev meas out reads positions).isExited := by
  intro positions
  induction positions with
  | nil =>
    intro prev meas out reads
    simp [overrun_loop_reads, overrun_loop, Outcome.state, Outcome.isExited]
  | cons sc rest ih =>
    intro prev meas out reads
    simp only [List.map_cons, overrun_loop_reads, overrun_loop, Reads.const]
    by_cases h1 : sc = desired
    · simp only [if_pos h1]
      simp [Outcome.state, Outcome.isExited]
    · simp only [if_neg h1]
      by_cases h2 : prev ≠ sc
      · simp only [if_pos h2]
        by_cases h3 : 0 ≤ sc ∧ sc ≤ (n : Int)
        · simp only [if_pos h3, if_pos h3.1]
          exact ih sc _ _ _
        · simp only [if_neg h3]
          exact ih sc _ _ _
      · simp only [if_neg h2]
        exact ih prev _ _ _

theorem overrun_reads_samples_const (n : Nat) (desired : Int) :
    ∀ (positions : List Int) (step : Nat) (prev : Int),
      overrun_reads_samples n desired step prev (positions.map Reads.const) =
        overrun_samples n desired step prev positions := by
  intro positions
  induction positions with
  | nil => intro step prev; rfl
  | cons sc rest ih =>
    intro step prev
    simp only [List.map_cons, overrun_reads_samples, overrun_samples, Reads.const]
    by_cases h1 : sc = desired
    · simp only [if_pos h1]
    · simp only [if_neg h1]
      by_cases h2 : prev ≠ sc
      · simp only [if_pos h2]
        by_cases h3 : 0 ≤ sc ∧ sc ≤ (n : Int)
        · simp only [if_pos h3]
          rw [ih (step + 1) sc]
        · simp only [if_neg h3]
          exact ih (step + 1) sc
      · simp only [if_neg h2]
        exact ih (step + 1) prev

/-- Iterations that are all stable are given by the values of their first
evaluation. -/
theorem stable_eq_map_const :
    ∀ (iterations : List Reads), (∀ r ∈ iterations, r.Stable) →
      iterations = (iterations.map Reads.loop_test).map Reads.const := by
  intro iterations
  induction iterations with
  | nil => intro _; rfl
  | cons r rest ih =>
    intro h
    have hr : r = Reads.const r.loop_test := h r (List.mem_cons_self r rest)
    have hrest := ih (fun x hx => h x (List.mem_cons_of_mem r hx))
    simp only [List.map_cons]
    rw [← hrest, ← hr]

end mastermind

/-! ## The quadrature table -/

namespace wheel_encoder

/-- Claim C27: whatever the state, a single-channel level change along the cycle
00, 10, 11, 01, 00 of the stored levels (channel 5, channel 6) leaves the
direction `true` and one along the cycle 00, 01, 11, 10, 00 leaves it `false`,
for each of the eight transitions; so the direction after a step only depends
on the sense of the step, and a step back undoes the levels of a step forward. -/
theorem quadrature_direction (t : Tracker) :
    (quadrature_forward t).wheel_direction = true ∧
    (quadrature_reverse t).wheel_direction = false ∧
    (t.chan5high = false → t.chan6high = false →
      quadrature_forward t = INT5_vect t true ∧ quadrature_reverse t = INT6_vect t true ∧
      (INT5_vect t true).wheel_direction = true ∧ (INT6_vect t true).wheel_direction = false) ∧
    (t.chan5high = true → t.chan6high = false →
      quadrature_forward t = INT6_vect t true ∧ quadrature_reverse t = INT5_vect t false ∧
      (INT6_vect t true).wheel_direction = true ∧ (INT5_vect t false).wheel_direction = false) ∧
    (t.chan5high = true → t.chan6high = true →
      quadrature_forward t = INT5_vect t false ∧ quadrature_reverse t = INT6_vect t false ∧
      (INT5_vect t false).wheel_direction = true ∧ (INT6_vect t false).wheel_direction = false) ∧
    (t.chan5high = false → t.chan6high = true →
      quadrature_forward t = INT6_vect t false ∧ quadrature_reverse t = INT5_vect t true ∧
      (INT6_vect t false).wheel_direction = true ∧ (INT5_vect t true).wheel_direction = false) ∧
    (quadrature_reverse (quadrature_forward t)).chan5high = t.chan5high ∧
    (quadrature_reverse (quadrature_forward t)).chan6high = t.chan6high := by
  obtain ⟨c, sc, ms, wd, c5, c6, ds⟩ := t
  cases c5 <;> cases c6 <;>
    simp [quadrature_forward, quadrature_reverse, INT5_vect, INT6_vect]

/-- Witness for C27: from the levels 1, 0 the forward step is a rise of channel
6 and gives `true`, the reverse step a fall of channel 5 and gives `false`,
whatever the direction before. -/
theorem quadrature_direction_witness :
    (INT6_vect ⟨5, 3, 32, false, true, false, 7⟩ true).wheel_direction = true ∧
    (INT5_vect ⟨5, 3, 32, true, true, false, 7⟩ false).wheel_direction = false :=
  ⟨((quadrature_direction ⟨5, 3, 32, false, true, false, 7⟩).2.2.2.1 rfl rfl).2.2.1,
   ((quadrature_direction ⟨5, 3, 32, true, true, false, 7⟩).2.2.2.1 rfl rfl).2.2.2⟩

end wheel_encoder

/-! ## The controller at rest and with a disabled integrator -/

namespace pos_controller

/-- Claim C28: on a tick with error 0 the whole controller state (accumulator,
gains, limit) is left as it was, so a following tick starts from the same
accumulator as if the tick at rest had not happened. -/
theorem update_holds_state (pc : pos_controller) (sc ds : Int) (he : error sc ds = 0) :
    (update pc sc ds).1 = pc ∧
    (update pc sc ds).1.esum = pc.esum ∧
    (update pc sc ds).1.KP = pc.KP ∧ (update pc sc ds).1.KI = pc.KI ∧
    (update pc sc ds).1.FF_gain = pc.FF_gain ∧ (update pc sc ds).1.limit = pc.limit ∧
    (∀ rest, ticks pc ((sc, ds) :: rest) = ticks pc rest) := by
  have h : (update pc sc ds).1 = pc := by rw [update_of_eq pc sc ds he]
  refine ⟨h, by rw [h], by rw [h], by rw [h], by rw [h], by rw [h], ?_⟩
  intro rest
  simp only [ticks, h]

/-- Witness for C28: an accumulator of 40 survives a tick at the desired index
and is used by the next tick (error 3, so 43). -/
theorem update_holds_state_witness :
    (update ⟨40, 200, 25, 3, 16⟩ 7 7).1.esum = 40 ∧
    (ticks ⟨40, 200, 25, 3, 16⟩ [(7, 7), (7, 10)]).esum = 43 :=
  ⟨(update_holds_state ⟨40, 200, 25, 3, 16⟩ 7 7 (by decide)).2.1,
   (congrArg pos_controller.esum
      ((update_holds_state ⟨40, 200, 25, 3, 16⟩ 7 7 (by decide)).2.2.2.2.2.2 [(7, 10)])).trans
      (by decide)⟩

theorem update_limit (pc : pos_controller) (sc ds : Int) :
    (update pc sc ds).1.limit = pc.limit := by
  by_cases he : error sc ds = 0
  · rw [update_of_eq pc sc ds he]
  · rw [update_fst_of_ne pc sc ds he]

theorem proportional_isInt16 (pc : pos_controller) (e : Int) : IsInt16 (proportional pc e) := by
  unfold proportional avr_long avr_int IsInt16 int32 int16
  omega

/-- A tick with a non-zero error under a negative limit: the accumulator is
cleared and the command is the saturated proportional term. -/
theorem update_negative_limit (pc : pos_controller) (sc ds : Int) (hl : pc.limit < 0)
    (he : error sc ds ≠ 0) :
    (update pc sc ds).1.esum = 0 ∧
    (update pc sc ds).2 = [motor_call.set_power (saturate (proportional pc (error sc ds)))] := by
  have hE := error_isInt8 sc ds
  have habs : ¬ ABS (error sc ds) ≤ pc.limit := by
    unfold IsInt8 at hE
    unfold ABS avr_int int16
    split_ifs <;> omega
  have hP := proportional_isInt16 pc (error sc ds)
  constructor
  · rw [update_fst_of_ne pc sc ds he]
    simp [integrate, habs]
  · simp only [update, he, if_false, habs]
    congr 2
    unfold IsInt16 at hP
    show (if avr_long (proportional pc (error sc ds) + 0) > 32000 then (32000 : Int)
      else if avr_long (proportional pc (error sc ds) + 0) < -32000 then -32000
      else int16 (avr_long (proportional pc (error sc ds) + 0))) =
      saturate (proportional pc (error sc ds))
    generalize proportional pc (error sc ds) = v at hP
    unfold saturate avr_long int32 int16
    split_ifs <;> omega

theorem ticks_negative_limit (lim : Int) (hl : lim < 0) :
    ∀ (run : List (Int × Int)) (pc : pos_controller), pc.limit = lim → pc.esum = 0 →
      (ticks pc run).limit = lim ∧ (ticks pc run).esum = 0 := by
  intro run
  induction run with
  | nil => intro pc h1 h2; exact ⟨h1, h2⟩
  | cons p rest ih =>
    intro pc h1 h2
    obtain ⟨sc, ds⟩ := p
    simp only [ticks]
    apply ih
    · rw [update_limit, h1]
    · by_cases he : error sc ds = 0
      · rw [update_of_eq pc sc ds he]; exact h2
      · exact (update_negative_limit pc sc ds (by rw [h1]; exact hl) he).1

/-- Claim C29: a controller constructed with a limit argument from 128 to 255
stores the negative limit `argument - 256`; after any run of ticks the limit is
still that value and the accumulator is 0, and on every tick with a non-zero
error the window test fails, the accumulator is cleared and the command is the
saturated proportional term alone.  With a limit argument from 0 to 127 the
stored limit is the argument. -/
theorem limit_argument (KP_input KI_input FF_gain_input int_limit : Int) :
    (0 ≤ int_limit → int_limit ≤ 127 →
      (construct KP_input KI_input FF_gain_input int_limit).1.limit = int_limit) ∧
    (128 ≤ int_limit → int_limit ≤ 255 →
      (construct KP_input KI_input FF_gain_input int_limit).1.limit = int_limit - 256 ∧
      (construct KP_input KI_input FF_gain_input int_limit).1.limit < 0 ∧
      ∀ (run : List (Int × Int)) (sc ds : Int),
        (ticks (construct KP_input KI_input FF_gain_input int_limit).1 run).limit
          = int_limit - 256 ∧
        (ticks (construct KP_input KI_input FF_gain_input int_limit).1 run).esum = 0 ∧
        (error sc ds ≠ 0 →
          ¬ ABS (error sc ds) ≤
            (ticks (construct KP_input KI_input FF_gain_input int_limit).1 run).limit ∧
          (update (ticks (construct KP_input KI_input FF_gain_input int_limit).1 run)
            sc ds).1.esum = 0 ∧
          (update (ticks (construct KP_input KI_input FF_gain_input int_limit).1 run)
            sc ds).2 =
            [motor_call.set_power (saturate (proportional
              (ticks (construct KP_input KI_input FF_gain_input int_limit).1 run)
              (error sc ds)))])) := by
  constructor
  · intro h0 h1
    simp only [construct]
    unfold int8; omega
  · intro h0 h1
    have hlim : (construct KP_input KI_input FF_gain_input int_limit).1.limit
        = int_limit - 256 := by
      simp only [construct]
      unfold int8; omega
    refine ⟨hlim, by rw [hlim]; omega, ?_⟩
    intro run sc ds
    obtain ⟨t1, t2⟩ := ticks_negative_limit (int_limit - 256) (by omega) run
      (construct KP_input KI_input FF_gain_input int_limit).1 hlim rfl
    refine ⟨t1, t2, ?_⟩
    intro he
    have hneg : (ticks (construct KP_input KI_input FF_gain_input int_limit).1 run).limit < 0 := by
      rw [t1]; omega
    obtain ⟨u1, u2⟩ := update_negative_limit _ sc ds hneg he
    refine ⟨?_, u1, u2⟩
    have hE := error_isInt8 sc ds
    unfold IsInt8 at hE
    unfold ABS avr_int int16
    split_ifs <;> omega

/-- Witness for C29: the limit argument 200 is stored as -56; with an error of
5 the accumulator stays 0 and the command is the proportional term
5 * 3 * 200 = 3000. -/
theorem limit_argument_witness :
    (construct 200 25 3 200).1.limit = 200 - 256 ∧
    (update (ticks (construct 200 25 3 200).1 [(0, 3), (0, 5)]) 0 5).2 =
      [motor_call.set_power 3000] :=
  ⟨((limit_argument 200 25 3 200).2 (by decide) (by decide)).1,
   ((((limit_argument 200 25 3 200).2 (by decide) (by decide)).2.2
      [(0, 3), (0, 5)] 0 5).2.2 (by decide)).2.2.trans (by decide)⟩

end pos_controller

/-! ## The sum of the offsets -/

theorem tmod_bounds (t n : Int) (hn : 0 < n) : -n < Int.tmod t n ∧ Int.tmod t n < n := by
  rcases le_or_lt 0 t with ht | ht
  · have h1 := Int.tmod_nonneg n ht
    have h2 := Int.tmod_lt_of_pos t hn
    omega
  · have h1 := Int.tmod_nonneg n (by omega : 0 ≤ -t)
    have h2 := Int.tmod_lt_of_pos (-t) hn
    have h3 : Int.tmod t n = -Int.tmod (-t) n := by
      have h := Int.neg_tdiv (-t) n
      rw [neg_neg] at h
      rw [Int.tmod_def, Int.tmod_def, h]
      ring
    omega

namespace mastermind

theorem total_sub_const (offs meas : Meas) (c : Int) :
    ∀ k, (∀ i, i < k → offs i = meas i - c) → total offs k = total meas k - (k : Int) * c := by
  intro k
  induction k with
  | zero => intro _; simp [total]
  | succ k ih =>
    intro h
    simp only [total]
    rw [ih (fun i hi => h i (by omega)), h k (by omega)]
    push_cast; ring

/-- A sum whose terms are all at most `c`, one of them being known. -/
theorem total_le_with (meas : Meas) (c : Int) (idx : Nat) :
    ∀ k, idx < k → (∀ i, i < k → meas i ≤ c) →
      total meas k ≤ (k : Int) * c - (c - meas idx) := by
  intro k
  induction k with
  | zero => intro h; omega
  | succ k ih =>
    intro hidx h
    simp only [total]
    push_cast
    by_cases hk : idx = k
    · subst hk
      have h1 : total meas idx ≤ (idx : Int) * c := by
        clear ih hidx
        have : ∀ j, j ≤ idx → total meas j ≤ (j : Int) * c := by
          intro j
          induction j with
          | zero => intro _; simp [total]
          | succ j ihj =>
            intro hj
            have := ihj (by omega)
            have := h j (by omega)
            simp only [total]
            push_cast
            linarith
        exact this idx (le_refl idx)
      linarith
    · have h1 := ih (by omega) (fun i hi => h i (by omega))
      have h2 := h k (by omega)
      linarith

/-- A sum whose terms are all at least `c`, one of them being known. -/
theorem total_ge_with (meas : Meas) (c : Int) (idx : Nat) :
    ∀ k, idx < k → (∀ i, i < k → c ≤ meas i) →
      (k : Int) * c + (meas idx - c) ≤ total meas k := by
  intro k
  induction k with
  | zero => intro h; omega
  | succ k ih =>
    intro hidx h
    simp only [total]
    push_cast
    by_cases hk : idx = k
    · subst hk
      have h1 : (idx : Int) * c ≤ total meas idx := by
        clear ih hidx
        have : ∀ j, j ≤ idx → (j : Int) * c ≤ total meas j := by
          intro j
          induction j with
          | zero => intro _; simp [total]
          | succ j ihj =>
            intro hj
            have := ihj (by omega)
            have := h j (by omega)
            simp only [total]
            push_cast
            linarith
        exact this idx (le_refl idx)
      linarith
    · have h1 := ih (by omega) (fun i hi => h i (by omega))
      have h2 := h k (by omega)
      linarith

/-- When the tolerance test passes on the worst offset of a sweep, every offset
of the sweep has a magnitude below 10: none of them is the value -32768 that
the macro `ABS` maps to itself. -/
theorem offsets_within_tolerance (n : Nat) (hn1 : 1 ≤ n) (hn : n ≤ 255) (swept : Meas)
    (h16 : Int16Array swept n)
    (htest : ABS (con_to_offs swept (find_avg swept n) n
      (find_worst (con_to_offs swept (find_avg swept n) n) n)) < 10) :
    ∀ i, i < n → |con_to_offs swept (find_avg swept n) n i| < 10 := by
  have havg16 := find_avg_isInt16 swept n
  have havg := find_avg_eq_tdiv swept n hn1 hn h16
  have hoffs16 := con_to_offs_int16 swept (find_avg swept n) n n h16
  obtain ⟨_, hmax, _⟩ := find_worst_ABS _ n hn1 hoffs16
  have hrem := tmod_bounds (total swept n) (n : Int) (by omega)
  rw [Int.tmod_def, ← havg] at hrem
  have hsmall : ∀ i, i < n → ABS (int16 (swept i - find_avg swept n)) < 10 := by
    intro i hi
    rw [← con_to_offs_below swept (find_avg swept n) n i hi]
    exact lt_of_le_of_lt (hmax i hi) htest
  have hoff : ∀ i, i < n → con_to_offs swept (find_avg swept n) n i
      = int16 (swept i - find_avg swept n) := fun i hi => con_to_offs_below swept _ n i hi
  generalize find_avg swept n = avg at *
  unfold IsInt16 at havg16
  intro i hi
  rw [hoff i hi]
  by_contra hbig
  have hi16 := h16 i hi
  have hsi := hsmall i hi
  unfold IsInt16 at hi16
  by_cases h0 : 0 ≤ avg
  · have hle : ∀ j, j < n → swept j ≤ avg + 9 := by
      intro j hj
      have h1 := hsmall j hj
      have h2 := h16 j hj
      unfold IsInt16 at h2
      unfold ABS avr_int int16 at h1
      split_ifs at h1 <;> omega
    have hk : swept i = avg - 32768 := by
      have h3 : ¬ (-10 < int16 (swept i - avg) ∧ int16 (swept i - avg) < 10) := by
        intro h; apply hbig; rw [abs_lt]; exact h
      unfold ABS avr_int int16 at hsi
      unfold int16 at h3
      split_ifs at hsi <;> omega
    have hsum := total_le_with swept (avg + 9) i n hi hle
    rw [hk] at hsum
    have hn255 : (n : Int) ≤ 255 := by omega
    nlinarith
  · have hge : ∀ j, j < n → avg - 9 ≤ swept j := by
      intro j hj
      have h1 := hsmall j hj
      have h2 := h16 j hj
      unfold IsInt16 at h2
      unfold ABS avr_int int16 at h1
      split_ifs at h1 <;> omega
    have hk : swept i = avg + 32768 := by
      have h3 : ¬ (-10 < int16 (swept i - avg) ∧ int16 (swept i - avg) < 10) := by
        intro h; apply hbig; rw [abs_lt]; exact h
      unfold ABS avr_int int16 at hsi
      unfold int16 at h3
      split_ifs at hsi <;> omega
    have hsum := total_ge_with swept (avg - 9) i n hi hge
    rw [hk] at hsum
    have hn255 : (n : Int) ≤ 255 := by omega
    nlinarith

/-- Claim C30: for `1 <= n <= 255` spokes, 16-bit readings and offsets
`raw[i] - avg` that fit 16 bits, the offsets that `con_to_offs` produces from
the average of `find_avg` sum to `sum(raw) - n * (sum(raw) / n)` with the
truncating division of C, which is the remainder `sum(raw) tmod n`; this sum
lies strictly between `-n` and `n`, and it is 0 exactly when `n` divides the
sum of the readings. -/
theorem offsets_sum_remainder (meas : Meas) (n : Nat) (hn1 : 1 ≤ n) (hn : n ≤ 255)
    (h16 : Int16Array meas n)
    (hfit : ∀ i, i < n → IsInt16 (meas i - find_avg meas n)) :
    total (con_to_offs meas (find_avg meas n) n) n
      = total meas n - (n : Int) * Int.tdiv (total meas n) (n : Int) ∧
    total (con_to_offs meas (find_avg meas n) n) n = Int.tmod (total meas n) (n : Int) ∧
    |total (con_to_offs meas (find_avg meas n) n) n| < (n : Int) ∧
    (total (con_to_offs meas (find_avg meas n) n) n = 0 ↔ (n : Int) ∣ total meas n) := by
  have havg := find_avg_eq_tdiv meas n hn1 hn h16
  have hsum : total (con_to_offs meas (find_avg meas n) n) n
      = total meas n - (n : Int) * find_avg meas n := by
    apply total_sub_const
    intro i hi
    rw [con_to_offs_below meas _ n i hi]
    exact int16_eq_self (hfit i hi)
  have hmod : total (con_to_offs meas (find_avg meas n) n) n
      = Int.tmod (total meas n) (n : Int) := by
    rw [hsum, havg, Int.tmod_def]
  have hb := tmod_bounds (total meas n) (n : Int) (by omega)
  refine ⟨by rw [hsum, havg], hmod, ?_, ?_⟩
  · rw [hmod, abs_lt]; exact hb
  · rw [hmod]; exact Int.dvd_iff_tmod_eq_zero.symm

/-- Witness for C30: the readings 12, 8, 10, 11 sum to 41; the average is 10
and the offsets 2, -2, 0, 1 sum to 1 = 41 - 4 * 10. -/
theorem offsets_sum_remainder_witness :
    total (con_to_offs (ofList [12, 8, 10, 11]) (find_avg (ofList [12, 8, 10, 11]) 4) 4) 4
      = total (ofList [12, 8, 10, 11]) 4
        - ((4 : Nat) : Int) * Int.tdiv (total (ofList [12, 8, 10, 11]) 4) ((4 : Nat) : Int) :=
  (offsets_sum_remainder (ofList [12, 8, 10, 11]) 4 (by decide) (by decide)
    (by unfold Int16Array; decide) (by decide)).1

end mastermind

/-! ## Convergence: the last sweep and the number of corrections -/

namespace task_mastermind

open mastermind

/-- A loop that is entered with the flag clear and runs to its end leaves the
analysis of a sweep that passed the tolerance test. -/
theorem run_loop_last (n : Nat) :
    ∀ (fuel : Nat) (l : Locals) (w : World), Int16Array l.spokes n → l.finished = false →
      (run_loop n fuel l w).isExited = true →
      ∃ (lprev : Locals) (wa wb : World) (swept : Meas), Int16Array lprev.spokes n ∧ lprev.finished = false ∧
        measure_all n lprev.spokes wa = Outcome.exited (swept, wb) ∧
        (run_loop n fuel l w).state.1 = analyse n lprev swept ∧
        (analyse n lprev swept).finished = true := by
  intro fuel
  induction fuel with
  | zero =>
    intro l w _ hf hex
    unfold run_loop at hex
    simp [hf, Outcome.isExited] at hex
  | succ fuel ih =>
    intro l w h16 hf hex
    unfold run_loop at hex ⊢
    simp only [hf, Bool.false_eq_true, if_false] at hex ⊢
    cases hb : loop_body n l w with
    | waiting s => rw [hb] at hex; simp [Outcome.isExited] at hex
    | exited s =>
      obtain ⟨l1, w1⟩ := s
      rw [hb] at hex
      simp only [] at hex ⊢
      obtain ⟨wc, swept, w2, _, hm, hs⟩ := loop_body_exited n l w (l1, w1) hb
      have hl1 : l1 = analyse n l swept := (Prod.mk.inj hs).1
      cases hf1 : l1.finished
      · have hsw : Int16Array swept n := measure_all_int16 n n l.spokes _ h16 swept w2 hm
        have h1 : Int16Array l1.spokes n := by
          rw [hl1]; exact con_to_offs_int16 swept (find_avg swept n) n n hsw
        exact ih l1 w1 h1 hf1 hex
      · rw [run_loop_finished n fuel l1 w1 hf1]
        refine ⟨l, _, w2, swept, h16, hf, hm, ?_, ?_⟩
        · simp only [Outcome.state]; exact hl1
        · rw [← hl1]; exact hf1

/-- Claim C23: on a wheel of `1 <= n <= 255` spokes, when the run of the engine
terminates, the final offsets are those that `con_to_offs` computes from the
last sweep and its average `find_avg`, that sweep passed the tolerance test, and
every index `i < n` has an offset of magnitude strictly below 10, not only the
worst index. -/
theorem converged_all_offsets (n : Nat) (hn1 : 1 ≤ n) (hn : n ≤ 255) (fuel : Nat)
    (stack : Meas) (w : World) (hstack : Int16Array stack n)
    (hexit : (run n fuel stack w).isExited = true) :
    (∃ (lprev : Locals) (wa wb : World) (swept : Meas), measure_all n lprev.spokes wa = Outcome.exited (swept, wb) ∧
      (run n fuel stack w).state.1.spokes = con_to_offs swept (find_avg swept n) n ∧
      (run n fuel stack w).state.1.worst_spoke = find_worst (run n fuel stack w).state.1.spokes n) ∧
    (run n fuel stack w).state.1.finished = true ∧
    (∀ i, i < n → |(run n fuel stack w).state.1.spokes i| < 10) := by
  unfold run at hexit ⊢
  cases hm : measure_all n stack (put (put w ui_messages.HELLO) ui_messages.MEASURING) with
  | waiting r =>
    obtain ⟨m1, w1⟩ := r
    rw [hm] at hexit
    simp [Outcome.isExited] at hexit
  | exited r =>
    obtain ⟨swept0, w1⟩ := r
    rw [hm] at hexit
    simp only [] at hexit ⊢
    have hsw0 : Int16Array swept0 n := measure_all_int16 n n stack _ hstack swept0 w1 hm
    have h0 : Int16Array (first_analysis n swept0).spokes n :=
      con_to_offs_int16 swept0 (find_avg swept0 n) n n hsw0
    obtain ⟨lprev, wa, wb, swept, hp16, hpf, hmeas, hlast, hfin⟩ :=
      run_loop_last n fuel (first_analysis n swept0) w1 h0 rfl hexit
    have hsw : Int16Array swept n := measure_all_int16 n n lprev.spokes _ hp16 swept wb hmeas
    have htest : ABS (con_to_offs swept (find_avg swept n) n
        (find_worst (con_to_offs swept (find_avg swept n) n) n)) < 10 := by
      by_contra hc
      simp only [analyse, hc, if_false, hpf] at hfin
      exact Bool.false_ne_true hfin
    rw [hlast]
    refine ⟨⟨lprev, wa, wb, swept, hmeas, rfl, rfl⟩, hfin, ?_⟩
    exact offsets_within_tolerance n hn1 hn swept hsw htest

/-- Witness for C23: the scenario run on 4 spokes ends with all four offsets
below 10 in magnitude. -/
theorem converged_all_offsets_witness :
    |(run 4 1 (fun _ => 0) scenario_world).state.1.spokes 0| < 10 ∧
    |(run 4 1 (fun _ => 0) scenario_world).state.1.spokes 1| < 10 ∧
    |(run 4 1 (fun _ => 0) scenario_world).state.1.spokes 2| < 10 ∧
    |(run 4 1 (fun _ => 0) scenario_world).state.1.spokes 3| < 10 :=
  ⟨(converged_all_offsets 4 (by decide) (by decide) 1 (fun _ => 0) scenario_world
      (by unfold Int16Array; decide) (by decide!)).2.2 0 (by decide),
   (converged_all_offsets 4 (by decide) (by decide) 1 (fun _ => 0) scenario_world
      (by unfold Int16Array; decide) (by decide!)).2.2 1 (by decide),
   (converged_all_offsets 4 (by decide) (by decide) 1 (fun _ => 0) scenario_world
      (by unfold Int16Array; decide) (by decide!)).2.2 2 (by decide),
   (converged_all_offsets 4 (by decide) (by decide) 1 (fun _ => 0) scenario_world
      (by unfold Int16Array; decide) (by decide!)).2.2 3 (by decide)⟩

theorem cycle_count_tighten (a b : Nat) :
    (ui_messages.TIGHTEN :: ui_messages.MEASURING ::
      (List.replicate a ui_messages.GO_BACK ++
        List.replicate b ui_messages.PRINT_SPOKE)).count ui_messages.TIGHTEN = 1 := by
  simp [List.count_cons, List.count_append, List.count_replicate]

theorem cycle_count_measuring (a b : Nat) :
    (ui_messages.TIGHTEN :: ui_messages.MEASURING ::
      (List.replicate a ui_messages.GO_BACK ++
        List.replicate b ui_messages.PRINT_SPOKE)).count ui_messages.MEASURING = 1 := by
  simp [List.count_cons, List.count_append, List.count_replicate]

theorem cycle_count_goodbye (a b : Nat) :
    (ui_messages.TIGHTEN :: ui_messages.MEASURING ::
      (List.replicate a ui_messages.GO_BACK ++
        List.replicate b ui_messages.PRINT_SPOKE)).count ui_messages.GOODBYE = 0 := by
  simp [List.count_cons, List.count_append, List.count_replicate]

theorem cycle_count_hello (a b : Nat) :
    (ui_messages.TIGHTEN :: ui_messages.MEASURING ::
      (List.replicate a ui_messages.GO_BACK ++
        List.replicate b ui_messages.PRINT_SPOKE)).count ui_messages.HELLO = 0 := by
  simp [List.count_cons, List.count_append, List.count_replicate]

theorem first_count_tighten (a b : Nat) :
    (ui_messages.HELLO :: ui_messages.MEASURING ::
      (List.replicate a ui_messages.GO_BACK ++
        List.replicate b ui_messages.PRINT_SPOKE)).count ui_messages.TIGHTEN = 0 := by
  simp [List.count_cons, List.count_append, List.count_replicate]

theorem first_count_measuring (a b : Nat) :
    (ui_messages.HELLO :: ui_messages.MEASURING ::
      (List.replicate a ui_messages.GO_BACK ++
        List.replicate b ui_messages.PRINT_SPOKE)).count ui_messages.MEASURING = 1 := by
  simp [List.count_cons, List.count_append, List.count_replicate]

theorem first_count_goodbye (a b : Nat) :
    (ui_messages.HELLO :: ui_messages.MEASURING ::
      (List.replicate a ui_messages.GO_BACK ++
        List.replicate b ui_messages.PRINT_SPOKE)).count ui_messages.GOODBYE = 0 := by
  simp [List.count_cons, List.count_append, List.count_replicate]

/-- The messages of a loop that runs to its end: as many MEASURING as TIGHTEN,
one GOODBYE, at most one TIGHTEN per unit of fuel and at least one TIGHTEN when
the loop is entered with the flag clear. -/
theorem run_loop_counts (n : Nat) :
    ∀ (fuel : Nat) (l : Locals) (w : World), (run_loop n fuel l w).isExited = true →
      ∃ added, (run_loop n fuel l w).state.2.to_ui = w.to_ui ++ added ∧
        added.count ui_messages.MEASURING = added.count ui_messages.TIGHTEN ∧
        added.count ui_messages.GOODBYE = 1 ∧
        added.count ui_messages.HELLO = 0 ∧
        added.count ui_messages.TIGHTEN ≤ fuel ∧
        (l.finished = false → 1 ≤ added.count ui_messages.TIGHTEN) := by
  intro fuel
  induction fuel with
  | zero =>
    intro l w hex
    unfold run_loop at hex ⊢
    cases hf : l.finished
    · simp [hf, Outcome.isExited] at hex
    · exact ⟨[ui_messages.GOODBYE], by simp [Outcome.state, put], by decide, by decide,
        by decide, by decide, by simp⟩
  | succ fuel ih =>
    intro l w hex
    unfold run_loop at hex ⊢
    cases hf : l.finished
    · simp only [hf, Bool.false_eq_true, if_false] at hex ⊢
      cases hb : loop_body n l w with
      | waiting s => rw [hb] at hex; simp [Outcome.isExited] at hex
      | exited s =>
        obtain ⟨l1, w1⟩ := s
        rw [hb] at hex
        simp only [] at hex ⊢
        obtain ⟨a, b, h⟩ := (loop_body_out n l w).1 (l1, w1) hb
        simp only [] at h
        obtain ⟨added, h1, h2, h3, h4, h5, _⟩ := ih l1 w1 hex
        refine ⟨(ui_messages.TIGHTEN :: ui_messages.MEASURING ::
          (List.replicate a ui_messages.GO_BACK ++
            List.replicate b ui_messages.PRINT_SPOKE)) ++ added,
          by rw [h1, h, List.append_assoc], ?_, ?_, ?_, ?_, ?_⟩
        · rw [List.count_append, List.count_append, cycle_count_measuring,
            cycle_count_tighten, h2]
        · rw [List.count_append, cycle_count_goodbye, h3]
        · rw [List.count_append, cycle_count_hello, h4]
        · rw [List.count_append, cycle_count_tighten]; omega
        · intro _; rw [List.count_append, cycle_count_tighten]; omega
    · exact ⟨[ui_messages.GOODBYE], by simp [Outcome.state, put], by decide, by decide,
        by decide, by simp, by simp⟩

/-- Claim C24: whatever the first sweep reads, a run of the engine that
terminates has performed the correction towards the worst index of the first
sweep (desired index set, TIGHTEN sent, DID_THAT received); among the messages
it added to the queue there is at least one TIGHTEN, the re-sweeps (the
MEASURING notices but the first one) are as many as the TIGHTEN directives,
there are at most as many of them as passes allowed, and exactly one GOODBYE. -/
theorem correction_before_convergence (n fuel : Nat) (stack : Meas) (w : World)
    (hexit : (run n fuel stack w).isExited = true) :
    (∃ (swept : Meas) (w1 w2 : World),
      measure_all n stack (put (put w ui_messages.HELLO) ui_messages.MEASURING)
        = Outcome.exited (swept, w1) ∧
      (first_analysis n swept).finished = false ∧
      correction (find_worst (con_to_offs swept (find_avg swept n) n) n) w1
        = Outcome.exited w2 ∧
      w2.desired_spoke
        = int8 ((find_worst (con_to_offs swept (find_avg swept n) n) n : Nat) : Int)) ∧
    ∃ added, (run n fuel stack w).state.2.to_ui = w.to_ui ++ added ∧
      1 ≤ added.count ui_messages.TIGHTEN ∧
      added.count ui_messages.MEASURING = added.count ui_messages.TIGHTEN + 1 ∧
      added.count ui_messages.TIGHTEN ≤ fuel ∧
      added.count ui_messages.GOODBYE = 1 := by
  obtain ⟨a, b, hab⟩ :=
    measure_all_out n stack (put (put w ui_messages.HELLO) ui_messages.MEASURING)
  unfold run at hexit ⊢
  cases hm : measure_all n stack (put (put w ui_messages.HELLO) ui_messages.MEASURING) with
  | waiting r =>
    obtain ⟨m1, w1⟩ := r
    rw [hm] at hexit
    simp [Outcome.isExited] at hexit
  | exited r =>
    obtain ⟨swept, w1⟩ := r
    rw [hm] at hexit hab
    simp only [] at hexit ⊢
    simp only [Outcome.state, put, List.append_assoc] at hab
    obtain ⟨added, h1, h2, h3, h4, h5, h6⟩ :=
      run_loop_counts n fuel (first_analysis n swept) w1 hexit
    constructor
    · cases fuel with
      | zero => simp [run_loop, first_analysis, Outcome.isExited] at hexit
      | succ fuel =>
        rw [run_loop_continue n fuel (first_analysis n swept) w1 rfl] at hexit
        cases hc : correction (first_analysis n swept).worst_spoke w1 with
        | waiting w2 => rw [hc] at hexit; simp [Outcome.isExited] at hexit
        | exited w2 =>
          refine ⟨swept, w1, w2, rfl, rfl, hc, ?_⟩
          unfold correction at hc
          simp only [] at hc
          split at hc
          · cases hc
          · split at hc
            · cases hc
            · cases hc; rfl
    · refine ⟨ui_messages.HELLO :: ui_messages.MEASURING ::
        (List.replicate a ui_messages.GO_BACK ++ List.replicate b ui_messages.PRINT_SPOKE)
        ++ added, ?_, ?_, ?_, ?_, ?_⟩
      · rw [h1, hab]; simp
      · have := h6 rfl
        rw [List.count_append, first_count_tighten]; omega
      · rw [List.count_append, List.count_append, first_count_measuring,
          first_count_tighten, h2]; omega
      · rw [List.count_append, first_count_tighten]; omega
      · rw [List.count_append, first_count_goodbye, h3]

/-- Witness for C24: on a wheel whose first sweep reads 10 everywhere (all
offsets 0) the run still sends one TIGHTEN before GOODBYE. -/
theorem correction_before_convergence_witness :
    (List.range 4).map (first_analysis 4 (ofList [10, 10, 10, 10])).spokes = [0, 0, 0, 0] ∧
    (run 4 1 (fun _ => 0) true_wheel_world).state.2.to_ui.count ui_messages.TIGHTEN = 1 ∧
    ∃ added, (run 4 1 (fun _ => 0) true_wheel_world).state.2.to_ui
        = true_wheel_world.to_ui ++ added ∧
      1 ≤ added.count ui_messages.TIGHTEN ∧
      added.count ui_messages.MEASURING = added.count ui_messages.TIGHTEN + 1 ∧
      added.count ui_messages.TIGHTEN ≤ 1 ∧
      added.count ui_messages.GOODBYE = 1 :=
  ⟨by decide, by decide!,
    (correction_before_convergence 4 1 (fun _ => 0) true_wheel_world (by decide!)).2⟩

end task_mastermind

/-! ## The motor driver -/

namespace motordriver

theorem testBit_bit_mask (k j : Nat) :
    (bit_mask k).testBit j = (decide (j < 16) && decide (k = j)) := by
  unfold bit_mask
  rw [show (65536 : Nat) = 2 ^ 16 from rfl, Nat.testBit_mod_two_pow, Nat.one_shiftLeft,
    Nat.testBit_two_pow]

theorem testBit_or_assign (reg mask j : Nat) :
    (or_assign reg mask).testBit j =
      (decide (j < 8) && (reg.testBit j || (decide (j < 16) && mask.testBit j))) := by
  unfold or_assign
  rw [show (256 : Nat) = 2 ^ 8 from rfl, show (65536 : Nat) = 2 ^ 16 from rfl,
    Nat.testBit_mod_two_pow, Nat.testBit_or, Nat.testBit_mod_two_pow]

theorem testBit_and_not_assign (reg mask j : Nat) :
    (and_not_assign reg mask).testBit j =
      (decide (j < 8) && (reg.testBit j && (decide (j < 16) ^^ (decide (j < 16) && mask.testBit j)))) := by
  unfold and_not_assign
  rw [show (256 : Nat) = 2 ^ 8 from rfl, show (65536 : Nat) = 2 ^ 16 from rfl,
    show (65535 : Nat) = 2 ^ 16 - 1 from rfl,
    Nat.testBit_mod_two_pow, Nat.testBit_and, Nat.testBit_xor, Nat.testBit_two_pow_sub_one,
    Nat.testBit_mod_two_pow]

/-- Setting bit `b` and then clearing bit `a` of the settings register. -/
theorem testBit_set_clear (reg a b j : Nat) (ha : a < 8) (hb : b < 8) (hab : a ≠ b) :
    (and_not_assign (or_assign reg (bit_mask b)) (bit_mask a)).testBit j =
      if j = b then true else if j = a then false else (decide (j < 8) && reg.testBit j) := by
  rw [testBit_and_not_assign, testBit_or_assign, testBit_bit_mask, testBit_bit_mask]
  by_cases h1 : j = b
  · subst h1
    have : ¬ a = j := hab
    have : j < 16 := by omega
    simp [*]
  · by_cases h2 : j = a
    · subst h2
      have : j < 16 := by omega
      simp [*]
    · have h3 : ¬ b = j := fun h => h1 h.symm
      have h4 : ¬ a = j := fun h => h2 h.symm
      simp only [h1, h2, h3, h4, if_false, decide_False, Bool.and_false, Bool.or_false,
        Bool.xor_false]
      by_cases h5 : j < 8
      · have : j < 16 := by omega
        simp [*]
      · simp [h5]

theorem call_frame (m : motordriver) (c : motor_call) :
    (call m c).nullFlag = m.nullFlag ∧ (call m c).inA = m.inA ∧ (call m c).inB = m.inB ∧
    (call m c).en = m.en ∧ (call m c).ICR1 = m.ICR1 ∧
    (call m c).whichchannelami = m.whichchannelami := by
  cases c <;> cases hf : m.nullFlag <;>
    simp [call, set_power, motordriver.on, off, brake, hf]

theorem calls_frame (l : List motor_call) :
    ∀ m : motordriver, (calls m l).nullFlag = m.nullFlag ∧ (calls m l).inA = m.inA ∧
      (calls m l).inB = m.inB ∧ (calls m l).en = m.en ∧ (calls m l).ICR1 = m.ICR1 ∧
      (calls m l).whichchannelami = m.whichchannelami := by
  induction l with
  | nil => intro m; simp [calls]
  | cons c rest ih =>
    intro m
    have h1 := ih (call m c)
    have h2 := call_frame m c
    simp only [calls, List.foldl_cons] at h1 ⊢
    refine ⟨h1.1.trans h2.1, h1.2.1.trans h2.2.1, h1.2.2.1.trans h2.2.2.1,
      h1.2.2.2.1.trans h2.2.2.2.1, h1.2.2.2.2.1.trans h2.2.2.2.2.1,
      h1.2.2.2.2.2.trans h2.2.2.2.2.2⟩

theorem call_faulted (m : motordriver) (c : motor_call) (h : m.nullFlag = true) :
    call m c = m := by
  cases c <;> simp [call, set_power, motordriver.on, off, brake, h]

theorem calls_faulted (l : List motor_call) :
    ∀ m : motordriver, m.nullFlag = true → calls m l = m := by
  induction l with
  | nil => intro m _; rfl
  | cons c rest ih =>
    intro m h
    simp only [calls, List.foldl_cons]
    rw [call_faulted m c h]
    exact ih m h

theorem construct_valid (raw : motordriver) (motorChannel : Nat)
    (hch : motorChannel = 1 ∨ motorChannel = 2) (hraw : raw.nullFlag = false) :
    (construct raw motorChannel).nullFlag = false ∧
    (construct raw motorChannel).ICR1 = 4095 ∧
    (construct raw motorChannel).compareReg = 0 ∧
    (construct raw motorChannel).whichchannelami = motorChannel ∧
    (((construct raw motorChannel).inA = 0 ∧ (construct raw motorChannel).inB = 1 ∧
      (construct raw motorChannel).en = 2) ∨
     ((construct raw motorChannel).inA = 5 ∧ (construct raw motorChannel).inB = 6 ∧
      (construct raw motorChannel).en = 7)) := by
  rcases hch with h | h <;> subst h <;> simp [construct, off, hraw]

theorem power_after_sign_abs (power : Int) (hlo : -32767 ≤ power) (hhi : power ≤ 32767) :
    power_after_sign power = |power| := by
  unfold power_after_sign avr_int int16
  split_ifs with h
  · rw [abs_of_neg h]; omega
  · rw [abs_of_nonneg (by omega)]

theorem set_power_compare (m : motordriver) (hm : m.nullFlag = false) (power : Int)
    (hlo : -32767 ≤ power) (hhi : power ≤ 32767) :
    (set_power m power).compareReg = Int.tdiv |power| 8 ∧
    8 * (set_power m power).compareReg ≤ |power| := by
  have h0 : 0 ≤ |power| := abs_nonneg power
  have h1 : |power| ≤ 32767 := abs_le.mpr ⟨by omega, hhi⟩
  have h2 : Int.tdiv |power| 8 = |power| / 8 := Int.tdiv_eq_ediv h0 (by norm_num)
  simp only [set_power, hm, Bool.not_false, if_true, power_after_sign_abs power hlo hhi]
  rw [h2]
  unfold avr_int int16
  omega

/-- Claim C21: a driver constructed with a channel other than 1 and 2 has its
fault flag set and nothing else changed by the constructor; from then on
`set_power` with any power, `on`, `off`, `brake` and any sequence of these calls
leave the whole state (settings register, compare register, `current_power`,
flag and the other members) as it is.  No method ever changes the flag, on any
driver. -/
theorem invalid_channel_faults (raw : motordriver) (motorChannel : Nat)
    (h1 : motorChannel ≠ 1) (h2 : motorChannel ≠ 2) :
    (construct raw motorChannel).nullFlag = true ∧
    construct raw motorChannel = { raw with nullFlag := true } ∧
    (∀ power, set_power (construct raw motorChannel) power = construct raw motorChannel) ∧
    motordriver.on (construct raw motorChannel) = construct raw motorChannel ∧
    off (construct raw motorChannel) = construct raw motorChannel ∧
    brake (construct raw motorChannel) = construct raw motorChannel ∧
    (∀ l, calls (construct raw motorChannel) l = construct raw motorChannel) ∧
    (∀ (m : motordriver) (c : motor_call), m.nullFlag = true → call m c = m) ∧
    (∀ (m : motordriver) (l : List motor_call), (calls m l).nullFlag = m.nullFlag) := by
  have hc : construct raw motorChannel = { raw with nullFlag := true } := by
    simp [construct, h1, h2]
  have hf : (construct raw motorChannel).nullFlag = true := by rw [hc]
  refine ⟨hf, hc, ?_, ?_, ?_, ?_, ?_, ?_, ?_⟩
  · intro power; exact call_faulted _ (motor_call.set_power power) hf
  · exact call_faulted _ motor_call.on hf
  · exact call_faulted _ motor_call.off hf
  · exact call_faulted _ motor_call.brake hf
  · intro l; exact calls_faulted l _ hf
  · intro m c h; exact call_faulted m c h
  · intro m l; exact (calls_frame l m).1

/-- Witness for C21: a driver constructed for channel 3 ignores `on`, a power
of 20000 and `brake`. -/
theorem invalid_channel_faults_witness :
    (construct { cleared with settingsReg := 37, compareReg := 1234 } 3).nullFlag = true ∧
    calls (construct { cleared with settingsReg := 37, compareReg := 1234 } 3)
      [motor_call.on, motor_call.set_power 20000, motor_call.brake] =
      construct { cleared with settingsReg := 37, compareReg := 1234 } 3 :=
  ⟨(invalid_channel_faults { cleared with settingsReg := 37, compareReg := 1234 } 3
      (by decide) (by decide)).1,
   (invalid_channel_faults { cleared with settingsReg := 37, compareReg := 1234 } 3
      (by decide) (by decide)).2.2.2.2.2.2.1 _⟩

/-- Claim C25: take a driver constructed for channel 1 or 2 whose flag was clear,
after any sequence of calls; it is not faulted and the TOP register holds 4095.
For every power from -32000 to 32000, `set_power` turns the parameter into its
magnitude (the negation of a negative value does not overflow), writes the
magnitude divided by 8 to the compare register, a value from 0 to 4000 and so
at most TOP; a negative power sets bit `inB` and clears bit `inA` of the
settings register, any other power sets `inA` and clears `inB`, so the two
bits are never both set, and the other bits of the register keep their
values. -/
theorem set_power_command (raw : motordriver) (motorChannel : Nat) (l : List motor_call)
    (m : motordriver) (hch : motorChannel = 1 ∨ motorChannel = 2)
    (hraw : raw.nullFlag = false) (hm : m = calls (construct raw motorChannel) l)
    (power : Int) (hlo : -32000 ≤ power) (hhi : power ≤ 32000) :
    m.nullFlag = false ∧ m.ICR1 = 4095 ∧
    power_after_sign power = |power| ∧
    (set_power m power).compareReg = Int.tdiv |power| 8 ∧
    0 ≤ (set_power m power).compareReg ∧
    (set_power m power).compareReg ≤ 4000 ∧
    (set_power m power).compareReg ≤ (set_power m power).ICR1 ∧
    (power < 0 → (set_power m power).settingsReg.testBit m.inB = true ∧
      (set_power m power).settingsReg.testBit m.inA = false) ∧
    (0 ≤ power → (set_power m power).settingsReg.testBit m.inA = true ∧
      (set_power m power).settingsReg.testBit m.inB = false) ∧
    ¬ ((set_power m power).settingsReg.testBit m.inA = true ∧
      (set_power m power).settingsReg.testBit m.inB = true) ∧
    (∀ j, j ≠ m.inA → j ≠ m.inB →
      (set_power m power).settingsReg.testBit j = (decide (j < 8) && m.settingsReg.testBit j)) := by
  obtain ⟨c1, c2, _, _, c5⟩ := construct_valid raw motorChannel hch hraw
  obtain ⟨f1, f2, f3, _, f5, _⟩ := calls_frame l (construct raw motorChannel)
  rw [← hm] at f1 f2 f3 f5
  have hflag : m.nullFlag = false := by rw [f1, c1]
  have htop : m.ICR1 = 4095 := by rw [f5, c2]
  have hbits : m.inA < 8 ∧ m.inB < 8 ∧ m.inA ≠ m.inB := by
    rw [f2, f3]
    rcases c5 with ⟨a, b, _⟩ | ⟨a, b, _⟩ <;> rw [a, b] <;> decide
  obtain ⟨hA, hB, hAB⟩ := hbits
  obtain ⟨k1, k2⟩ := set_power_compare m hflag power (by omega) (by omega)
  have habs : |power| ≤ 32000 := abs_le.mpr ⟨by omega, hhi⟩
  have habs0 : 0 ≤ |power| := abs_nonneg power
  have hq : Int.tdiv |power| 8 = |power| / 8 := Int.tdiv_eq_ediv habs0 (by norm_num)
  have htop2 : (set_power m power).ICR1 = 4095 := by
    exact ((call_frame m (motor_call.set_power power)).2.2.2.2.1).trans htop
  have hneg : power < 0 → (set_power m power).settingsReg
      = and_not_assign (or_assign m.settingsReg (bit_mask m.inB)) (bit_mask m.inA) := by
    intro h; simp [set_power, hflag, h]
  have hpos : 0 ≤ power → (set_power m power).settingsReg
      = and_not_assign (or_assign m.settingsReg (bit_mask m.inA)) (bit_mask m.inB) := by
    intro h; simp [set_power, hflag, not_lt.mpr h]
  have hAB2 : m.inB ≠ m.inA := fun h => hAB h.symm
  refine ⟨hflag, htop, power_after_sign_abs power (by omega) (by omega), k1, ?_, ?_, ?_,
    ?_, ?_, ?_, ?_⟩
  · rw [k1, hq]; omega
  · rw [k1, hq]; omega
  · rw [htop2, k1, hq]; omega
  · intro h
    rw [hneg h, testBit_set_clear _ _ _ _ hA hB hAB, testBit_set_clear _ _ _ _ hA hB hAB]
    simp [hAB]
  · intro h
    rw [hpos h, testBit_set_clear _ _ _ _ hB hA hAB2, testBit_set_clear _ _ _ _ hB hA hAB2]
    simp [hAB2]
  · rcases lt_or_le power 0 with h | h
    · rw [hneg h, testBit_set_clear _ _ _ _ hA hB hAB]
      simp [hAB]
    · rw [hpos h, testBit_set_clear _ _ _ _ hB hA hAB2, testBit_set_clear _ _ _ _ hB hA hAB2]
      simp [hAB2]
  · intro j hjA hjB
    rcases lt_or_le power 0 with h | h
    · rw [hneg h, testBit_set_clear _ _ _ _ hA hB hAB]
      simp [hjA, hjB]
    · rw [hpos h, testBit_set_clear _ _ _ _ hB hA hAB2]
      simp [hjA, hjB]

/-- Witness for C25: on the driver of channel 2, switched on, the power -32000
puts 4000 into the compare register, sets bit 6 and clears bit 5. -/
theorem set_power_command_witness :
    (set_power (calls (construct cleared 2) [motor_call.on]) (-32000)).compareReg
      = Int.tdiv |(-32000 : Int)| 8 ∧
    (set_power (calls (construct cleared 2) [motor_call.on]) (-32000)).compareReg ≤ 4000 ∧
    (set_power (calls (construct cleared 2) [motor_call.on]) (-32000)).settingsReg = 192 :=
  ⟨(set_power_command cleared 2 [motor_call.on] _ (Or.inr rfl) rfl rfl (-32000)
      (by decide) (by decide)).2.2.2.1,
   (set_power_command cleared 2 [motor_call.on] _ (Or.inr rfl) rfl rfl (-32000)
      (by decide) (by decide)).2.2.2.2.2.1,
   by decide⟩

/-- Claim C26, the part that holds and the input where it fails: on a driver
that is not faulted, every power from -32767 to 32767 puts its magnitude divided
by 8 into the compare register, a value of at most 4095; the power -32768, the
lowest value of the documented range, is left at -32768 by the negation and
puts 61440 into the compare register, which is above 4095. -/
theorem set_power_documented_range (m : motordriver) (hm : m.nullFlag = false) :
    (∀ power, -32767 ≤ power → power ≤ 32767 →
      (set_power m power).compareReg = Int.tdiv |power| 8 ∧
      (set_power m power).compareReg ≤ 4095) ∧
    power_after_sign (-32768) = -32768 ∧
    (set_power m (-32768)).compareReg = 61440 ∧
    ¬ (set_power m (-32768)).compareReg ≤ 4095 ∧
    Int.tdiv |(-32768 : Int)| 8 = 4096 := by
  have h61 : (set_power m (-32768)).compareReg = 61440 := by
    simp only [set_power, hm, Bool.not_false, if_true]
    decide
  refine ⟨?_, by decide, h61, by rw [h61]; decide, by decide⟩
  intro power hlo hhi
  obtain ⟨k1, k2⟩ := set_power_compare m hm power hlo hhi
  have habs : |power| ≤ 32767 := abs_le.mpr ⟨by omega, hhi⟩
  exact ⟨k1, by omega⟩

/-- Witness for C26: the driver of channel 2 receives 61440 in its compare
register for the power -32768, and 4095 for the power -32767. -/
theorem set_power_documented_range_witness :
    (set_power (construct cleared 2) (-32768)).compareReg = 61440 ∧
    (set_power (construct cleared 2) (-32767)).compareReg ≤ 4095 :=
  ⟨(set_power_documented_range (construct cleared 2) rfl).2.2.1,
   ((set_power_documented_range (construct cleared 2) rfl).1 (-32767)
      (by decide) (by decide)).2⟩

end motordriver

/-! ## The published copy under interleaving -/

namespace spoke_counter

/-- What every reachable state of the machine satisfies. -/
theorem step_invariant (s : Machine) (e : Event)
    (ha : s.pc ≠ 0 → s.iflag = false ∧ s.stack = [])
    (hb : s.pc = 2 → s.reg = s.vars.count)
    (hc : s.pc = 3 → s.vars.spoke_count = s.vars.count)
    (hd : s.vars.count ∈ s.held ∧ s.vars.spoke_count ∈ s.held ∧ ∀ v ∈ s.observed, v ∈ s.held) :
    ((step s e).pc ≠ 0 → (step s e).iflag = false ∧ (step s e).stack = []) ∧
    ((step s e).pc = 2 → (step s e).reg = (step s e).vars.count) ∧
    ((step s e).pc = 3 → (step s e).vars.spoke_count = (step s e).vars.count) ∧
    ((step s e).vars.count ∈ (step s e).held ∧ (step s e).vars.spoke_count ∈ (step s e).held ∧
      ∀ v ∈ (step s e).observed, v ∈ (step s e).held) := by
  obtain ⟨hd1, hd2, hd3⟩ := hd
  obtain ⟨vars, iflag, pc, reg, stack, observed, held⟩ := s
  simp only at ha hb hc hd1 hd2 hd3
  cases e with
  | publish =>
    cases stack with
    | cons f rest => exact ⟨ha, hb, hc, hd1, hd2, hd3⟩
    | nil =>
      rcases pc with _ | _ | _ | _ | k
      · simp only [step, update_step, cli]
        exact ⟨by simp, by simp, by simp, hd1, hd2, hd3⟩
      · have h := ha (by omega)
        simp only [step, update_step]
        exact ⟨by simp [h.1], by simp, by simp, hd1, hd2, hd3⟩
      · have h := ha (by omega)
        have h2 := hb rfl
        simp only [step, update_step]
        refine ⟨by simp [h.1], by simp, by simp [h2], hd1, ?_, hd3⟩
        show reg ∈ held
        rw [h2]; exact hd1
      · simp only [step, update_step, sei]
        exact ⟨by simp, by simp, by simp, hd1, hd2, hd3⟩
      · simp only [step, update_step, sei]
        exact ⟨by simp, by simp, by simp, hd1, hd2, hd3⟩
  | handler =>
    cases stack with
    | nil => exact ⟨ha, hb, hc, hd1, hd2, hd3⟩
    | cons f rest =>
      have hpc : pc = 0 := by
        by_contra h
        have := (ha h).2
        cases this
      subst hpc
      obtain ⟨direction, stage, r⟩ := f
      rcases stage with _ | _ | k
      · simp only [step, INT4_step]
        exact ⟨by simp, by simp, by simp, hd1, hd2, hd3⟩
      · simp only [step, INT4_step]
        refine ⟨by simp, by simp, by simp, by simp, ?_, ?_⟩
        · exact List.mem_append_left _ hd2
        · intro v hv; exact List.mem_append_left _ (hd3 v hv)
      · simp only [step, INT4_step, sei]
        exact ⟨by simp, by simp, by simp, hd1, hd2, hd3⟩
  | INT4 =>
    cases iflag with
    | false => exact ⟨ha, hb, hc, hd1, hd2, hd3⟩
    | true =>
      have hpc : pc = 0 := by
        by_contra h
        have := (ha h).1
        cases this
      subst hpc
      simp only [step, INT4_enter, if_true, sei, cli]
      exact ⟨by simp, by simp, by simp, hd1, hd2, hd3⟩
  | INT5 pe5 =>
    cases iflag with
    | false => exact ⟨ha, hb, hc, hd1, hd2, hd3⟩
    | true =>
      have hpc : pc = 0 := by
        by_contra h
        have := (ha h).1
        cases this
      subst hpc
      simp only [step, if_true, sei, cli, wheel_encoder.INT5_vect]
      exact ⟨by simp, by simp, by simp, hd1, hd2, hd3⟩
  | INT6 pe6 =>
    cases iflag with
    | false => exact ⟨ha, hb, hc, hd1, hd2, hd3⟩
    | true =>
      have hpc : pc = 0 := by
        by_contra h
        have := (ha h).1
        cases this
      subst hpc
      simp only [step, if_true, sei, cli, wheel_encoder.INT6_vect]
      exact ⟨by simp, by simp, by simp, hd1, hd2, hd3⟩
  | reader =>
    simp only [step]
    refine ⟨ha, hb, hc, hd1, hd2, ?_⟩
    intro v hv
    rcases List.mem_append.mp hv with h | h
    · exact hd3 v h
    · rw [List.mem_singleton.mp h]; exact hd2

theorem exec_invariant (evs : List Event) :
    ∀ s : Machine,
      (s.pc ≠ 0 → s.iflag = false ∧ s.stack = []) →
      (s.pc = 2 → s.reg = s.vars.count) →
      (s.pc = 3 → s.vars.spoke_count = s.vars.count) →
      (s.vars.count ∈ s.held ∧ s.vars.spoke_count ∈ s.held ∧ ∀ v ∈ s.observed, v ∈ s.held) →
      ((exec s evs).pc ≠ 0 → (exec s evs).iflag = false ∧ (exec s evs).stack = []) ∧
      ((exec s evs).pc = 2 → (exec s evs).reg = (exec s evs).vars.count) ∧
      ((exec s evs).pc = 3 → (exec s evs).vars.spoke_count = (exec s evs).vars.count) ∧
      ((exec s evs).vars.count ∈ (exec s evs).held ∧
        (exec s evs).vars.spoke_count ∈ (exec s evs).held ∧
        ∀ v ∈ (exec s evs).observed, v ∈ (exec s evs).held) := by
  induction evs with
  | nil => intro s ha hb hc hd; exact ⟨ha, hb, hc, hd⟩
  | cons e rest ih =>
    intro s ha hb hc hd
    obtain ⟨a, b, c, d⟩ := step_invariant s e ha hb hc hd
    exact ih (step s e) a b c d

/-- Between `cli()` and `sei()` only the publishing task changes the variables,
its position and its register. -/
theorem exec_masked (evs : List Event) :
    ∀ s : Machine, s.iflag = false → s.stack = [] → Event.publish ∉ evs →
      (exec s evs).vars = s.vars ∧ (exec s evs).iflag = false ∧ (exec s evs).stack = [] ∧
      (exec s evs).pc = s.pc ∧ (exec s evs).reg = s.reg ∧ (exec s evs).held = s.held := by
  induction evs with
  | nil => intro s hi hs _; exact ⟨rfl, hi, hs, rfl, rfl, rfl⟩
  | cons e rest ih =>
    intro s hi hs hn
    simp only [List.mem_cons, not_or] at hn
    have hstep : (step s e).vars = s.vars ∧ (step s e).iflag = false ∧ (step s e).stack = [] ∧
        (step s e).pc = s.pc ∧ (step s e).reg = s.reg ∧ (step s e).held = s.held := by
      cases e with
      | publish => exact absurd rfl hn.1
      | handler => simp [step, INT4_step, hs, hi]
      | INT4 => simp [step, INT4_enter, hi, hs]
      | INT5 pe5 => simp [step, hi, hs]
      | INT6 pe6 => simp [step, hi, hs]
      | reader => simp [step, hi, hs]
    obtain ⟨h1, h2, h3, h4, h5, h6⟩ := hstep
    obtain ⟨k1, k2, k3, k4, k5, k6⟩ := ih (step s e) h2 h3 hn.2
    exact ⟨k1.trans h1, k2, k3, k4.trans h4, k5.trans h5, k6.trans h6⟩

theorem exec_append (s : Machine) (a b : List Event) :
    exec s (a ++ b) = exec (exec s a) b := by
  simp [exec, List.foldl_append]

/-- Claim C22: run any schedule of events (steps of the publishing task, steps
of the edge handler, interrupt requests, readers) from the state after the
constructors.  While the publishing task is between `cli()` and `sei()` the
interrupts are disabled and no handler is in progress, so no interrupt request
and no handler step changes anything there; the value that was loaded is still
the accumulator when it is stored, so after the store the published copy equals
the accumulator; every value a reader has observed is a value that the
accumulator has held; and from any such state in which `update` is about to
start and no handler is in progress, the four instructions of `update`,
interleaved in any way with other events, have on the variables the effect of
the single assignment `spoke_count = count`. -/
theorem published_copy_snapshot (t : Tracker) (num_spokes : Nat) (evs : List Event) :
    ((exec (power_on t num_spokes) evs).pc ≠ 0 →
      (exec (power_on t num_spokes) evs).iflag = false ∧
      (exec (power_on t num_spokes) evs).stack = [] ∧
      ∀ e, e ≠ Event.publish → e ≠ Event.reader →
        step (exec (power_on t num_spokes) evs) e = exec (power_on t num_spokes) evs) ∧
    ((exec (power_on t num_spokes) evs).pc = 2 →
      (exec (power_on t num_spokes) evs).reg = (exec (power_on t num_spokes) evs).vars.count) ∧
    ((exec (power_on t num_spokes) evs).pc = 3 →
      (exec (power_on t num_spokes) evs).vars.spoke_count
        = (exec (power_on t num_spokes) evs).vars.count) ∧
    (∀ v ∈ (exec (power_on t num_spokes) evs).observed,
      v ∈ (exec (power_on t num_spokes) evs).held) ∧
    ((exec (power_on t num_spokes) evs).pc = 0 →
      (exec (power_on t num_spokes) evs).stack = [] →
      ∀ a b c : List Event, Event.publish ∉ a → Event.publish ∉ b → Event.publish ∉ c →
        (exec (exec (power_on t num_spokes) evs)
          (Event.publish :: a ++ Event.publish :: b ++ Event.publish :: c ++ [Event.publish])).vars
          = update (exec (power_on t num_spokes) evs).vars ∧
        (exec (exec (power_on t num_spokes) evs)
          (Event.publish :: a ++ Event.publish :: b ++ Event.publish :: c ++ [Event.publish])).pc
          = 0 ∧
        (exec (exec (power_on t num_spokes) evs)
          (Event.publish :: a ++ Event.publish :: b ++ Event.publish :: c ++ [Event.publish])).iflag
          = true) := by
  obtain ⟨ha, hb, hc, _, _, hd⟩ := exec_invariant evs (power_on t num_spokes)
    (by simp [power_on]) (by simp [power_on]) (by simp [power_on])
    (by simp [power_on, construct])
  generalize exec (power_on t num_spokes) evs = s at *
  refine ⟨?_, hb, hc, hd, ?_⟩
  · intro hpc
    obtain ⟨h1, h2⟩ := ha hpc
    refine ⟨h1, h2, ?_⟩
    intro e he1 he2
    cases e with
    | publish => exact absurd rfl he1
    | reader => exact absurd rfl he2
    | handler => simp [step, INT4_step, h2]
    | INT4 => simp [step, INT4_enter, h1]
    | INT5 pe5 => simp [step, h1]
    | INT6 pe6 => simp [step, h1]
  · intro hpc hst a b c hna hnb hnc
    have e1 : exec s (Event.publish :: a ++ Event.publish :: b ++ Event.publish :: c
        ++ [Event.publish]) =
        step (exec (step (exec (step (exec (step s Event.publish) a) Event.publish) b)
          Event.publish) c) Event.publish := by
      simp [exec, List.foldl_append]
    rw [e1]
    have s1 : (step s Event.publish).pc = 1 ∧ (step s Event.publish).iflag = false ∧
        (step s Event.publish).stack = [] ∧ (step s Event.publish).vars = s.vars := by
      simp [step, update_step, hst, hpc, cli]
    obtain ⟨s1pc, s1i, s1s, s1v⟩ := s1
    obtain ⟨a1, a2, a3, a4, _, _⟩ := exec_masked a (step s Event.publish) s1i s1s hna
    rw [s1v] at a1
    rw [s1pc] at a4
    generalize exec (step s Event.publish) a = sa at *
    have s2 : (step sa Event.publish).pc = 2 ∧ (step sa Event.publish).iflag = false ∧
        (step sa Event.publish).stack = [] ∧ (step sa Event.publish).vars = s.vars ∧
        (step sa Event.publish).reg = s.vars.count := by
      simp [step, update_step, a3, a4, a2, a1]
    obtain ⟨s2pc, s2i, s2s, s2v, s2r⟩ := s2
    obtain ⟨b1, b2, b3, b4, b5, _⟩ := exec_masked b (step sa Event.publish) s2i s2s hnb
    rw [s2v] at b1
    rw [s2pc] at b4
    rw [s2r] at b5
    generalize exec (step sa Event.publish) b = sb at *
    have s3 : (step sb Event.publish).pc = 3 ∧ (step sb Event.publish).iflag = false ∧
        (step sb Event.publish).stack = [] ∧ (step sb Event.publish).vars = update s.vars := by
      simp [step, update_step, b3, b4, b2, b1, b5, update]
    obtain ⟨s3pc, s3i, s3s, s3v⟩ := s3
    obtain ⟨c1, c2, c3, c4, _, _⟩ := exec_masked c (step sb Event.publish) s3i s3s hnc
    rw [s3v] at c1
    rw [s3pc] at c4
    generalize exec (step sb Event.publish) c = sc at *
    simp [step, update_step, c3, c4, sei, c1]

/-- Witness for C22: an edge is counted, then `update` runs up to its store
while a second edge is requested inside the critical section; that request does
not run, and the published copy equals the accumulator (both 1). -/
theorem published_copy_snapshot_witness :
    (exec (power_on ⟨9, 9, 9, false, true, true, 0⟩ 32)
      [Event.INT4, Event.handler, Event.handler, Event.handler, Event.publish,
        Event.publish, Event.INT4, Event.publish]).vars.spoke_count
      = (exec (power_on ⟨9, 9, 9, false, true, true, 0⟩ 32)
      [Event.INT4, Event.handler, Event.handler, Event.handler, Event.publish,
        Event.publish, Event.INT4, Event.publish]).vars.count ∧
    (exec (power_on ⟨9, 9, 9, false, true, true, 0⟩ 32)
      [Event.INT4, Event.handler, Event.handler, Event.handler, Event.publish,
        Event.publish, Event.INT4, Event.publish]).vars.spoke_count = 1 :=
  ⟨(published_copy_snapshot ⟨9, 9, 9, false, true, true, 0⟩ 32
      [Event.INT4, Event.handler, Event.handler, Event.handler, Event.publish,
        Event.publish, Event.INT4, Event.publish]).2.2.1 (by decide),
   by decide⟩

end spoke_counter
